import Mathlib

/-!
The evaluator core of the Sass preprocessor (`eval_apply.cpp`).

A shallow embedding of `src/eval_apply.cpp`: the tree rewriter `eval`, the
arithmetic engine (`accumulate`, `operate`), the mixin and function
applicators and the selector expander (`expand_selector`, `expand_backref`).

Conventions of the embedding.

* A C++ `double` is a value of a type `D` that carries the four arithmetic
  operations, negation, the conversion from integers and the comparison `!=`
  (`DoubleLike D`). Nothing is assumed about these operations, so every
  statement holds for any arithmetic, rounding, NaN and signed zeros included.
  Worked examples are evaluated over `ℚ`.
* A `Node` is a value: the tree of its children with its payload. Where the
  source rewrites a node in place and then drops the returned handle, `eval`
  returns the rewritten argument next to the returned node (`Result.expr` and
  `Result.value`).
* The source shares a node between its holders. One node is evaluated more
  than once in a run: the formal parameters of a mixin, whose defaults
  `apply_mixin` evaluates at every expansion on the node that the environment
  holds. `apply_mixin` therefore rebinds the mixin, with its formals as
  rewritten in place, under the name it was read from; later expansions read
  the rewritten node. The copy of the definition in the tree keeps its parsed
  form.
* The `Environment` is passed in and returned; frames linked by pointer in the
  source are the list `parents` here.
* A C++ exception is `Failure.thrown`; reading a child that does not exist is
  `Failure.undefined`; `eval` takes a fuel argument and `Failure.out_of_fuel`
  is the exhausted recursion budget (a mixin may include itself).
-/

namespace Sass

/-- Modelled from the spec: the enumeration `Node::Type` is declared in
`node.hpp`, which is not part of the sources at hand; these are the variants of
the closed set of section 3.1. `other` stands for any further variant of the
enumeration (a class selector, a pseudo selector, an identifier, ...): the
evaluator has no case for them. -/
inductive NodeType where
  | none
  | root | block | ruleset | propset | rule | css_import
  | selector_group | selector | simple_selector_sequence | selector_schema | backref
  | assignment | variable | mixin | expansion | function_call
  | expression | term | disjunction | conjunction | relation | unary_plus | unary_minus
  | textual_number | textual_percentage | textual_dimension | textual_hex
  | number | numeric_percentage | numeric_dimension | numeric_color | boolean | string_constant
  | comma_list | space_list | value_schema | string_schema
  | add | sub | mul | div
  | eq | neq | gt | gte | lt | lte
  | other (tag : String)
  deriving DecidableEq, Repr, Inhabited

/-- The operations of a C++ `double` that the evaluator uses: `+ - * /`, unary
minus, `static_cast<double>` of an integer and the comparison `!=`. The
comparison is an operation of its own, not the negation of the equality of
`D`: for IEEE doubles a NaN differs from itself and the two zeros do not
differ. -/
class DoubleLike (D : Type) extends Add D, Sub D, Mul D, Div D, Neg D, NatCast D where
  ne : D → D → Bool

instance : DoubleLike ℚ := { ne := fun a b => decide (a ≠ b) }

/-- Modelled from the spec: the class `Node` is declared in `node.hpp`, which is
not part of the sources at hand. Section 3.1: a node carries a source path and
line, a variant tag, an ordered sequence of children, a token, a primitive
payload (double, bool, unit string) and the `should_eval` hint. -/
structure Node (D : Type) where
  type : NodeType
  path : String
  line : Nat
  token : String
  numeric : D
  boolean : Bool
  unit : String
  should_eval : Bool
  children : List (Node D)

/-- The token is a slice of the source text; tokens compare by content. -/
abbrev Token := String

section Model

variable {D : Type} [DoubleLike D] [DecidableEq D]

namespace Node

/-- `Node::size()`. -/
def size (n : Node D) : Nat := n.children.length

/-- `Node::numeric_value()`. -/
def numeric_value (n : Node D) : D := n.numeric

/-- `Node::boolean_value()`. -/
def boolean_value (n : Node D) : Bool := n.boolean

/-- Modelled from the spec: `Node::is_numeric()` is declared in `node.hpp`; the
numeric variants that carry one double are `number`, `numeric_percentage` and
`numeric_dimension`. -/
def is_numeric (n : Node D) : Bool :=
  n.type == .number || n.type == .numeric_percentage || n.type == .numeric_dimension

/-- `Node::push_back` and `operator<<`: append one child. -/
def push_back (n c : Node D) : Node D := { n with children := n.children ++ [c] }

/-- `Node::operator+=`: append every child of `m`. -/
def append (n m : Node D) : Node D := { n with children := n.children ++ m.children }

/-- `Node::pop_back`. -/
def pop_back (n : Node D) : Node D := { n with children := n.children.dropLast }

/-- The assignment `n[i] = c` to an existing child. -/
def set (n : Node D) (i : Nat) (c : Node D) : Node D :=
  { n with children := n.children.set i c }

end Node

/-- The factory call `new_Node(type, path, line, size)`: a node of the given
variant without children (`size` only reserves room). -/
def new_Node (t : NodeType) (path : String) (line : Nat) : Node D :=
  { type := t, path := path, line := line, token := "", numeric := ((0 : Nat) : D),
    boolean := false, unit := "", should_eval := false, children := [] }

/-- The default-constructed `Node()`. -/
def Node.null : Node D := new_Node .none "" 0

/-- The factory call `new_Node(path, line, double)`: a `number`. -/
def new_number (path : String) (line : Nat) (v : D) : Node D :=
  { (new_Node .number path line : Node D) with numeric := v }

/-- The factory call `new_Node(path, line, double, Node::numeric_percentage)`. -/
def new_percentage (path : String) (line : Nat) (v : D) : Node D :=
  { (new_Node .numeric_percentage path line : Node D) with numeric := v }

/-- The factory call `new_Node(path, line, double, unit)`: a
`numeric_dimension`. -/
def new_dimension (path : String) (line : Nat) (v : D) (unit : Token) : Node D :=
  { (new_Node .numeric_dimension path line : Node D) with numeric := v, unit := unit }

/-- The factory call `new_Node(path, line, r, g, b, a)`: a `numeric_color` with
four `number` children. -/
def new_color (path : String) (line : Nat) (r g b a : D) : Node D :=
  { (new_Node .numeric_color path line : Node D) with
    children := [new_number path line r, new_number path line g,
                 new_number path line b, new_number path line a] }

/-- The factory call `new_Node(Node::boolean, path, line, bool)`. -/
def new_boolean (path : String) (line : Nat) (b : Bool) : Node D :=
  { (new_Node .boolean path line : Node D) with boolean := b }

/-- The stage of an `Error`; the evaluator only raises `evaluation`. -/
inductive ErrorType where
  | evaluation
  deriving DecidableEq, Repr

/-- The exception `Error(type, path, line, message)`. -/
structure Error where
  type : ErrorType
  path : String
  line : Nat
  message : String
  deriving DecidableEq, Repr

/-- How a call can end without a result. -/
inductive Failure where
  | thrown (e : Error)
  | undefined
  | out_of_fuel
  deriving DecidableEq, Repr

/-- The child `n[i]`; a child that does not exist is undefined behaviour. -/
def Node.child (n : Node D) (i : Nat) : Except Failure (Node D) :=
  match n.children.get? i with
  | some c => .ok c
  | none => .error .undefined

/-- The collaborators of the evaluator that are not part of the sources at
hand, taken as parameters: the C library `atof`, the lexer
(`Prelexer::number`, `Prelexer::string_constant`), `Token::unquote`, the
emitter `Node::to_string`, the parser entry `parse_selector_group` and the
comparison operators of `Node`. -/
structure Collaborators (D : Type) where
  atof : String → D
  unit_of : String → Token
  string_constant : String → Bool
  unquote : Token → String
  to_string : Node D → String
  parse_selector_group : String → String → Nat → Node D
  node_eq : Node D → Node D → Bool
  node_neq : Node D → Node D → Bool
  node_gt : Node D → Node D → Bool
  node_gte : Node D → Node D → Bool
  node_lt : Node D → Node D → Bool
  node_lte : Node D → Node D → Bool

/-- The function `throw_eval_error`: the error it throws. `substr(1, n - 1)`
keeps at most `n - 1` characters from position 1 on. -/
def throw_eval_error (X : Collaborators D) (message path : String) (line : Nat) : Error :=
  let path1 :=
    if !path.isEmpty && X.string_constant path then
      String.mk ((path.data.drop 1).take (path.length - 1))
    else path
  { type := .evaluation, path := path1, line := line, message := message }

/-- The function `operate`. -/
def operate (op : NodeType) (lhs rhs : D) : D :=
  match op with
  | .add => lhs + rhs
  | .sub => lhs - rhs
  | .mul => lhs * rhs
  | .div => lhs / rhs
  | _ => ((0 : Nat) : D)

/-- The function `accumulate`: the accumulator after `rhs` has been combined
with its last element under `op`. -/
def accumulate (X : Collaborators D) (op : NodeType) (acc rhs : Node D) :
    Except Failure (Node D) :=
  match acc.children.getLast? with
  | none => .error .undefined
  | some lhs =>
    let lnum := lhs.numeric_value
    let rnum := rhs.numeric_value
    if lhs.type = .number ∧ rhs.type = .number then
      let result : Node D := new_number acc.path acc.line (operate op lnum rnum)
      .ok (acc.pop_back.push_back result)
    else if lhs.type = .number ∧ rhs.type = .numeric_dimension then
      let result : Node D := new_dimension acc.path acc.line (operate op lnum rnum) rhs.unit
      .ok (acc.pop_back.push_back result)
    else if lhs.type = .numeric_dimension ∧ rhs.type = .number then
      let result : Node D := new_dimension acc.path acc.line (operate op lnum rnum) lhs.unit
      .ok (acc.pop_back.push_back result)
    else if lhs.type = .numeric_dimension ∧ rhs.type = .numeric_dimension then
      let result : Node D :=
        if op = .div then new_number acc.path acc.line (operate op lnum rnum)
        else new_dimension acc.path acc.line (operate op lnum rnum) lhs.unit
      .ok (acc.pop_back.push_back result)
    else if lhs.type = .number ∧ rhs.type = .numeric_color then
      if op ≠ .sub ∧ op ≠ .div then do
        let r0 ← rhs.child 0
        let r1 ← rhs.child 1
        let r2 ← rhs.child 2
        let r3 ← rhs.child 3
        let r := operate op lhs.numeric_value r0.numeric_value
        let g := operate op lhs.numeric_value r1.numeric_value
        let b := operate op lhs.numeric_value r2.numeric_value
        let a := r3.numeric_value
        .ok (acc.pop_back.push_back (new_color acc.path acc.line r g b a))
      else if op = .div then
        .ok ((acc.push_back (new_Node .div acc.path acc.line)).push_back rhs)
      else if op = .sub then
        .ok ((acc.push_back (new_Node .sub acc.path acc.line)).push_back rhs)
      else
        .ok (acc.push_back rhs)
    else if lhs.type = .numeric_color ∧ rhs.type = .number then do
      let l0 ← lhs.child 0
      let l1 ← lhs.child 1
      let l2 ← lhs.child 2
      let l3 ← lhs.child 3
      let r := operate op l0.numeric_value rhs.numeric_value
      let g := operate op l1.numeric_value rhs.numeric_value
      let b := operate op l2.numeric_value rhs.numeric_value
      let a := l3.numeric_value
      .ok (acc.pop_back.push_back (new_color acc.path acc.line r g b a))
    else if lhs.type = .numeric_color ∧ rhs.type = .numeric_color then do
      let l3 ← lhs.child 3
      let r3 ← rhs.child 3
      if DoubleLike.ne l3.numeric_value r3.numeric_value then
        .error (.thrown (throw_eval_error X
          ("alpha channels must be equal for " ++ X.to_string lhs ++ " + " ++ X.to_string rhs)
          lhs.path lhs.line))
      else do
        let l0 ← lhs.child 0
        let r0 ← rhs.child 0
        let l1 ← lhs.child 1
        let r1 ← rhs.child 1
        let l2 ← lhs.child 2
        let r2 ← rhs.child 2
        let r := operate op l0.numeric_value r0.numeric_value
        let g := operate op l1.numeric_value r1.numeric_value
        let b := operate op l2.numeric_value r2.numeric_value
        let a := l3.numeric_value
        .ok (acc.pop_back.push_back (new_color acc.path acc.line r g b a))
    else
      .ok (acc.push_back rhs)

mutual
/-- Modelled from the spec: `Node::has_backref()` is declared in `node.hpp`;
section 4.4: the node contains a `backref` anywhere in its subtree. -/
def Node.has_backref : Node D → Bool
  | ⟨t, _, _, _, _, _, _, _, cs⟩ => t == .backref || has_backref_list cs
/-- Some node of the list contains a `backref`. -/
def has_backref_list : List (Node D) → Bool
  | [] => false
  | c :: cs => c.has_backref || has_backref_list cs
end

mutual
/-- The function `expand_backref`. -/
def expand_backref (sel pre : Node D) : Node D :=
  match sel with
  | ⟨t, path, line, token, numeric, boolean, unit, should_eval, cs⟩ =>
    match t with
    | .backref => pre
    | .simple_selector_sequence =>
      ⟨t, path, line, token, numeric, boolean, unit, should_eval, expand_backref_list cs pre⟩
    | .selector =>
      ⟨t, path, line, token, numeric, boolean, unit, should_eval, expand_backref_list cs pre⟩
    | _ => ⟨t, path, line, token, numeric, boolean, unit, should_eval, cs⟩
/-- The loop of `expand_backref` over the children. -/
def expand_backref_list (cs : List (Node D)) (pre : Node D) : List (Node D) :=
  match cs with
  | [] => []
  | c :: rest => expand_backref c pre :: expand_backref_list rest pre
end

/-- The four statements that build `new_sel` in `expand_selector`: a fresh
`selector`, to which `p` and then `s` are added, spliced (`+=`) when they are
of variant `selector` and pushed (`<<`) otherwise. -/
def combine (sel p s : Node D) : Node D :=
  let new_sel : Node D := new_Node .selector sel.path sel.line
  let new_sel := if p.type = .selector then new_sel.append p else new_sel.push_back p
  if s.type = .selector then new_sel.append s else new_sel.push_back s

/-- The function `expand_selector`. -/
def expand_selector (sel pre : Node D) : Node D :=
  if pre.type = .none then sel
  else if sel.has_backref then
    if pre.type = .selector_group ∧ sel.type = .selector_group then
      let group : Node D := new_Node .selector_group sel.path sel.line
      { group with children :=
          pre.children.flatMap fun p => sel.children.map fun s => expand_backref s p }
    else if pre.type = .selector_group ∧ sel.type ≠ .selector_group then
      let group : Node D := new_Node .selector_group sel.path sel.line
      { group with children := pre.children.map fun p => expand_backref sel p }
    else if pre.type ≠ .selector_group ∧ sel.type = .selector_group then
      let group : Node D := new_Node .selector_group sel.path sel.line
      { group with children := sel.children.map fun s => expand_backref s pre }
    else
      expand_backref sel pre
  else if pre.type = .selector_group ∧ sel.type = .selector_group then
    let group : Node D := new_Node .selector_group sel.path sel.line
    { group with children :=
        pre.children.flatMap fun p => sel.children.map fun s => combine sel p s }
  else if pre.type = .selector_group ∧ sel.type ≠ .selector_group then
    let group : Node D := new_Node .selector_group sel.path sel.line
    { group with children := pre.children.map fun p => combine sel p sel }
  else if pre.type ≠ .selector_group ∧ sel.type = .selector_group then
    let group : Node D := new_Node .selector_group sel.path sel.line
    { group with children := sel.children.map fun s => combine sel pre s }
  else
    combine sel pre sel

/-- One frame of the environment, `map<Token, Node>`. -/
abbrev Frame (D : Type) := List (Token × Node D)

/-- `map::count`: the frame binds the name. -/
def Frame.count (f : Frame D) (k : Token) : Bool := (List.lookup k f).isSome

/-- `frame[k] = v`: rebinds the name, or adds the binding. -/
def Frame.set : Frame D → Token → Node D → Frame D
  | [], k, v => [(k, v)]
  | (k1, v1) :: rest, k, v =>
    if k1 = k then (k, v) :: rest else (k1, v1) :: Frame.set rest k v

/-- Modelled from the spec: the class `Environment` is declared in
`environment.hpp`, which is not part of the sources at hand. Section 3.3: a
stack of frames, each mapping a token to a node, linked to the enclosing frame;
the root frame is the global frame. `parents` is the chain of enclosing frames,
innermost first. The operations `query`, the subscript read and write, and
`link` below follow sections 3.3 and 4.2. -/
structure Environment (D : Type) where
  current_frame : Frame D
  parents : List (Frame D)

namespace Environment

/-- The frames of the chain, the current one first. -/
def chain (env : Environment D) : List (Frame D) := env.current_frame :: env.parents

/-- `new_frame.link(env)`: the enclosing chain of `self` becomes the chain of
`env`. -/
def link (self env : Environment D) : Environment D :=
  { current_frame := self.current_frame, parents := env.chain }

/-- The first binding of the name on a chain of frames. -/
def lookup_chain : List (Frame D) → Token → Option (Node D)
  | [], _ => none
  | f :: fs, k =>
    match List.lookup k f with
    | some v => some v
    | none => lookup_chain fs k

/-- The subscript read `env[k]` (section 3.3: walks the chain). -/
def lookup (env : Environment D) (k : Token) : Option (Node D) := lookup_chain env.chain k

/-- `env.query(k)`: some frame on the chain defines the name. -/
def query (env : Environment D) (k : Token) : Bool := (env.lookup k).isSome

/-- Rebinds the name in the first frame of the chain that defines it. -/
def rebind_chain : List (Frame D) → Token → Node D → Option (List (Frame D))
  | [], _, _ => none
  | f :: fs, k, v =>
    if f.count k then some (f.set k v :: fs)
    else (rebind_chain fs k v).map fun fs1 => f :: fs1

/-- `env.current_frame[k] = v`. -/
def bind_current (env : Environment D) (k : Token) (v : Node D) : Environment D :=
  { env with current_frame := env.current_frame.set k v }

/-- The subscript write `env[k] = v` (section 3.3: rebinds in the owning
frame, or binds in the current frame if unbound). -/
def assign (env : Environment D) (k : Token) (v : Node D) : Environment D :=
  match rebind_chain env.chain k v with
  | some (f :: fs) => { current_frame := f, parents := fs }
  | _ => env.bind_current k v

/-- The node bound to `k`, rewritten in place to `v`: the owning frame binds
`v`; an environment that does not bind `k` is left as it is. -/
def rebind (env : Environment D) (k : Token) (v : Node D) : Environment D :=
  match rebind_chain env.chain k v with
  | some (f :: fs) => { current_frame := f, parents := fs }
  | _ => env

/-- The environment a frame was linked to, once the frame is discarded. -/
def unlink (env : Environment D) : Environment D :=
  match env.parents with
  | [] => env
  | f :: fs => { current_frame := f, parents := fs }

/-- The frame `env.global ? *env.global : env`: the last frame of the chain. -/
def global_frame (env : Environment D) : Frame D :=
  env.parents.getLast?.getD env.current_frame

/-- The caller's environment after a callee that was linked to its global frame
has left that frame as `g`. -/
def set_global (env : Environment D) (g : Frame D) : Environment D :=
  match env.parents with
  | [] => { env with current_frame := g }
  | ps => { env with parents := ps.dropLast ++ [g] }

end Environment

/-- Modelled from the spec: `Function` is declared in `functions.hpp`, which is
not part of the sources at hand. Section 3.5: an ordered list of formal
parameter names and a native body that receives the bindings. -/
structure Function (D : Type) where
  parameters : List Token
  body : Frame D → Node D

/-- The function table `map<pair<string, size_t>, Function>`. -/
abbrev FunctionTable (D : Type) := List ((String × Nat) × Function D)

/-- What a call of `eval` leaves behind: the node it returns, the argument node
as rewritten in place, and the environment. -/
structure Result (D : Type) where
  value : Node D
  expr : Node D
  env : Environment D

/-- The type of `eval` once the collaborators and the function table are
fixed: node, outer selector, environment. -/
abbrev Evaluator (D : Type) := Node D → Node D → Environment D → Except Failure (Result D)

/-- The loop `for i: eval(expr[i], ...)` of `root` and `block`: the returned
handles are dropped, the children are rewritten in place. -/
def eval_children (ev : Evaluator D) (pre : Node D) :
    List (Node D) → Environment D → Except Failure (List (Node D) × Environment D)
  | [], env => .ok ([], env)
  | c :: cs, env => do
    let r ← ev c pre env
    let (cs1, env1) ← eval_children ev pre cs r.env
    .ok (r.expr :: cs1, env1)

/-- The loop `for i: expr[i] = eval(expr[i], ...)`. -/
def eval_replace (ev : Evaluator D) (pre : Node D) :
    List (Node D) → Environment D → Except Failure (List (Node D) × Environment D)
  | [], env => .ok ([], env)
  | c :: cs, env => do
    let r ← ev c pre env
    let (cs1, env1) ← eval_replace ev pre cs r.env
    .ok (r.value :: cs1, env1)

/-- The loop `for i: if (val[i].should_eval()) val[i] = eval(val[i], ...)`. -/
def eval_should (ev : Evaluator D) (pre : Node D) :
    List (Node D) → Environment D → Except Failure (List (Node D) × Environment D)
  | [], env => .ok ([], env)
  | c :: cs, env =>
    if c.should_eval then do
      let r ← ev c pre env
      let (cs1, env1) ← eval_should ev pre cs r.env
      .ok (r.value :: cs1, env1)
    else do
      let (cs1, env1) ← eval_should ev pre cs env
      .ok (c :: cs1, env1)

/-- The loop of `disjunction` from child `i` on: the result, the children as
rewritten in place, the environment. `result` is the value of the local
variable when the loop is entered. -/
def eval_disjunction (ev : Evaluator D) (pre : Node D) :
    List (Node D) → Node D → Environment D →
      Except Failure (Node D × List (Node D) × Environment D)
  | [], result, env => .ok (result, [], env)
  | c :: cs, _, env => do
    let r ← ev c pre env
    if r.value.type = .boolean ∧ r.value.boolean_value = false then do
      let (res, cs1, env1) ← eval_disjunction ev pre cs r.value r.env
      .ok (res, r.expr :: cs1, env1)
    else
      .ok (r.value, r.expr :: cs, r.env)

/-- The loop of `conjunction` from child `i` on. -/
def eval_conjunction (ev : Evaluator D) (pre : Node D) :
    List (Node D) → Node D → Environment D →
      Except Failure (Node D × List (Node D) × Environment D)
  | [], result, env => .ok (result, [], env)
  | c :: cs, _, env => do
    let r ← ev c pre env
    if r.value.type = .boolean ∧ r.value.boolean_value = false then
      .ok (r.value, r.expr :: cs, r.env)
    else do
      let (res, cs1, env1) ← eval_conjunction ev pre cs r.value r.env
      .ok (res, r.expr :: cs1, env1)

/-- The loop `for (i = 3; i < S; i += 2)` of `expression` and `term` over the
children from index 3 on: operator, operand, operator, operand, ... -/
def accumulate_rest (X : Collaborators D) (ev : Evaluator D) (pre : Node D) :
    List (Node D) → Node D → Environment D →
      Except Failure (Node D × List (Node D) × Environment D)
  | [], acc, env => .ok (acc, [], env)
  | [_], _, _ => .error .undefined
  | op :: operand :: rest, acc, env => do
    let r ← ev operand pre env
    let acc1 ← accumulate X op.type acc r.value
    let (acc2, rest1, env1) ← accumulate_rest X ev pre rest acc1 r.env
    .ok (acc2, op :: r.expr :: rest1, env1)

/-- The body shared by the cases `expression` and `term` of `eval`. -/
def eval_expression (X : Collaborators D) (ev : Evaluator D) (expr pre : Node D)
    (env : Environment D) : Except Failure (Result D) := do
  let acc : Node D := new_Node .expression expr.path expr.line
  let c0 ← expr.child 0
  let r0 ← ev c0 pre env
  let acc := acc.push_back r0.value
  let c2 ← expr.child 2
  let r2 ← ev c2 pre r0.env
  let c1 ← expr.child 1
  let acc ← accumulate X c1.type acc r2.value
  let (acc, rest, env1) ← accumulate_rest X ev pre (expr.children.drop 3) acc r2.env
  let expr1 : Node D := { expr with children := r0.expr :: c1 :: r2.expr :: rest }
  match acc.children with
  | [a] => .ok { value := a, expr := expr1, env := env1 }
  | _ => .ok { value := acc, expr := expr1, env := env1 }

/-- The value of a hexadecimal digit. -/
def hex_value (c : Char) : Option Nat :=
  if '0' ≤ c ∧ c ≤ '9' then some (c.toNat - 48)
  else if 'a' ≤ c ∧ c ≤ 'f' then some (c.toNat - 87)
  else if 'A' ≤ c ∧ c ≤ 'F' then some (c.toNat - 55)
  else none

/-- The digits loop of `strtol(s, NULL, 16)`: the value of the longest prefix
of hexadecimal digits. -/
def strtol16_loop : List Char → Nat → Nat
  | [], acc => acc
  | c :: cs, acc =>
    match hex_value c with
    | some d => strtol16_loop cs (16 * acc + d)
    | none => acc

/-- `strtol(s, NULL, 16)` on the one or two characters the evaluator passes
(leading blanks and a sign, which the lexer never puts in a hex token, are not
modelled). -/
def strtol16 (s : List Char) : Nat := strtol16_loop s 0

/-- The case `textual_hex` of `eval`. The token is a slice of the source
buffer; reading characters past its end is not modelled. -/
def eval_hex (expr : Node D) : Except Failure (Node D) :=
  let triple : Node D := new_Node .numeric_color expr.path expr.line
  let hext := expr.token.data.drop 1
  let channels : Except Failure (List Nat) :=
    if hext.length = 6 then
      .ok [strtol16 (hext.take 2), strtol16 ((hext.drop 2).take 2),
           strtol16 ((hext.drop 4).take 2)]
    else
      match hext with
      | x :: y :: z :: _ => .ok [strtol16 [x, x], strtol16 [y, y], strtol16 [z, z]]
      | _ => .error .undefined
  match channels with
  | .error e => .error e
  | .ok cs =>
    let channels : List (Node D) := cs.map fun n => new_number expr.path expr.line (n : D)
    let alpha : Node D := new_number expr.path expr.line ((1 : Nat) : D)
    .ok { triple with children := channels ++ [alpha] }

/-- The argument loop of `apply_function`: the bindings, the argument nodes as
rewritten in place, the environment. -/
def bind_function_args (ev : Evaluator D) (pre : Node D) (f : Function D) :
    List (Node D) → Nat → Frame D → Environment D →
      Except Failure (Frame D × List (Node D) × Environment D)
  | [], _, b, env => .ok (b, [], env)
  | a :: rest, j, b, env =>
    if a.type = .assignment then do
      let a0 ← a.child 0
      let a1 ← a.child 1
      let r ← ev a1 pre env
      let (b1, rest1, env1) ←
        bind_function_args ev pre f rest j (b.set a0.token r.value) r.env
      .ok (b1, a.set 1 r.expr :: rest1, env1)
    else
      match f.parameters.get? j with
      | none => .error .undefined
      | some name => do
        let r ← ev a pre env
        let (b1, rest1, env1) ←
          bind_function_args ev pre f rest (j + 1) (b.set name r.value) r.env
        .ok (b1, r.expr :: rest1, env1)

/-- The function `apply_function`: the node the native body returns, the
argument list as rewritten in place, the environment. -/
def apply_function (ev : Evaluator D) (f : Function D) (args pre : Node D)
    (env : Environment D) : Except Failure (Node D × Node D × Environment D) := do
  let (b, args1, env1) ← bind_function_args ev pre f args.children 0 [] env
  .ok (f.body b, { args with children := args1 }, env1)

/-- The inner loop of `apply_mixin` that looks for the formal parameter a
keyword argument names. -/
def valid_param (X : Collaborators D) (arg0 : Node D) :
    List (Node D) → Except Failure Bool
  | [] => .ok false
  | p :: ps => do
    let param_k ← if p.type = .assignment then p.child 0 else .ok p
    if X.node_eq arg0 param_k then .ok true else valid_param X arg0 ps

/-- The loop of `apply_mixin` that binds the arguments: the bindings and the
caller's environment. -/
def bind_mixin_args (X : Collaborators D) (ev : Evaluator D) (pre mixin params : Node D) :
    List (Node D) → Nat → Environment D → Environment D →
      Except Failure (Environment D × Environment D)
  | [], _, bindings, env => .ok (bindings, env)
  | a :: rest, j, bindings, env =>
    if a.type = .assignment then do
      let a0 ← a.child 0
      let name := a0.token
      let valid ← valid_param X a0 params.children
      if !valid then do
        let m0 ← mixin.child 0
        .error (.thrown (throw_eval_error X
          ("mixin " ++ X.to_string m0 ++ " has no parameter named " ++ name) a.path a.line))
      else if !bindings.query name then do
        let a1 ← a.child 1
        let r ← ev a1 pre env
        bind_mixin_args X ev pre mixin params rest j (bindings.assign name r.value) r.env
      else
        bind_mixin_args X ev pre mixin params rest j bindings env
    else if j ≥ params.size then do
      let m0 ← mixin.child 0
      .error (.thrown (throw_eval_error X
        ("mixin " ++ X.to_string m0 ++ " only takes " ++ toString params.size
          ++ (if params.size = 1 then " argument" else " arguments")) a.path a.line))
    else do
      let param ← params.child j
      let name ← if param.type = .variable then .ok param.token
                 else (param.child 0).map fun p0 => p0.token
      let r ← ev a pre env
      bind_mixin_args X ev pre mixin params rest (j + 1) (bindings.assign name r.value) r.env

/-- The loop of `apply_mixin` that plugs the holes with default arguments: the
bindings, the caller's environment, and the formals as they are left, the
default `param[1]` of a formal being rewritten in place by `eval`. -/
def bind_defaults (ev : Evaluator D) (pre : Node D) :
    List (Node D) → Environment D → Environment D →
      Except Failure (Environment D × Environment D × List (Node D))
  | [], bindings, env => .ok (bindings, env, [])
  | p :: ps, bindings, env =>
    if p.type = .assignment then do
      let p0 ← p.child 0
      let name := p0.token
      if !bindings.query name then do
        let p1 ← p.child 1
        let r ← ev p1 pre env
        let (bindings1, env1, ps1) ←
          bind_defaults ev pre ps (bindings.assign name r.value) r.env
        .ok (bindings1, env1, p.set 1 r.expr :: ps1)
      else do
        let (bindings1, env1, ps1) ← bind_defaults ev pre ps bindings env
        .ok (bindings1, env1, p :: ps1)
    else do
      let (bindings1, env1, ps1) ← bind_defaults ev pre ps bindings env
      .ok (bindings1, env1, p :: ps1)

/-- The environment `env.global ? *env.global : env`. -/
def Environment.global (env : Environment D) : Environment D :=
  { current_frame := env.global_frame, parents := [] }

/-- The function `apply_mixin`: the expanded body and the caller's
environment. The body is cloned by the factory; a node being a value here, the
clone is the node. The formals are not cloned: `mixin` is a handle on the node
that the environment binds to `name` (where the caller read it), so the
defaults rewritten in place are rewritten in that binding, before the body is
evaluated. -/
def apply_mixin (X : Collaborators D) (ev : Evaluator D) (name : Token)
    (mixin args pre : Node D) (env : Environment D) :
    Except Failure (Node D × Environment D) := do
  let params ← mixin.child 1
  let body ← mixin.child 2
  let bindings : Environment D := { current_frame := [], parents := [] }
  let (bindings, env1) ← bind_mixin_args X ev pre mixin params args.children 0 bindings env
  let (bindings, env2, params1) ← bind_defaults ev pre params.children bindings env1
  let env3 := env2.rebind name (mixin.set 1 { params with children := params1 })
  let bindings := bindings.link env3.global
  let (body1, bindings1) ← eval_replace ev pre body.children bindings
  .ok ({ body with children := body1 }, env3.set_global bindings1.global_frame)

/-- The text the case `selector_schema` hands to the parser: the evaluated
children, unquoted when they are string constants and serialized otherwise, and
the closing ` \x7b`. -/
def schema_text (X : Collaborators D) (cs : List (Node D)) : String :=
  cs.foldl (fun expansion c =>
    if c.type = .string_constant then expansion ++ X.unquote c.token
    else expansion ++ X.to_string c) "" ++ " \x7b"

/-- The function `eval`. `fuel` bounds the depth of the recursion. -/
def eval (X : Collaborators D) (f_env : FunctionTable D) :
    Nat → Node D → Node D → Environment D → Except Failure (Result D)
  | 0, _, _, _ => .error .out_of_fuel
  | fuel + 1, expr, pre, env =>
    match expr.type with
    | .mixin => do
      let c0 ← expr.child 0
      .ok { value := expr, expr := expr, env := env.assign c0.token expr }
    | .expansion => do
      let c0 ← expr.child 0
      let name := c0.token
      let args ← expr.child 1
      match env.lookup name with
      | none =>
        .error (.thrown (throw_eval_error X ("mixin " ++ name ++ " is undefined")
          expr.path expr.line))
      | some mixin => do
        let (expansion, env1) ← apply_mixin X (eval X f_env fuel) name mixin args pre env
        let expr1 := (expr.pop_back.pop_back).append expansion
        .ok { value := expr1, expr := expr1, env := env1 }
    | .propset => do
      let c1 ← expr.child 1
      let r ← eval X f_env fuel c1 pre env
      let expr1 := expr.set 1 r.expr
      .ok { value := expr1, expr := expr1, env := r.env }
    | .ruleset => do
      let c0 ← expr.child 0
      let (expr1, env1) ←
        if c0.type = .selector_schema then do
          let r ← eval X f_env fuel c0 pre env
          pure (expr.set 0 r.value, r.env)
        else pure (expr, env)
      let sel ← expr1.child 0
      let expanded := expand_selector sel pre
      let expr2 := expr1.push_back expanded
      let c1 ← expr2.child 1
      let r ← eval X f_env fuel c1 expanded env1
      let expr3 := expr2.set 1 r.expr
      .ok { value := expr3, expr := expr3, env := r.env }
    | .selector_schema => do
      let (cs, env1) ← eval_replace (eval X f_env fuel) pre expr.children env
      let sel := X.parse_selector_group (schema_text X cs) expr.path expr.line
      .ok { value := sel, expr := { expr with children := cs }, env := env1 }
    | .root => do
      let (cs, env1) ← eval_children (eval X f_env fuel) pre expr.children env
      let expr1 : Node D := { expr with children := cs }
      .ok { value := expr1, expr := expr1, env := env1 }
    | .block => do
      let new_frame : Environment D := { current_frame := [], parents := [] }
      let new_frame := new_frame.link env
      let (cs, env1) ← eval_children (eval X f_env fuel) pre expr.children new_frame
      let expr1 : Node D := { expr with children := cs }
      .ok { value := expr1, expr := expr1, env := env1.unlink }
    | .assignment => do
      let val ← expr.child 1
      let (val1, expr1, env1) ←
        if val.type = .comma_list ∨ val.type = .space_list then do
          let (cs, env1) ← eval_should (eval X f_env fuel) pre val.children env
          let val1 : Node D := { val with children := cs }
          pure (val1, expr.set 1 val1, env1)
        else do
          let r ← eval X f_env fuel val pre env
          pure (r.value, expr.set 1 r.expr, r.env)
      let var ← expr1.child 0
      let env2 :=
        if env1.query var.token then env1.assign var.token val1
        else env1.bind_current var.token val1
      .ok { value := expr1, expr := expr1, env := env2 }
    | .rule => do
      let rhs ← expr.child 1
      if rhs.type = .comma_list ∨ rhs.type = .space_list then do
        let (cs, env1) ← eval_should (eval X f_env fuel) pre rhs.children env
        let expr1 := expr.set 1 { rhs with children := cs }
        .ok { value := expr1, expr := expr1, env := env1 }
      else if rhs.type = .value_schema ∨ rhs.type = .string_schema then do
        let r ← eval X f_env fuel rhs pre env
        let expr1 := expr.set 1 r.expr
        .ok { value := expr1, expr := expr1, env := r.env }
      else if rhs.should_eval then do
        let r ← eval X f_env fuel rhs pre env
        let expr1 := expr.set 1 r.value
        .ok { value := expr1, expr := expr1, env := r.env }
      else
        .ok { value := expr, expr := expr, env := env }
    | .comma_list | .space_list =>
      if expr.should_eval then do
        let c0 ← expr.child 0
        let r ← eval X f_env fuel c0 pre env
        let expr1 := expr.set 0 r.value
        .ok { value := expr1, expr := expr1, env := r.env }
      else
        .ok { value := expr, expr := expr, env := env }
    | .disjunction => do
      let (result, cs, env1) ←
        eval_disjunction (eval X f_env fuel) pre expr.children Node.null env
      .ok { value := result, expr := { expr with children := cs }, env := env1 }
    | .conjunction => do
      let (result, cs, env1) ←
        eval_conjunction (eval X f_env fuel) pre expr.children Node.null env
      .ok { value := result, expr := { expr with children := cs }, env := env1 }
    | .relation => do
      let c0 ← expr.child 0
      let l ← eval X f_env fuel c0 pre env
      let lhs := l.value
      let op ← expr.child 1
      let c2 ← expr.child 2
      let r ← eval X f_env fuel c2 pre l.env
      let rhs := r.value
      let T : Node D := new_boolean lhs.path lhs.line true
      let F : Node D := new_boolean lhs.path lhs.line false
      let expr1 : Node D := { expr with children := l.expr :: op :: r.expr :: expr.children.drop 3 }
      let answer (b : Bool) : Except Failure (Result D) :=
        .ok { value := if b then T else F, expr := expr1, env := r.env }
      match op.type with
      | .eq => answer (X.node_eq lhs rhs)
      | .neq => answer (X.node_neq lhs rhs)
      | .gt => answer (X.node_gt lhs rhs)
      | .gte => answer (X.node_gte lhs rhs)
      | .lt => answer (X.node_lt lhs rhs)
      | .lte => answer (X.node_lte lhs rhs)
      | _ =>
        .error (.thrown (throw_eval_error X ("unknown comparison operator " ++ expr.token)
          expr.path expr.line))
    | .expression => eval_expression X (eval X f_env fuel) expr pre env
    | .term =>
      if expr.should_eval then eval_expression X (eval X f_env fuel) expr pre env
      else .ok { value := expr, expr := expr, env := env }
    | .textual_percentage =>
      .ok { value := new_percentage expr.path expr.line (X.atof expr.token),
            expr := expr, env := env }
    | .textual_dimension =>
      .ok { value := new_dimension expr.path expr.line (X.atof expr.token)
                       (X.unit_of expr.token),
            expr := expr, env := env }
    | .textual_number =>
      .ok { value := new_number expr.path expr.line (X.atof expr.token),
            expr := expr, env := env }
    | .textual_hex => do
      let triple ← eval_hex expr
      .ok { value := triple, expr := expr, env := env }
    | .variable =>
      match env.lookup expr.token with
      | none =>
        .error (.thrown (throw_eval_error X ("reference to unbound variable " ++ expr.token)
          expr.path expr.line))
      | some v => .ok { value := v, expr := expr, env := env }
    | .function_call => do
      let c0 ← expr.child 0
      let c1 ← expr.child 1
      match List.lookup (c0.token, c1.size) f_env with
      | none => .ok { value := expr, expr := expr, env := env }
      | some f => do
        let (v, args1, env1) ← apply_function (eval X f_env fuel) f c1 pre env
        .ok { value := v, expr := expr.set 1 args1, env := env1 }
    | .unary_plus => do
      let c0 ← expr.child 0
      let r ← eval X f_env fuel c0 pre env
      let arg := r.value
      if arg.is_numeric then
        .ok { value := arg, expr := expr.set 0 r.expr, env := r.env }
      else
        let expr1 := expr.set 0 arg
        .ok { value := expr1, expr := expr1, env := r.env }
    | .unary_minus => do
      let c0 ← expr.child 0
      let r ← eval X f_env fuel c0 pre env
      let arg := r.value
      if arg.is_numeric then
        .ok { value := new_number expr.path expr.line (-arg.numeric_value),
              expr := expr.set 0 r.expr, env := r.env }
      else
        let expr1 := expr.set 0 arg
        .ok { value := expr1, expr := expr1, env := r.env }
    | .string_schema | .value_schema => do
      let (cs, env1) ← eval_replace (eval X f_env fuel) pre expr.children env
      let expr1 : Node D := { expr with children := cs }
      .ok { value := expr1, expr := expr1, env := env1 }
    | .css_import => do
      let c0 ← expr.child 0
      let r ← eval X f_env fuel c0 pre env
      let expr1 := expr.set 0 r.value
      .ok { value := expr1, expr := expr1, env := r.env }
    | _ => .ok { value := expr, expr := expr, env := env }

/-! ## Definitions used to state the properties -/

/-- The children of an `expression` after the first operand: operator,
operand, operator, operand, ... -/
def interleave : List (Node D × Node D) → List (Node D)
  | [] => []
  | (op, operand) :: rest => op :: operand :: interleave rest

/-- The left-to-right fold `((v0 op1 v1) op2 v2) ...` of `operate`. -/
def fold_operate (v0 : D) (steps : List (NodeType × D)) : D :=
  steps.foldl (fun acc step => operate step.1 acc step.2) v0

/-- The variants for which `eval` has no case: it returns such a node as it
is. -/
def NodeType.is_inert : NodeType → Bool
  | .none | .selector_group | .selector | .simple_selector_sequence | .backref
  | .number | .numeric_percentage | .numeric_dimension | .numeric_color | .boolean
  | .string_constant | .add | .sub | .mul | .div | .eq | .neq | .gt | .gte | .lt | .lte
  | .other _ => true
  | _ => false

/-- The components a selector contributes to a combined selector: its own
children when it is of variant `selector`, itself otherwise. -/
def components (x : Node D) : List (Node D) :=
  if x.type = .selector then x.children else [x]

mutual
/-- The selector `n` with every `backref` that is reached through `selector`
and `simple_selector_sequence` nodes replaced by `pre`; every other node is
kept, in the same order. -/
def replace_backrefs (pre : Node D) : Node D → Node D
  | ⟨t, path, line, token, numeric, boolean, unit, should_eval, cs⟩ =>
    if t = .backref then pre
    else if t = .selector ∨ t = .simple_selector_sequence then
      ⟨t, path, line, token, numeric, boolean, unit, should_eval, replace_backrefs_list pre cs⟩
    else ⟨t, path, line, token, numeric, boolean, unit, should_eval, cs⟩
/-- The list of nodes with the reachable back-references replaced. -/
def replace_backrefs_list (pre : Node D) : List (Node D) → List (Node D)
  | [] => []
  | c :: cs => replace_backrefs pre c :: replace_backrefs_list pre cs
end

/-- Two frames bind the same names. -/
def Frame.same_keys (f g : Frame D) : Prop := ∀ k, f.count k = g.count k

/-- The environment `env1` is `env` after some evaluation: the enclosing frames
bind the same names as before, and the current frame binds at least the names
it bound before. -/
def Environment.grows (env env1 : Environment D) : Prop :=
  List.Forall₂ Frame.same_keys env.parents env1.parents ∧
    ∀ k, env.current_frame.count k = true → env1.current_frame.count k = true

/-- The evaluator `ev` only lets the environment grow. -/
def Evaluator.grows (ev : Evaluator D) : Prop :=
  ∀ expr pre env r, ev expr pre env = .ok r → env.grows r.env

/-- A member of the group that `expand_selector` builds for a selector with a
back-reference: `s` with its back-references replaced by `p`, and `s` itself
when it contains none. -/
def backref_member (p s : Node D) : Node D :=
  if s.has_backref then replace_backrefs p s else s

/-- The node is a `boolean` with value false. -/
def Node.is_false (v : Node D) : Prop := v.type = .boolean ∧ v.boolean_value = false

instance (v : Node D) : Decidable v.is_false :=
  inferInstanceAs (Decidable (v.type = .boolean ∧ v.boolean_value = false))

/-- The node that names a formal parameter in the validity check of a keyword
argument: child 0 of an `assignment` (a parameter with a default), the formal
itself otherwise. -/
def formal_node (p : Node D) : Node D :=
  if p.type = .assignment then p.children.headD p else p

/-- The name under which a positional argument is bound to the formal `p`: the
token of a `variable`, the token of child 0 otherwise. -/
def formal_name (p : Node D) : Token :=
  if p.type = .variable then p.token else (p.children.headD p).token

/-- The bindings after the names have been bound, in order, to the values. -/
def bind_all (bindings : Environment D) (pairs : List (Token × Node D)) : Environment D :=
  pairs.foldl (fun b p => b.assign p.1 p.2) bindings

/-- The number of positional arguments of an argument list. -/
def positional_count (args : List (Node D)) : Nat :=
  (args.filter fun a => a.type ≠ .assignment).length


/-- The error `apply_mixin` throws for a positional argument `a` that no formal
parameter is left for. -/
def too_many_arguments (X : Collaborators D) (m0 params a : Node D) : Failure :=
  .thrown (throw_eval_error X
    ("mixin " ++ X.to_string m0 ++ " only takes " ++ toString params.size
      ++ (if params.size = 1 then " argument" else " arguments")) a.path a.line)

/-! ### The trees that a second evaluation leaves unchanged -/

/-- The children of a `function_call` name a function, by name and number of
arguments, that is not in the table. -/
def unknown_call (f_env : FunctionTable D) (cs : List (Node D)) : Bool :=
  match cs with
  | c0 :: c1 :: _ => (List.lookup (c0.token, c1.size) f_env).isNone
  | _ => false

/-- The first child is a numeric literal, textual or reduced. -/
def numeric_operand (cs : List (Node D)) : Bool :=
  match cs with
  | c0 :: _ =>
    c0.type == .textual_number || c0.type == .textual_percentage ||
    c0.type == .textual_dimension || c0.is_numeric
  | [] => false

/-- A node that `eval` returns as it is, whatever the environment: a node of a
variant `eval` has no case for, or a call of a function that is not in the
table. -/
def Node.is_fixed (f_env : FunctionTable D) (n : Node D) : Bool :=
  n.type.is_inert || (n.type == .function_call && unknown_call f_env n.children)

/-- A value that a later evaluation of the node holding it leaves alone: as
the value of a rule or an element of a list it is evaluated again only when it
is marked `should_eval`, and then it is fixed; when it is a list, the same holds
for its elements. It is not a schema, which is evaluated in place whatever its
mark. -/
def Node.is_settled (f_env : FunctionTable D) (v : Node D) : Bool :=
  v.type != .value_schema && v.type != .string_schema &&
  (!v.should_eval || v.is_fixed f_env) &&
  (!(v.type == .comma_list || v.type == .space_list) ||
    v.children.all fun c => !c.should_eval || c.is_fixed f_env)

mutual
/-- The expressions on which a second evaluation is followed here: variables,
literals, arithmetic, comparisons, `and` and `or` over such expressions, a sign
in front of a numeric literal, and function calls: of a function that is not in
the table, whatever the arguments, or with such expressions as arguments.
Evaluating one of them rewrites nothing in place. -/
def Node.is_expr (f_env : FunctionTable D) : Node D → Bool
  | ⟨t, _, _, _, _, _, _, _, cs⟩ =>
    match t with
    | .variable | .textual_number | .textual_percentage | .textual_dimension
    | .textual_hex => true
    | .expression | .term | .relation | .disjunction | .conjunction => all_expr f_env cs
    | .function_call => unknown_call f_env cs || second_args f_env cs
    | .unary_plus | .unary_minus => numeric_operand cs
    | _ => t.is_inert
/-- Every node of the list is such an expression. -/
def all_expr (f_env : FunctionTable D) : List (Node D) → Bool
  | [] => true
  | c :: cs => c.is_expr f_env && all_expr f_env cs
/-- The second node of the list is an argument list of such expressions. -/
def second_args (f_env : FunctionTable D) : List (Node D) → Bool
  | _ :: c :: _ => c.has_args f_env
  | _ => false
/-- The children of the node are arguments of the fragment. -/
def Node.has_args (f_env : FunctionTable D) : Node D → Bool
  | ⟨_, _, _, _, _, _, _, _, cs⟩ => all_arg f_env cs
/-- Every argument of the list is such an expression, or a keyword argument (an
`assignment`) whose value is one. -/
def all_arg (f_env : FunctionTable D) : List (Node D) → Bool
  | [] => true
  | a :: rest =>
    (if a.type = .assignment then a.is_keyword f_env else a.is_expr f_env)
      && all_arg f_env rest
/-- The value of the keyword argument is such an expression. -/
def Node.is_keyword (f_env : FunctionTable D) : Node D → Bool
  | ⟨_, _, _, _, _, _, _, _, cs⟩ => second_expr f_env cs
/-- The second node of the list is such an expression. -/
def second_expr (f_env : FunctionTable D) : List (Node D) → Bool
  | _ :: c :: _ => c.is_expr f_env
  | _ => false
end

/-- The elements of a list that are marked `should_eval` are such
expressions. -/
def marked_expr (f_env : FunctionTable D) (cs : List (Node D)) : Bool :=
  cs.all fun c => !c.should_eval || c.is_expr f_env

/-- The right-hand side of an assignment on which a second evaluation is
followed: a list that is not itself marked `should_eval` and whose marked
elements are expressions, or an expression. -/
def assigned_ok (f_env : FunctionTable D) (cs : List (Node D)) : Bool :=
  match cs with
  | _ :: val :: _ =>
    if val.type = .comma_list ∨ val.type = .space_list then
      !val.should_eval && marked_expr f_env val.children
    else val.is_expr f_env
  | _ => false

/-- The value of a rule on which a second evaluation is followed: a list whose
marked elements are expressions, or a node that is not a schema and is an
expression when it is marked. -/
def rule_ok (f_env : FunctionTable D) (cs : List (Node D)) : Bool :=
  match cs with
  | _ :: rhs :: _ =>
    if rhs.type = .comma_list ∨ rhs.type = .space_list then marked_expr f_env rhs.children
    else if rhs.type = .value_schema ∨ rhs.type = .string_schema then false
    else !rhs.should_eval || rhs.is_expr f_env
  | _ => false

/-- The first node of the list is fixed. -/
def first_fixed (f_env : FunctionTable D) (cs : List (Node D)) : Bool :=
  match cs with
  | c0 :: _ => c0.is_fixed f_env
  | [] => false

mutual
/-- The trees on which a second evaluation is followed here: `root`, `block`
and `propset` over such trees, mixin definitions, assignments, rules, and
imports of a fixed node. No `ruleset`, no `expansion`, no schema. -/
def Node.is_stmt (f_env : FunctionTable D) : Node D → Bool
  | ⟨t, _, _, _, _, _, _, should_eval, cs⟩ =>
    match t with
    | .root | .block => all_stmt f_env cs
    | .propset => second_stmt f_env cs
    | .mixin => !should_eval
    | .assignment => assigned_ok f_env cs
    | .rule => rule_ok f_env cs
    | .css_import => first_fixed f_env cs
    | _ => false
/-- Every node of the list is such a tree. -/
def all_stmt (f_env : FunctionTable D) : List (Node D) → Bool
  | [] => true
  | c :: cs => c.is_stmt f_env && all_stmt f_env cs
/-- The second node of the list is such a tree. -/
def second_stmt (f_env : FunctionTable D) : List (Node D) → Bool
  | _ :: c :: _ => c.is_stmt f_env
  | _ => false
end

/-- Every value the frame binds is settled. -/
def Frame.settled (f_env : FunctionTable D) (f : Frame D) : Prop :=
  ∀ p ∈ f, p.2.is_settled f_env = true

/-- Every value the environment binds, in any frame, is settled. -/
def Environment.settled (f_env : FunctionTable D) (env : Environment D) : Prop :=
  ∀ f ∈ env.chain, Frame.settled f_env f

/-- The functions of the table return a settled node when the values they are
given are settled. -/
def functions_settled (f_env : FunctionTable D) : Prop :=
  ∀ key f, List.lookup key f_env = some f →
    ∀ b : Frame D, Frame.settled f_env b → (f.body b).is_settled f_env = true

/-- The evaluator rewrites nothing when it evaluates an expression of the
fragment in a settled environment: the node and the environment are left as
they are, and the value is settled. -/
def Evaluator.keeps_expr (f_env : FunctionTable D) (ev : Evaluator D) : Prop :=
  ∀ c pre env r, c.is_expr f_env = true → env.settled f_env → ev c pre env = .ok r →
    r.expr = c ∧ r.env = env ∧ r.value.is_settled f_env = true

/-- The evaluator, when it returns at all, returns a fixed node as it is. -/
def Evaluator.fixes (f_env : FunctionTable D) (ev : Evaluator D) : Prop :=
  ∀ c pre env r, ev c pre env = .ok r →
    ∀ n pre1 env1, n.is_fixed f_env = true →
      ev n pre1 env1 = .ok { value := n, expr := n, env := env1 }

/-- An accumulator of `eval_expression`: an `expression` that is not marked
`should_eval`; when it has one element, that element is settled. -/
def accumulator_ok (f_env : FunctionTable D) (acc : Node D) : Prop :=
  acc.type = .expression ∧ acc.should_eval = false ∧
    ∀ x, acc.children = [x] → x.is_settled f_env = true

/-- The evaluator repeats itself on the trees of the fragment: in a settled
environment the returned node is the argument as rewritten in place, the
environment stays settled, and evaluating the rewritten node again, from the
environment the first evaluation started with, returns the same result. -/
def Evaluator.repeats (f_env : FunctionTable D) (ev : Evaluator D) : Prop :=
  ∀ s pre env r, s.is_stmt f_env = true → env.settled f_env → ev s pre env = .ok r →
    r.value = r.expr ∧ r.env.settled f_env ∧ ev r.expr pre env = .ok r

end Model

/-! ## Inputs of the worked examples -/

/-- Collaborators for the worked examples: numbers are not parsed, a node is
serialized as its token, nodes compare by token. -/
def plain : Collaborators ℚ :=
  { atof := fun _ => 0, unit_of := fun s => s, string_constant := fun _ => false,
    unquote := fun s => s, to_string := fun n => n.token,
    parse_selector_group := fun _ p l => new_Node .selector_group p l,
    node_eq := fun a b => a.token == b.token, node_neq := fun a b => a.token != b.token,
    node_gt := fun _ _ => false, node_gte := fun _ _ => false,
    node_lt := fun _ _ => false, node_lte := fun _ _ => false }

/-- A node of the given variant with the given children, at `a.scss:1`. -/
def node (t : NodeType) (cs : List (Node ℚ)) : Node ℚ :=
  { (new_Node t "a.scss" 1 : Node ℚ) with children := cs }

/-- A leaf of the given variant with the given token, at `a.scss:1`. -/
def leaf (t : NodeType) (token : Token) : Node ℚ :=
  { (new_Node t "a.scss" 1 : Node ℚ) with token := token }

/-- The number `v`, at `a.scss:1`. -/
def num (v : ℚ) : Node ℚ := new_number "a.scss" 1 v

/-- The empty root environment. -/
def root_env : Environment ℚ := { current_frame := [], parents := [] }

/-- The class selector `.name`. -/
def cls (name : String) : Node ℚ := leaf (.other "class_selector") name

/-- The dimension `v unit`, at `a.scss:1`. -/
def dim (v : ℚ) (unit : Token) : Node ℚ := new_dimension "a.scss" 1 v unit

/-- The color `(r, g, b, a)`, at `a.scss:1`. -/
def color (r g b a : ℚ) : Node ℚ := new_color "a.scss" 1 r g b a

/-- The assignment `name: value`. -/
def assign (name : Token) (value : Node ℚ) : Node ℚ :=
  node .assignment [leaf .variable name, value]

/-- A built-in function with two parameters that returns its first argument. -/
def first_of_two : Function ℚ :=
  { parameters := ["$a", "$b"], body := fun b => (List.lookup "$a" b).getD Node.null }


/-- Modelled from the spec: `Prelexer::string_constant` is declared in
`prelexer.hpp`, which is not part of the sources at hand. Section 6.2: the path
is wrapped in matching quotes (the characters 34 and 39). -/
def quoted (path : String) : Bool :=
  match path.data with
  | q :: rest => (q == Char.ofNat 34 || q == Char.ofNat 39) && rest.getLast? == some q
  | [] => false

/-- The collaborators of the worked examples, with the lexer's
`string_constant` recognizing a quoted path. -/
def quoting : Collaborators ℚ := { plain with string_constant := quoted }

/-- The collaborators of the worked examples, with `atof` reading a natural
number in decimal digits. -/
def decimal : Collaborators ℚ :=
  { plain with
    atof := fun s => ((s.data.foldl (fun n c => 10 * n + (c.toNat - 48)) 0 : Nat) : ℚ) }

/-- The boolean literal `b`, at `a.scss:1`. -/
def bool (b : Bool) : Node ℚ := new_boolean "a.scss" 1 b

/-- A reference to the variable `name`, marked for evaluation by the parser. -/
def var_ref (name : Token) : Node ℚ := { leaf .variable name with should_eval := true }

/-- The rule `property: value`. -/
def rule (property : Token) (value : Node ℚ) : Node ℚ :=
  node .rule [leaf (.other "property") property, value]

/-- The list of formal parameters or of arguments of a mixin. -/
def listing (tag : String) (items : List (Node ℚ)) : Node ℚ := node (.other tag) items

/-- The definition `@mixin name(params) \x7b body \x7d`. -/
def mixin_def (name : Token) (params body : List (Node ℚ)) : Node ℚ :=
  node .mixin [leaf (.other "identifier") name, listing "parameters" params, node .block body]

/-- The statement `@include name(args)`. -/
def expansion_of (name : Token) (args : List (Node ℚ)) : Node ℚ :=
  node .expansion [leaf (.other "identifier") name, listing "arguments" args]

/-- The mixin `@mixin m($p: 2) \x7b w: $p \x7d`. -/
def mixin_m : Node ℚ :=
  mixin_def "m" [assign "$p" (leaf .textual_number "2")] [rule "w" (var_ref "$p")]


/-- The mixin `@mixin n($a, $b: 2) \x7b w: $a \x7d`. -/
def mixin_n : Node ℚ :=
  mixin_def "n" [leaf .variable "$a", assign "$b" (num 2)] [rule "w" (var_ref "$a")]


/-- The mixin `@mixin t \x7b $t: 1; w: $t \x7d`. -/
def mixin_t : Node ℚ := mixin_def "t" [] [assign "$t" (num 1), rule "w" (var_ref "$t")]

/-- The mixin `@mixin s($p: #\x7b$x\x7d) \x7b w: $p \x7d`: the default of `$p` is a
`value_schema` whose child is a reference to `$x`. -/
def mixin_s : Node ℚ :=
  mixin_def "s" [assign "$p" (node .value_schema [var_ref "$x"])] [rule "w" (var_ref "$p")]

/-- The mixin `@mixin d($p: 1, $p: 2) \x7b w: $p \x7d`, which declares `$p` twice. -/
def mixin_d : Node ℚ :=
  mixin_def "d" [assign "$p" (num 1), assign "$p" (num 2)] [rule "w" (var_ref "$p")]

/-- The stylesheet `$x: 1; @mixin s(...) \x7b ... \x7d @include s; $x: 2; @include s;`. -/
def stale_default_sheet : Node ℚ :=
  node .root [assign "$x" (num 1), mixin_s, expansion_of "s" [], assign "$x" (num 2),
    expansion_of "s" []]

/-- The mixin `@mixin one($a) \x7b @include one(1, 2) \x7d`. -/
def mixin_one : Node ℚ :=
  mixin_def "one" [leaf .variable "$a"] [expansion_of "one" [num 1, num 2]]

/-- The stylesheet
`$x: 1; @mixin m($p: 2) \x7b w: $p \x7d w: $x; \x7b $y: $x; h: $y solid \x7d`,
without ruleset and without inclusion. -/
def plain_sheet : Node ℚ :=
  node .root [assign "$x" (num 1), mixin_m, rule "w" (var_ref "$x"),
    node .block [assign "$y" (var_ref "$x"),
      rule "h" (node .space_list [var_ref "$y", leaf (.other "identifier") "solid"])]]

/-- The stylesheet `plain_sheet` as its evaluation leaves it. -/
def plain_sheet_evaluated : Node ℚ :=
  node .root [assign "$x" (num 1), mixin_m, rule "w" (num 1),
    node .block [assign "$y" (var_ref "$x"),
      rule "h" (node .space_list [num 1, leaf (.other "identifier") "solid"])]]

/-- The rule `w: -(1px + solid)`: a sign in front of a sum that does not
reduce. -/
def signed_sum : Node ℚ :=
  rule "w" { node .unary_minus [node .expression
      [dim 1 "px", node .add [], leaf (.other "identifier") "solid"]] with
    should_eval := true }

/-! ## Theorems -/

section Theorems

set_option linter.unusedSectionVars false

variable {D : Type} [DoubleLike D] [DecidableEq D]

/-! ### The arithmetic fold of `expression` -/

theorem accumulate_number (X : Collaborators D) (op : NodeType) (acc lhs rhs : Node D)
    (hacc : acc.children = [lhs]) (hl : lhs.type = .number) (hr : rhs.type = .number) :
    accumulate X op acc rhs =
      .ok { acc with children := [new_number acc.path acc.line
              (operate op lhs.numeric_value rhs.numeric_value)] } := by
  simp [accumulate, hacc, hl, hr, Node.pop_back, Node.push_back]

theorem eval_replace_cons_ok {ev : Evaluator D} {pre c : Node D} {cs vals : List (Node D)}
    {env env1 : Environment D} (h : eval_replace ev pre (c :: cs) env = .ok (vals, env1)) :
    ∃ r vs, ev c pre env = .ok r ∧ eval_replace ev pre cs r.env = .ok (vs, env1) ∧
      vals = r.value :: vs := by
  simp only [eval_replace, bind, Except.bind] at h
  cases hr : ev c pre env with
  | error e => simp [hr] at h
  | ok r =>
    simp only [hr] at h
    cases hcs : eval_replace ev pre cs r.env with
    | error e => simp [hcs] at h
    | ok p =>
      obtain ⟨vs, e1⟩ := p
      simp only [hcs, Except.ok.injEq, Prod.mk.injEq] at h
      exact ⟨r, vs, rfl, by rw [← h.2]; exact hcs, h.1.symm⟩

theorem accumulate_rest_numbers (X : Collaborators D) (ev : Evaluator D) (pre : Node D) :
    ∀ (pairs : List (Node D × Node D)) (acc : Node D) (v : D) (env env1 : Environment D)
      (vals : List (Node D)),
      acc.children = [new_number acc.path acc.line v] →
      eval_replace ev pre (pairs.map Prod.snd) env = .ok (vals, env1) →
      (∀ n ∈ vals, n.type = .number) →
      ∃ rest, accumulate_rest X ev pre (interleave pairs) acc env =
        .ok ({ acc with children := [new_number acc.path acc.line
                (fold_operate v
                  ((pairs.map fun p => p.1.type).zip (vals.map Node.numeric_value)))] },
             rest, env1) := by
  intro pairs
  induction pairs with
  | nil =>
    intro acc v env env1 vals hacc hv _
    simp only [List.map_nil, eval_replace, Except.ok.injEq, Prod.mk.injEq] at hv
    obtain ⟨rfl, rfl⟩ := hv
    refine ⟨[], ?_⟩
    simp only [interleave, accumulate_rest, List.map_nil, List.zip_nil_left, fold_operate,
      List.foldl_nil]
    rw [← hacc]
    cases acc
    rfl
  | cons p pairs ih =>
    intro acc v env env1 vals hacc hv hnum
    obtain ⟨op, operand⟩ := p
    simp only [List.map_cons] at hv
    obtain ⟨r, vs, hr, hvs, rfl⟩ := eval_replace_cons_ok hv
    have hrn : r.value.type = .number := hnum _ (List.mem_cons_self _ _)
    have hstep := accumulate_number X op.type acc _ r.value hacc rfl hrn
    obtain ⟨rest, hrest⟩ := ih
      { acc with children := [new_number acc.path acc.line
          (operate op.type (new_number acc.path acc.line v : Node D).numeric_value
            r.value.numeric_value)] }
      _ r.env env1 vs rfl hvs (fun n hn => hnum n (List.mem_cons_of_mem _ hn))
    refine ⟨op :: r.expr :: rest, ?_⟩
    simp only [interleave, accumulate_rest, bind, Except.bind, hr, hstep, hrest]
    simp [fold_operate, new_number, Node.numeric_value]

/-- C1: an `expression` whose children are `c0, op1, c1, op2, c2, ...` (at least
one operator) and whose operands, evaluated in this order, all give `number`
nodes `v0, v1, v2, ...`, evaluates to one `number` node (at the path and line of
the expression) whose value is the left-to-right fold
`((v0 op1 v1) op2 v2) ...` of `operate`. The operators may be of any variant:
`operate` yields 0 for one that is not add, sub, mul or div. -/
theorem eval_expression_numbers (X : Collaborators D) (f_env : FunctionTable D) (fuel : Nat)
    (expr pre c0 : Node D) (pairs : List (Node D × Node D)) (env env1 : Environment D)
    (v0 : Node D) (vals : List (Node D))
    (htype : expr.type = .expression)
    (hchildren : expr.children = c0 :: interleave pairs)
    (hpairs : pairs ≠ [])
    (hvals : eval_replace (eval X f_env fuel) pre (c0 :: pairs.map Prod.snd) env
      = .ok (v0 :: vals, env1))
    (hnum : ∀ n ∈ v0 :: vals, n.type = .number) :
    ∃ r, eval X f_env (fuel + 1) expr pre env = .ok r ∧ r.env = env1 ∧
      r.value = new_number expr.path expr.line
        (fold_operate v0.numeric_value
          ((pairs.map fun p => p.1.type).zip (vals.map Node.numeric_value))) := by
  obtain ⟨r0, vs, hr0, hvs, hv⟩ := eval_replace_cons_ok hvals
  simp only [List.cons.injEq] at hv
  obtain ⟨rfl, rfl⟩ := hv
  cases pairs with
  | nil => exact absurd rfl hpairs
  | cons p pairs =>
    obtain ⟨op, operand⟩ := p
    simp only [List.map_cons] at hvs
    obtain ⟨r2, vs2, hr2, hvs2, rfl⟩ := eval_replace_cons_ok hvs
    have h0n : r0.value.type = .number := hnum _ (List.mem_cons_self _ _)
    have h2n : r2.value.type = .number :=
      hnum _ (List.mem_cons_of_mem _ (List.mem_cons_self _ _))
    have hstep := accumulate_number X op.type
      ((new_Node .expression expr.path expr.line : Node D).push_back r0.value) r0.value r2.value
      rfl h0n h2n
    obtain ⟨rest, hrest⟩ := accumulate_rest_numbers X (eval X f_env fuel) pre pairs
      { ((new_Node .expression expr.path expr.line : Node D).push_back r0.value) with
        children := [new_number expr.path expr.line
          (operate op.type r0.value.numeric_value r2.value.numeric_value)] }
      _ r2.env env1 vs2 rfl hvs2
      (fun n hn => hnum n (List.mem_cons_of_mem _ (List.mem_cons_of_mem _ hn)))
    have key : eval X f_env (fuel + 1) expr pre env = .ok
        { value := new_number expr.path expr.line
            (fold_operate (operate op.type r0.value.numeric_value r2.value.numeric_value)
              ((pairs.map fun p => p.1.type).zip (vs2.map Node.numeric_value))),
          expr := { expr with children := r0.expr :: op :: r2.expr :: rest },
          env := env1 } := by
      simp only [eval, htype, eval_expression, Node.child, hchildren, interleave,
        List.get?_cons_zero, List.get?_cons_succ, bind, Except.bind, hr0, hr2,
        List.drop_succ_cons, List.drop_zero]
      erw [hstep]
      simp only []
      erw [hrest]
      rfl
    exact ⟨_, key, rfl, by simp [fold_operate]⟩

/-- The expression `1 + 2 * 3` evaluates to the number `(1 + 2) * 3`. -/
theorem eval_expression_numbers_witness :
    (∃ r, eval plain [] 2 (node .expression [num 1, node .add [], num 2, node .mul [], num 3])
        Node.null root_env = .ok r ∧ r.env = root_env ∧
      r.value = new_number "a.scss" 1 (fold_operate (1 : ℚ) [(.add, 2), (.mul, 3)])) ∧
    fold_operate (1 : ℚ) [(.add, 2), (.mul, 3)] = 9 :=
  ⟨eval_expression_numbers plain [] 1
    (node .expression [num 1, node .add [], num 2, node .mul [], num 3]) Node.null (num 1)
    [(node .add [], num 2), (node .mul [], num 3)] root_env root_env (num 1) [num 2, num 3]
    rfl rfl (by simp) rfl (by simp [num, new_number, new_Node]),
   by norm_num [fold_operate, operate]⟩

/-! ### Evaluating a second time -/

theorem eval_inert (X : Collaborators D) (f_env : FunctionTable D) (fuel : Nat)
    (expr pre : Node D) (env : Environment D) (h : expr.type.is_inert = true) :
    eval X f_env (fuel + 1) expr pre env = .ok { value := expr, expr := expr, env := env } := by
  unfold eval
  cases ht : expr.type <;> simp [ht, NodeType.is_inert] at h ⊢

theorem eval_ruleset_size (X : Collaborators D) (f_env : FunctionTable D) (fuel : Nat)
    (expr pre : Node D) (env : Environment D) (r : Result D)
    (ht : expr.type = .ruleset) (h : eval X f_env fuel expr pre env = .ok r) :
    r.value.type = .ruleset ∧ r.value.size = expr.size + 1 := by
  cases fuel with
  | zero => simp [eval] at h
  | succ fuel =>
    simp only [eval, ht, bind, Except.bind, pure, Except.pure] at h
    repeat' (split at h)
    all_goals first
      | (simp at h; done)
      | (simp only [Except.ok.injEq] at h
         subst h
         simp [Node.set, Node.push_back, Node.size, ht])

/-! ### The selector expander -/

theorem length_flatMap_map {α β γ : Type} (l : List α) (m : List β) (f : α → β → γ) :
    (l.flatMap fun a => m.map fun b => f a b).length = l.length * m.length := by
  induction l with
  | nil => simp
  | cons a l ih => simp [List.flatMap_cons, ih, Nat.succ_mul, Nat.add_comm]

/-- C3: for an outer selector `pre` that is not `none` and a selector `sel`
without back-reference, `expand_selector sel pre` is a `selector_group` with
`|pre| * |sel|` members when both are groups, with `|pre|` members when only
`pre` is a group, with `|sel|` members when only `sel` is a group, and one
`selector` node otherwise. -/
theorem expand_selector_size (sel pre : Node D) (hpre : pre.type ≠ .none)
    (hb : sel.has_backref = false) :
    (pre.type = .selector_group → sel.type = .selector_group →
      (expand_selector sel pre).type = .selector_group ∧
      (expand_selector sel pre).size = pre.size * sel.size) ∧
    (pre.type = .selector_group → sel.type ≠ .selector_group →
      (expand_selector sel pre).type = .selector_group ∧
      (expand_selector sel pre).size = pre.size) ∧
    (pre.type ≠ .selector_group → sel.type = .selector_group →
      (expand_selector sel pre).type = .selector_group ∧
      (expand_selector sel pre).size = sel.size) ∧
    (pre.type ≠ .selector_group → sel.type ≠ .selector_group →
      (expand_selector sel pre).type = .selector) := by
  refine ⟨?_, ?_, ?_, ?_⟩
  · intro hp hs
    have h : expand_selector sel pre =
        { (new_Node .selector_group sel.path sel.line : Node D) with
          children := pre.children.flatMap fun p => sel.children.map fun s => combine sel p s } := by
      simp [expand_selector, hpre, hb, hp, hs]
    rw [h]
    exact ⟨rfl, length_flatMap_map _ _ _⟩
  · intro hp hs
    simp [expand_selector, hpre, hb, hp, hs, new_Node, Node.size]
  · intro hp hs
    simp [expand_selector, hpre, hb, hp, hs, new_Node, Node.size]
  · intro hp hs
    have h : expand_selector sel pre = combine sel pre sel := by
      simp [expand_selector, hpre, hb, hp, hs]
    rw [h]
    simp only [combine]
    by_cases h1 : pre.type = .selector <;> by_cases h2 : sel.type = .selector <;>
      simp [h1, h2, Node.append, Node.push_back, new_Node]

/-- The group `.a, .b` combined with the group `.c, .d, .e` has six members. -/
theorem expand_selector_size_witness :
    ((expand_selector (node .selector_group [cls ".c", cls ".d", cls ".e"])
        (node .selector_group [cls ".a", cls ".b"])).type = .selector_group ∧
     (expand_selector (node .selector_group [cls ".c", cls ".d", cls ".e"])
        (node .selector_group [cls ".a", cls ".b"])).size
      = (node .selector_group [cls ".a", cls ".b"]).size
        * (node .selector_group [cls ".c", cls ".d", cls ".e"]).size) ∧
    (node .selector_group [cls ".a", cls ".b"]).size
        * (node .selector_group [cls ".c", cls ".d", cls ".e"]).size = 6 :=
  ⟨(expand_selector_size (node .selector_group [cls ".c", cls ".d", cls ".e"])
      (node .selector_group [cls ".a", cls ".b"]) (by decide) rfl).1 rfl rfl, rfl⟩

/-- C4: for a non-group `sel` without back-reference and a non-group `pre` that
is not `none`, `expand_selector sel pre` is a `selector` whose children are the
components of `pre` followed by the components of `sel` (the children of a
`selector`, the node itself otherwise). -/
theorem expand_selector_components (sel pre : Node D) (hpre : pre.type ≠ .none)
    (hpg : pre.type ≠ .selector_group) (hsg : sel.type ≠ .selector_group)
    (hb : sel.has_backref = false) :
    (expand_selector sel pre).type = .selector ∧
    (expand_selector sel pre).children = components pre ++ components sel ∧
    (expand_selector sel pre).size = (components pre).length + (components sel).length := by
  have h : expand_selector sel pre = combine sel pre sel := by
    simp [expand_selector, hpre, hb, hpg, hsg]
  rw [h]
  simp only [combine, components, Node.size]
  by_cases h1 : pre.type = .selector <;> by_cases h2 : sel.type = .selector <;>
    simp [h1, h2, Node.append, Node.push_back, new_Node, Nat.add_comm]

/-- The selector `.c` under `.a .b` is the flat selector `.a .b .c`. -/
theorem expand_selector_components_witness :
    (expand_selector (cls ".c") (node .selector [cls ".a", cls ".b"])).type = .selector ∧
    (expand_selector (cls ".c") (node .selector [cls ".a", cls ".b"])).children
      = [cls ".a", cls ".b", cls ".c"] ∧
    (expand_selector (cls ".c") (node .selector [cls ".a", cls ".b"])).size = 2 + 1 :=
  expand_selector_components (cls ".c") (node .selector [cls ".a", cls ".b"])
    (by decide) (by decide) (by decide) rfl

mutual
theorem expand_backref_eq (pre : Node D) :
    ∀ sel : Node D, expand_backref sel pre = replace_backrefs pre sel
  | ⟨t, path, line, token, numeric, boolean, unit, should_eval, cs⟩ => by
    have ih := expand_backref_list_eq pre cs
    unfold expand_backref replace_backrefs
    cases t <;> simp [ih]
theorem expand_backref_list_eq (pre : Node D) :
    ∀ cs : List (Node D), expand_backref_list cs pre = replace_backrefs_list pre cs
  | [] => by simp [expand_backref_list, replace_backrefs_list]
  | c :: cs => by
    simp [expand_backref_list, replace_backrefs_list, expand_backref_eq pre c,
      expand_backref_list_eq pre cs]
end

theorem replace_backrefs_list_length (pre : Node D) :
    ∀ cs : List (Node D), (replace_backrefs_list pre cs).length = cs.length
  | [] => by simp [replace_backrefs_list]
  | c :: cs => by simp [replace_backrefs_list, replace_backrefs_list_length pre cs]

/-- C5: for a non-group `sel` that contains a back-reference and a non-group
`pre` that is not `none`, `expand_selector sel pre` is `sel` with the
back-references reached through `selector` and `simple_selector_sequence`
nodes replaced by `pre`. Nothing is put in front: a `sel` that is itself the
back-reference becomes `pre`, any other `sel` keeps its variant and its number
of children. -/
theorem expand_selector_backref (sel pre : Node D) (hpre : pre.type ≠ .none)
    (hpg : pre.type ≠ .selector_group) (hsg : sel.type ≠ .selector_group)
    (hb : sel.has_backref = true) :
    expand_selector sel pre = replace_backrefs pre sel ∧
    (sel.type = .backref → expand_selector sel pre = pre) ∧
    (sel.type ≠ .backref →
      (expand_selector sel pre).type = sel.type ∧ (expand_selector sel pre).size = sel.size) := by
  have h : expand_selector sel pre = replace_backrefs pre sel := by
    simp [expand_selector, hpre, hb, hpg, hsg, expand_backref_eq]
  rw [h]
  refine ⟨rfl, ?_, ?_⟩
  · intro ht
    cases sel
    simp only at ht
    simp [replace_backrefs, ht]
  · intro ht
    cases sel
    simp only at ht
    unfold replace_backrefs
    simp only [ht, if_false]
    split <;> simp [Node.size, replace_backrefs_list_length]

/-- The selector `&:hover` under `.a` becomes `.a:hover`. -/
theorem expand_selector_backref_witness :
    expand_selector
        (node .simple_selector_sequence [leaf .backref "&", leaf (.other "pseudo") ":hover"])
        (leaf (.other "class_selector") ".a")
      = node .simple_selector_sequence
          [leaf (.other "class_selector") ".a", leaf (.other "pseudo") ":hover"] := by
  have h := (expand_selector_backref
    (node .simple_selector_sequence [leaf .backref "&", leaf (.other "pseudo") ":hover"])
    (leaf (.other "class_selector") ".a") (by simp [leaf, new_Node]) (by simp [leaf, new_Node])
    (by simp [node, new_Node])
    (by simp [node, leaf, new_Node, Node.has_backref, has_backref_list])).1
  rw [h]
  simp [replace_backrefs, replace_backrefs_list, node, leaf, new_Node]

/-! ### The arithmetic engine -/

/-- C7: when the tail `lhs` of the accumulator and the operand `rhs` are
`numeric_color` nodes with four children each, `accumulate` throws the
evaluation error `alpha channels must be equal for ...` exactly when the two
alpha values differ, under the comparison `!=` of doubles that the code makes.
When they do not differ, the tail is replaced by a `numeric_color` with four
`number` children: red, green and blue are `operate op` of the two channels,
alpha is the alpha of `lhs`; the accumulator keeps its length. -/
theorem accumulate_colors (X : Collaborators D) (op : NodeType) (acc lhs rhs : Node D)
    (l0 l1 l2 l3 r0 r1 r2 r3 : Node D)
    (hacc : acc.children.getLast? = some lhs)
    (hl : lhs.type = .numeric_color) (hr : rhs.type = .numeric_color)
    (hlc : lhs.children = [l0, l1, l2, l3]) (hrc : rhs.children = [r0, r1, r2, r3]) :
    (accumulate X op acc rhs = .error (.thrown (throw_eval_error X
        ("alpha channels must be equal for " ++ X.to_string lhs ++ " + " ++ X.to_string rhs)
        lhs.path lhs.line))
      ↔ DoubleLike.ne l3.numeric_value r3.numeric_value = true) ∧
    (DoubleLike.ne l3.numeric_value r3.numeric_value = false →
      ∃ tail : Node D,
        accumulate X op acc rhs = .ok (acc.pop_back.push_back tail) ∧
        (acc.pop_back.push_back tail).children = acc.children.dropLast ++ [tail] ∧
        (acc.pop_back.push_back tail).size = acc.size ∧
        tail = new_color acc.path acc.line
          (operate op l0.numeric_value r0.numeric_value)
          (operate op l1.numeric_value r1.numeric_value)
          (operate op l2.numeric_value r2.numeric_value)
          l3.numeric_value ∧
        tail.type = .numeric_color ∧
        tail.children.map Node.type = [.number, .number, .number, .number] ∧
        tail.children.map Node.numeric_value =
          [operate op l0.numeric_value r0.numeric_value,
           operate op l1.numeric_value r1.numeric_value,
           operate op l2.numeric_value r2.numeric_value,
           l3.numeric_value]) := by
  have hne : acc.children ≠ [] := by
    intro h; simp [h] at hacc
  have hsize : ∀ c : Node D, (acc.pop_back.push_back c).size = acc.size := by
    intro c
    simp only [Node.size, Node.pop_back, Node.push_back, List.length_append, List.length_dropLast,
      List.length_singleton]
    have := List.length_pos.mpr hne
    omega
  cases ha : DoubleLike.ne l3.numeric_value r3.numeric_value with
  | true =>
    simp [accumulate, hacc, hl, hr, hlc, hrc, Node.child, ha, bind, Except.bind]
  | false =>
    refine ⟨?_, fun _ => ⟨_, ?_, rfl, hsize _, rfl, rfl, rfl, rfl⟩⟩
    · simp [accumulate, hacc, hl, hr, hlc, hrc, Node.child, ha, bind, Except.bind]
    · simp [accumulate, hacc, hl, hr, hlc, hrc, Node.child, ha, bind, Except.bind]

/-- The colors `(10, 20, 30, 0.5) + (1, 2, 3, 0.5)` give `(11, 22, 33, 0.5)`:
the accumulator keeps one element, a color whose children have these values. -/
theorem accumulate_colors_witness :
    ∃ tail : Node ℚ,
      accumulate plain .add (node .expression [color 10 20 30 (1/2)]) (color 1 2 3 (1/2))
        = .ok (node .expression [tail]) ∧
      tail.type = .numeric_color ∧
      tail.children.map Node.type = [.number, .number, .number, .number] ∧
      tail.children.map Node.numeric_value = [11, 22, 33, 1/2] := by
  obtain ⟨tail, h, _, _, ht, hty, hcs, hvs⟩ :=
    (accumulate_colors plain .add (node .expression [color 10 20 30 (1/2)])
      (color 10 20 30 (1/2)) (color 1 2 3 (1/2))
      (num 10) (num 20) (num 30) (num (1/2)) (num 1) (num 2) (num 3) (num (1/2))
      rfl rfl rfl rfl rfl).2 (by simp [DoubleLike.ne, num, new_number, Node.numeric_value])
  refine ⟨tail, ?_, hty, hcs, ?_⟩
  · rw [h]
    simp [node, new_Node, Node.pop_back, Node.push_back]
  · rw [hvs]
    simp [num, new_number, Node.numeric_value, operate]
    norm_num


/-- C9: for every operator, when one of the accumulator's tail `lhs` and the
operand `rhs` is a `number` and the other a `numeric_dimension`, `accumulate`
replaces the tail by a `numeric_dimension` (the node the factory makes at the
accumulator's path and line) whose value is `operate op l r` and whose unit is
the unit of the dimension operand, `rhs` in the first case and `lhs` in the
second; the elements before the tail are kept and the accumulator keeps its
length. -/
theorem accumulate_number_dimension (X : Collaborators D) (op : NodeType)
    (acc lhs rhs : Node D) (hacc : acc.children.getLast? = some lhs) :
    (lhs.type = .number → rhs.type = .numeric_dimension →
      ∃ tail : Node D,
        accumulate X op acc rhs = .ok (acc.pop_back.push_back tail) ∧
        tail = new_dimension acc.path acc.line
          (operate op lhs.numeric_value rhs.numeric_value) rhs.unit ∧
        tail.type = .numeric_dimension ∧
        tail.numeric_value = operate op lhs.numeric_value rhs.numeric_value ∧
        tail.unit = rhs.unit ∧ tail.children = []) ∧
    (lhs.type = .numeric_dimension → rhs.type = .number →
      ∃ tail : Node D,
        accumulate X op acc rhs = .ok (acc.pop_back.push_back tail) ∧
        tail = new_dimension acc.path acc.line
          (operate op lhs.numeric_value rhs.numeric_value) lhs.unit ∧
        tail.type = .numeric_dimension ∧
        tail.numeric_value = operate op lhs.numeric_value rhs.numeric_value ∧
        tail.unit = lhs.unit ∧ tail.children = []) ∧
    (∀ c : Node D, (acc.pop_back.push_back c).children = acc.children.dropLast ++ [c] ∧
      (acc.pop_back.push_back c).size = acc.size) := by
  have hne : acc.children ≠ [] := by
    intro h; simp [h] at hacc
  refine ⟨?_, ?_, ?_⟩
  · intro hl hr
    exact ⟨_, by simp [accumulate, hacc, hl, hr], rfl, rfl, rfl, rfl, rfl⟩
  · intro hl hr
    exact ⟨_, by simp [accumulate, hacc, hl, hr], rfl, rfl, rfl, rfl, rfl⟩
  · intro c
    refine ⟨rfl, ?_⟩
    simp only [Node.size, Node.pop_back, Node.push_back, List.length_append, List.length_dropLast,
      List.length_singleton]
    have := List.length_pos.mpr hne
    omega

/-- The product `3px * 2` gives one element, a dimension of value 6 and unit
`px`; so does `2 * 3px`, the unit coming from the right operand. -/
theorem accumulate_number_dimension_witness :
    (∃ tail : Node ℚ,
      accumulate plain .mul (node .expression [dim 3 "px"]) (num 2)
        = .ok (node .expression [tail]) ∧
      tail.type = .numeric_dimension ∧ tail.numeric_value = 6 ∧ tail.unit = "px") ∧
    (∃ tail : Node ℚ,
      accumulate plain .mul (node .expression [num 2]) (dim 3 "px")
        = .ok (node .expression [tail]) ∧
      tail.type = .numeric_dimension ∧ tail.numeric_value = 6 ∧ tail.unit = "px") := by
  obtain ⟨t1, h1, _, ht1, hv1, hu1, _⟩ :=
    (accumulate_number_dimension plain .mul (node .expression [dim 3 "px"])
      (dim 3 "px") (num 2) rfl).2.1 rfl rfl
  obtain ⟨t2, h2, _, ht2, hv2, hu2, _⟩ :=
    (accumulate_number_dimension plain .mul (node .expression [num 2])
      (num 2) (dim 3 "px") rfl).1 rfl rfl
  refine ⟨⟨t1, ?_, ht1, ?_, ?_⟩, ⟨t2, ?_, ht2, ?_, ?_⟩⟩
  · rw [h1]; simp [node, new_Node, Node.pop_back, Node.push_back]
  · rw [hv1]; simp [dim, num, new_dimension, new_number, Node.numeric_value, operate]; norm_num
  · rw [hu1]; rfl
  · rw [h2]; simp [node, new_Node, Node.pop_back, Node.push_back]
  · rw [hv2]; simp [dim, num, new_dimension, new_number, Node.numeric_value, operate]; norm_num
  · rw [hu2]; rfl

/-! ### Hexadecimal colors -/

theorem strtol16_pair (a b : Char) (da db : Nat) (ha : hex_value a = some da)
    (hb : hex_value b = some db) : strtol16 [a, b] = 16 * da + db := by
  simp [strtol16, strtol16_loop, ha, hb]

/-- C10: for hexadecimal digits `x`, `y`, `z` of values `dx`, `dy`, `dz`, the
`textual_hex` tokens `#xyz` and `#xxyyzz` both evaluate to the `numeric_color`
whose four `number` children are `17 * dx`, `17 * dy`, `17 * dz` and `1`. -/
theorem eval_hex_short_long (X : Collaborators D) (f_env : FunctionTable D) (fuel : Nat)
    (short long pre : Node D) (env : Environment D) (x y z : Char) (dx dy dz : Nat)
    (hx : hex_value x = some dx) (hy : hex_value y = some dy) (hz : hex_value z = some dz)
    (hst : short.type = .textual_hex) (hlt : long.type = .textual_hex)
    (hs : short.token = String.mk ['#', x, y, z])
    (hl : long.token = String.mk ['#', x, x, y, y, z, z]) :
    eval X f_env (fuel + 1) short pre env = .ok
      { value := new_color short.path short.line
          ((17 * dx : Nat) : D) ((17 * dy : Nat) : D) ((17 * dz : Nat) : D) ((1 : Nat) : D),
        expr := short, env := env } ∧
    eval X f_env (fuel + 1) long pre env = .ok
      { value := new_color long.path long.line
          ((17 * dx : Nat) : D) ((17 * dy : Nat) : D) ((17 * dz : Nat) : D) ((1 : Nat) : D),
        expr := long, env := env } := by
  have e17 : ∀ d : Nat, 16 * d + d = 17 * d := fun d => by omega
  constructor
  · simp [eval, hst, eval_hex, hs, strtol16_pair _ _ _ _ hx hx, strtol16_pair _ _ _ _ hy hy,
      strtol16_pair _ _ _ _ hz hz, e17, new_color, bind, Except.bind]
  · simp [eval, hlt, eval_hex, hl, strtol16_pair _ _ _ _ hx hx, strtol16_pair _ _ _ _ hy hy,
      strtol16_pair _ _ _ _ hz hz, e17, new_color, bind, Except.bind]

/-- The tokens `#abc` and `#aabbcc` both give the color `(170, 187, 204, 1)`. -/
theorem eval_hex_short_long_witness :
    eval plain [] 1 (leaf .textual_hex "#abc") Node.null root_env = .ok
      { value := color 170 187 204 1, expr := leaf .textual_hex "#abc", env := root_env } ∧
    eval plain [] 1 (leaf .textual_hex "#aabbcc") Node.null root_env = .ok
      { value := color 170 187 204 1, expr := leaf .textual_hex "#aabbcc", env := root_env } := by
  have h := eval_hex_short_long plain [] 0 (leaf .textual_hex "#abc")
    (leaf .textual_hex "#aabbcc") Node.null root_env 'a' 'b' 'c' 10 11 12
    (by decide) (by decide) (by decide) rfl rfl rfl rfl
  simpa [color, leaf, new_Node] using h

/-! ### Scope of the variables assigned in a block -/

theorem Frame.count_nil (k : Token) : Frame.count ([] : Frame D) k = false := rfl

theorem Frame.count_cons (a : Token) (b : Node D) (f : Frame D) (k : Token) :
    Frame.count ((a, b) :: f) k = (decide (k = a) || f.count k) := by
  by_cases h : k = a
  · subst h
    simp [Frame.count, List.lookup]
  · have hb : (k == a) = false := by simp [h]
    simp [Frame.count, List.lookup, hb, h]

theorem Frame.count_set (f : Frame D) (k k1 : Token) (v : Node D) :
    (f.set k v).count k1 = (decide (k1 = k) || f.count k1) := by
  induction f with
  | nil => simp [Frame.set, Frame.count_cons, Frame.count_nil]
  | cons p f ih =>
    obtain ⟨a, b⟩ := p
    simp only [Frame.set]
    by_cases hak : a = k
    · subst hak
      by_cases h : k1 = a <;> simp [Frame.count_cons, h]
    · simp only [hak, if_false, Frame.count_cons, ih]
      by_cases h1 : k1 = a <;> by_cases h2 : k1 = k <;> simp [h1, h2]

theorem Frame.same_keys_refl (f : Frame D) : f.same_keys f := fun _ => rfl

theorem Frame.same_keys_trans {f g h : Frame D} (h1 : f.same_keys g) (h2 : g.same_keys h) :
    f.same_keys h := fun k => (h1 k).trans (h2 k)

theorem Frame.same_keys_set (f : Frame D) (k : Token) (v : Node D) (h : f.count k = true) :
    f.same_keys (f.set k v) := by
  intro k1
  rw [Frame.count_set]
  by_cases hk : k1 = k
  · subst hk; simp [h]
  · simp [hk]

theorem forall₂_same_keys_refl (fs : List (Frame D)) : List.Forall₂ Frame.same_keys fs fs := by
  induction fs with
  | nil => exact .nil
  | cons f fs ih => exact .cons (Frame.same_keys_refl f) ih

theorem forall₂_same_keys_trans {fs gs hs : List (Frame D)}
    (h1 : List.Forall₂ Frame.same_keys fs gs) (h2 : List.Forall₂ Frame.same_keys gs hs) :
    List.Forall₂ Frame.same_keys fs hs := by
  induction h1 generalizing hs with
  | nil => cases h2; exact .nil
  | cons hfg _ ih =>
    cases h2 with
    | cons hgh h2 => exact .cons (Frame.same_keys_trans hfg hgh) (ih h2)

theorem Environment.grows_refl (env : Environment D) : env.grows env :=
  ⟨forall₂_same_keys_refl _, fun _ h => h⟩

theorem Environment.grows_trans {e1 e2 e3 : Environment D} (h1 : e1.grows e2)
    (h2 : e2.grows e3) : e1.grows e3 :=
  ⟨forall₂_same_keys_trans h1.1 h2.1, fun k h => h2.2 k (h1.2 k h)⟩

theorem Environment.rebind_chain_same_keys (k : Token) (v : Node D) :
    ∀ (fs gs : List (Frame D)), Environment.rebind_chain fs k v = some gs →
      List.Forall₂ Frame.same_keys fs gs := by
  intro fs
  induction fs with
  | nil => intro gs h; simp [Environment.rebind_chain] at h
  | cons f fs ih =>
    intro gs h
    simp only [Environment.rebind_chain] at h
    by_cases hc : f.count k = true
    · simp only [hc, if_true, Option.some.injEq] at h
      subst h
      exact .cons (Frame.same_keys_set f k v hc) (forall₂_same_keys_refl fs)
    · simp only [hc, Bool.false_eq_true, if_false, Option.map_eq_some'] at h
      obtain ⟨fs1, hfs1, rfl⟩ := h
      exact .cons (Frame.same_keys_refl f) (ih fs1 hfs1)

theorem Environment.grows_bind_current (env : Environment D) (k : Token) (v : Node D) :
    env.grows (env.bind_current k v) := by
  refine ⟨forall₂_same_keys_refl _, fun k1 h => ?_⟩
  simp [Environment.bind_current, Frame.count_set, h]

theorem Environment.grows_assign (env : Environment D) (k : Token) (v : Node D) :
    env.grows (env.assign k v) := by
  unfold Environment.assign
  split
  · rename_i f fs h
    have := Environment.rebind_chain_same_keys k v _ _ h
    simp only [Environment.chain] at this
    cases this with
    | cons hf hfs => exact ⟨hfs, fun k1 h1 => by rw [← hf k1]; exact h1⟩
  · exact Environment.grows_bind_current env k v

theorem bind_ok {α β : Type} {x : Except Failure α} {f : α → Except Failure β} {b : β}
    (h : (x >>= f) = .ok b) : ∃ a, x = .ok a ∧ f a = .ok b := by
  cases x with
  | error e => simp [bind, Except.bind] at h
  | ok a => exact ⟨a, rfl, h⟩

theorem eval_children_grows {ev : Evaluator D} (hev : ev.grows) (pre : Node D) :
    ∀ (cs : List (Node D)) (env : Environment D) (out : List (Node D)) (env1 : Environment D),
      eval_children ev pre cs env = .ok (out, env1) → env.grows env1 := by
  intro cs
  induction cs with
  | nil =>
    intro env out env1 h
    simp only [eval_children, Except.ok.injEq, Prod.mk.injEq] at h
    rw [← h.2]
    exact Environment.grows_refl env
  | cons c cs ih =>
    intro env out env1 h
    simp only [eval_children] at h
    obtain ⟨r, hr, h⟩ := bind_ok h
    obtain ⟨⟨cs1, e1⟩, hcs, h⟩ := bind_ok h
    simp only [Except.ok.injEq, Prod.mk.injEq] at h
    rw [← h.2]
    exact Environment.grows_trans (hev _ _ _ _ hr) (ih _ _ _ hcs)

theorem eval_replace_grows {ev : Evaluator D} (hev : ev.grows) (pre : Node D) :
    ∀ (cs : List (Node D)) (env : Environment D) (out : List (Node D)) (env1 : Environment D),
      eval_replace ev pre cs env = .ok (out, env1) → env.grows env1 := by
  intro cs
  induction cs with
  | nil =>
    intro env out env1 h
    simp only [eval_replace, Except.ok.injEq, Prod.mk.injEq] at h
    rw [← h.2]
    exact Environment.grows_refl env
  | cons c cs ih =>
    intro env out env1 h
    simp only [eval_replace] at h
    obtain ⟨r, hr, h⟩ := bind_ok h
    obtain ⟨⟨cs1, e1⟩, hcs, h⟩ := bind_ok h
    simp only [Except.ok.injEq, Prod.mk.injEq] at h
    rw [← h.2]
    exact Environment.grows_trans (hev _ _ _ _ hr) (ih _ _ _ hcs)

theorem eval_should_grows {ev : Evaluator D} (hev : ev.grows) (pre : Node D) :
    ∀ (cs : List (Node D)) (env : Environment D) (out : List (Node D)) (env1 : Environment D),
      eval_should ev pre cs env = .ok (out, env1) → env.grows env1 := by
  intro cs
  induction cs with
  | nil =>
    intro env out env1 h
    simp only [eval_should, Except.ok.injEq, Prod.mk.injEq] at h
    rw [← h.2]
    exact Environment.grows_refl env
  | cons c cs ih =>
    intro env out env1 h
    simp only [eval_should] at h
    split at h
    · obtain ⟨r, hr, h⟩ := bind_ok h
      obtain ⟨⟨cs1, e1⟩, hcs, h⟩ := bind_ok h
      simp only [Except.ok.injEq, Prod.mk.injEq] at h
      rw [← h.2]
      exact Environment.grows_trans (hev _ _ _ _ hr) (ih _ _ _ hcs)
    · obtain ⟨⟨cs1, e1⟩, hcs, h⟩ := bind_ok h
      simp only [Except.ok.injEq, Prod.mk.injEq] at h
      rw [← h.2]
      exact ih _ _ _ hcs

theorem eval_disjunction_grows {ev : Evaluator D} (hev : ev.grows) (pre : Node D) :
    ∀ (cs : List (Node D)) (result : Node D) (env : Environment D)
      (out : Node D × List (Node D) × Environment D),
      eval_disjunction ev pre cs result env = .ok out → env.grows out.2.2 := by
  intro cs
  induction cs with
  | nil =>
    intro result env out h
    simp only [eval_disjunction, Except.ok.injEq] at h
    rw [← h]
    exact Environment.grows_refl env
  | cons c cs ih =>
    intro result env out h
    simp only [eval_disjunction] at h
    obtain ⟨r, hr, h⟩ := bind_ok h
    split at h
    · obtain ⟨⟨res, cs1, e1⟩, hcs, h⟩ := bind_ok h
      simp only [Except.ok.injEq] at h
      rw [← h]
      exact Environment.grows_trans (hev _ _ _ _ hr) (ih _ _ (res, cs1, e1) hcs)
    · simp only [Except.ok.injEq] at h
      rw [← h]
      exact hev _ _ _ _ hr

theorem eval_conjunction_grows {ev : Evaluator D} (hev : ev.grows) (pre : Node D) :
    ∀ (cs : List (Node D)) (result : Node D) (env : Environment D)
      (out : Node D × List (Node D) × Environment D),
      eval_conjunction ev pre cs result env = .ok out → env.grows out.2.2 := by
  intro cs
  induction cs with
  | nil =>
    intro result env out h
    simp only [eval_conjunction, Except.ok.injEq] at h
    rw [← h]
    exact Environment.grows_refl env
  | cons c cs ih =>
    intro result env out h
    simp only [eval_conjunction] at h
    obtain ⟨r, hr, h⟩ := bind_ok h
    split at h
    · simp only [Except.ok.injEq] at h
      rw [← h]
      exact hev _ _ _ _ hr
    · obtain ⟨⟨res, cs1, e1⟩, hcs, h⟩ := bind_ok h
      simp only [Except.ok.injEq] at h
      rw [← h]
      exact Environment.grows_trans (hev _ _ _ _ hr) (ih _ _ (res, cs1, e1) hcs)

theorem accumulate_rest_grows (X : Collaborators D) {ev : Evaluator D} (hev : ev.grows)
    (pre : Node D) :
    ∀ (n : Nat) (cs : List (Node D)), cs.length ≤ n → ∀ (acc : Node D) (env : Environment D)
      (out : Node D × List (Node D) × Environment D),
      accumulate_rest X ev pre cs acc env = .ok out → env.grows out.2.2 := by
  intro n
  induction n with
  | zero =>
    intro cs hn acc env out h
    have : cs = [] := List.length_eq_zero.mp (Nat.le_zero.mp hn)
    subst this
    simp only [accumulate_rest, Except.ok.injEq] at h
    rw [← h]
    exact Environment.grows_refl env
  | succ n ih =>
    intro cs hn acc env out h
    match cs, hn, h with
    | [], _, h =>
      simp only [accumulate_rest, Except.ok.injEq] at h
      rw [← h]
      exact Environment.grows_refl env
    | [_], _, h => simp [accumulate_rest] at h
    | op :: operand :: rest, hn, h =>
      simp only [accumulate_rest] at h
      obtain ⟨r, hr, h⟩ := bind_ok h
      obtain ⟨acc1, hacc, h⟩ := bind_ok h
      obtain ⟨⟨acc2, rest1, e1⟩, hrest, h⟩ := bind_ok h
      simp only [Except.ok.injEq] at h
      rw [← h]
      have hlen : rest.length ≤ n := by simp only [List.length_cons] at hn; omega
      exact Environment.grows_trans (hev _ _ _ _ hr) (ih rest hlen _ _ (acc2, rest1, e1) hrest)

theorem eval_expression_grows (X : Collaborators D) {ev : Evaluator D} (hev : ev.grows)
    (expr pre : Node D) (env : Environment D) (r : Result D)
    (h : eval_expression X ev expr pre env = .ok r) : env.grows r.env := by
  simp only [eval_expression] at h
  obtain ⟨c0, _, h⟩ := bind_ok h
  obtain ⟨r0, hr0, h⟩ := bind_ok h
  obtain ⟨c2, _, h⟩ := bind_ok h
  obtain ⟨r2, hr2, h⟩ := bind_ok h
  obtain ⟨c1, _, h⟩ := bind_ok h
  obtain ⟨acc, _, h⟩ := bind_ok h
  obtain ⟨⟨acc2, rest, e1⟩, hrest, h⟩ := bind_ok h
  have hg : env.grows e1 :=
    Environment.grows_trans (hev _ _ _ _ hr0) (Environment.grows_trans (hev _ _ _ _ hr2)
      (accumulate_rest_grows X hev pre _ _ (Nat.le_refl _) _ _ (acc2, rest, e1) hrest))
  simp only at h
  split at h <;> (simp only [Except.ok.injEq] at h; rw [← h]; exact hg)

theorem bind_function_args_grows {ev : Evaluator D} (hev : ev.grows) (pre : Node D)
    (f : Function D) :
    ∀ (args : List (Node D)) (j : Nat) (b : Frame D) (env : Environment D)
      (out : Frame D × List (Node D) × Environment D),
      bind_function_args ev pre f args j b env = .ok out → env.grows out.2.2 := by
  intro args
  induction args with
  | nil =>
    intro j b env out h
    simp only [bind_function_args, Except.ok.injEq] at h
    rw [← h]
    exact Environment.grows_refl env
  | cons a rest ih =>
    intro j b env out h
    simp only [bind_function_args] at h
    split at h
    · obtain ⟨a0, _, h⟩ := bind_ok h
      obtain ⟨a1, _, h⟩ := bind_ok h
      obtain ⟨r, hr, h⟩ := bind_ok h
      obtain ⟨⟨b1, rest1, e1⟩, hrest, h⟩ := bind_ok h
      simp only [Except.ok.injEq] at h
      rw [← h]
      exact Environment.grows_trans (hev _ _ _ _ hr) (ih _ _ _ (b1, rest1, e1) hrest)
    · split at h
      · simp at h
      · obtain ⟨r, hr, h⟩ := bind_ok h
        obtain ⟨⟨b1, rest1, e1⟩, hrest, h⟩ := bind_ok h
        simp only [Except.ok.injEq] at h
        rw [← h]
        exact Environment.grows_trans (hev _ _ _ _ hr) (ih _ _ _ (b1, rest1, e1) hrest)

theorem apply_function_grows {ev : Evaluator D} (hev : ev.grows) (f : Function D)
    (args pre : Node D) (env : Environment D) (out : Node D × Node D × Environment D)
    (h : apply_function ev f args pre env = .ok out) : env.grows out.2.2 := by
  simp only [apply_function] at h
  obtain ⟨⟨b, args1, e1⟩, hb, h⟩ := bind_ok h
  simp only [Except.ok.injEq] at h
  rw [← h]
  exact bind_function_args_grows hev pre f _ _ _ _ (b, args1, e1) hb

theorem bind_mixin_args_grows (X : Collaborators D) {ev : Evaluator D} (hev : ev.grows)
    (pre mixin params : Node D) :
    ∀ (args : List (Node D)) (j : Nat) (b env : Environment D)
      (out : Environment D × Environment D),
      bind_mixin_args X ev pre mixin params args j b env = .ok out → env.grows out.2 := by
  intro args
  induction args with
  | nil =>
    intro j b env out h
    simp only [bind_mixin_args, Except.ok.injEq] at h
    rw [← h]
    exact Environment.grows_refl env
  | cons a rest ih =>
    intro j b env out h
    simp only [bind_mixin_args] at h
    split at h
    · obtain ⟨a0, _, h⟩ := bind_ok h
      obtain ⟨valid, _, h⟩ := bind_ok h
      split at h
      · obtain ⟨m0, _, h⟩ := bind_ok h
        simp at h
      · split at h
        · obtain ⟨a1, _, h⟩ := bind_ok h
          obtain ⟨r, hr, h⟩ := bind_ok h
          exact Environment.grows_trans (hev _ _ _ _ hr) (ih _ _ _ _ h)
        · exact ih _ _ _ _ h
    · split at h
      · obtain ⟨m0, _, h⟩ := bind_ok h
        simp at h
      · obtain ⟨param, _, h⟩ := bind_ok h
        split at h <;>
        · obtain ⟨name, _, h⟩ := bind_ok h
          obtain ⟨r, hr, h⟩ := bind_ok h
          exact Environment.grows_trans (hev _ _ _ _ hr) (ih _ _ _ _ h)

theorem bind_defaults_grows {ev : Evaluator D} (hev : ev.grows) (pre : Node D) :
    ∀ (params : List (Node D)) (b env : Environment D)
      (out : Environment D × Environment D × List (Node D)),
      bind_defaults ev pre params b env = .ok out → env.grows out.2.1 := by
  intro params
  induction params with
  | nil =>
    intro b env out h
    simp only [bind_defaults, Except.ok.injEq] at h
    rw [← h]
    exact Environment.grows_refl env
  | cons p ps ih =>
    intro b env out h
    simp only [bind_defaults] at h
    split at h
    · obtain ⟨p0, _, h⟩ := bind_ok h
      split at h
      · obtain ⟨p1, _, h⟩ := bind_ok h
        obtain ⟨r, hr, h⟩ := bind_ok h
        obtain ⟨⟨b1, e1, ps1⟩, hrec, h⟩ := bind_ok h
        simp only [Except.ok.injEq] at h
        rw [← h]
        exact Environment.grows_trans (hev _ _ _ _ hr) (ih _ _ (b1, e1, ps1) hrec)
      · obtain ⟨⟨b1, e1, ps1⟩, hrec, h⟩ := bind_ok h
        simp only [Except.ok.injEq] at h
        rw [← h]
        exact ih _ _ (b1, e1, ps1) hrec
    · obtain ⟨⟨b1, e1, ps1⟩, hrec, h⟩ := bind_ok h
      simp only [Except.ok.injEq] at h
      rw [← h]
      exact ih _ _ (b1, e1, ps1) hrec

theorem forall₂_same_keys_append {as bs cs ds : List (Frame D)}
    (h1 : List.Forall₂ Frame.same_keys as bs) (h2 : List.Forall₂ Frame.same_keys cs ds) :
    List.Forall₂ Frame.same_keys (as ++ cs) (bs ++ ds) := by
  induction h1 with
  | nil => exact h2
  | cons h _ ih => exact .cons h ih

theorem Environment.grows_set_global (env : Environment D) (g : Frame D)
    (h : env.global_frame.same_keys g) : env.grows (env.set_global g) := by
  unfold Environment.set_global
  cases hp : env.parents with
  | nil =>
    simp only [Environment.global_frame, hp, List.getLast?_nil, Option.getD_none] at h
    exact ⟨by simp [hp], fun k hk => by rw [← h k]; exact hk⟩
  | cons p ps =>
    have hl : (p :: ps).getLast? = some ((p :: ps).getLast (by simp)) :=
      List.getLast?_eq_getLast _ _
    simp only [Environment.global_frame, hp, hl, Option.getD_some] at h
    refine ⟨?_, fun _ hk => hk⟩
    simp only [hp]
    have hsplit : (p :: ps).dropLast ++ [(p :: ps).getLast (by simp)] = p :: ps :=
      List.dropLast_append_getLast _
    conv => lhs; rw [← hsplit]
    exact forall₂_same_keys_append (forall₂_same_keys_refl _) (.cons h .nil)

theorem Environment.rebind_same_chain (env : Environment D) (k : Token) (v : Node D) :
    List.Forall₂ Frame.same_keys env.chain (env.rebind k v).chain := by
  unfold Environment.rebind
  split
  · rename_i f fs h
    exact Environment.rebind_chain_same_keys k v _ _ h
  · exact forall₂_same_keys_refl _

theorem Environment.grows_rebind (env : Environment D) (k : Token) (v : Node D) :
    env.grows (env.rebind k v) := by
  have h := Environment.rebind_same_chain env k v
  simp only [Environment.chain] at h
  cases h with
  | cons hfg hrest => exact ⟨hrest, fun k1 hk => by rw [← hfg k1]; exact hk⟩

theorem apply_mixin_grows (X : Collaborators D) {ev : Evaluator D} (hev : ev.grows)
    (name : Token) (mixin args pre : Node D) (env : Environment D)
    (out : Node D × Environment D)
    (h : apply_mixin X ev name mixin args pre env = .ok out) : env.grows out.2 := by
  simp only [apply_mixin] at h
  obtain ⟨params, _, h⟩ := bind_ok h
  obtain ⟨body, _, h⟩ := bind_ok h
  obtain ⟨⟨b1, env1⟩, h1, h⟩ := bind_ok h
  obtain ⟨⟨b2, env2, params1⟩, h2, h⟩ := bind_ok h
  obtain ⟨⟨body1, b3⟩, h3, h⟩ := bind_ok h
  simp only [Except.ok.injEq] at h
  rw [← h]
  have g1 := bind_mixin_args_grows X hev pre mixin params _ _ _ _ _ h1
  have g2 := bind_defaults_grows hev pre _ _ _ _ h2
  have g3 := eval_replace_grows hev pre _ _ _ _ h3
  have hk : Frame.same_keys
      (env2.rebind name (mixin.set 1 { params with children := params1 })).global_frame
      b3.global_frame := by
    have hp := g3.1
    simp only [Environment.link, Environment.global, Environment.chain] at hp
    generalize hb3 : b3.parents = ps at hp
    cases hp with
    | cons hfg hrest =>
      cases hrest
      simp only [Environment.global_frame, hb3, List.getLast?_singleton, Option.getD_some]
      exact hfg
  exact Environment.grows_trans g1 (Environment.grows_trans g2
    (Environment.grows_trans (Environment.grows_rebind env2 _ _)
      (Environment.grows_set_global _ _ hk)))

theorem Environment.grows_unlink_link (env e1 : Environment D)
    (h : (Environment.link { current_frame := [], parents := [] } env).grows e1) :
    List.Forall₂ Frame.same_keys env.chain e1.unlink.chain := by
  have hp := h.1
  simp only [Environment.link, Environment.chain] at hp ⊢
  generalize hps : e1.parents = ps at hp
  cases hp with
  | cons hfg hrest =>
    simp only [Environment.unlink, hps]
    exact .cons hfg hrest

theorem Environment.grows_of_chain {env e1 : Environment D}
    (h : List.Forall₂ Frame.same_keys env.chain e1.chain) : env.grows e1 := by
  simp only [Environment.chain] at h
  cases h with
  | cons hfg hrest => exact ⟨hrest, fun k hk => by rw [← hfg k]; exact hk⟩

theorem eval_grows (X : Collaborators D) (f_env : FunctionTable D) :
    ∀ fuel, Evaluator.grows (eval X f_env fuel) := by
  intro fuel
  induction fuel with
  | zero =>
    intro expr pre env r h
    simp [eval] at h
  | succ fuel ih =>
    intro expr pre env r h
    simp only [eval] at h
    split at h
    · -- mixin
      obtain ⟨c0, _, h⟩ := bind_ok h
      simp only [Except.ok.injEq] at h
      rw [← h]
      exact Environment.grows_assign _ _ _
    · -- expansion
      obtain ⟨c0, _, h⟩ := bind_ok h
      obtain ⟨args, _, h⟩ := bind_ok h
      split at h
      · simp at h
      · obtain ⟨⟨expansion, env1⟩, hm, h⟩ := bind_ok h
        simp only [Except.ok.injEq] at h
        rw [← h]
        exact apply_mixin_grows X ih _ _ _ _ _ _ hm
    · -- propset
      obtain ⟨c1, _, h⟩ := bind_ok h
      obtain ⟨r1, hr1, h⟩ := bind_ok h
      simp only [Except.ok.injEq] at h
      rw [← h]
      exact ih _ _ _ r1 hr1
    · -- ruleset
      obtain ⟨c0, _, h⟩ := bind_ok h
      split at h
      · obtain ⟨r0, hr0, h⟩ := bind_ok h
        simp only [pure, Except.pure, bind, Except.bind] at h
        obtain ⟨sel, _, h⟩ := bind_ok h
        obtain ⟨c1, _, h⟩ := bind_ok h
        obtain ⟨r1, hr1, h⟩ := bind_ok h
        simp only [Except.ok.injEq] at h
        rw [← h]
        exact Environment.grows_trans (ih _ _ _ r0 hr0) (ih _ _ _ r1 hr1)
      · simp only [pure, Except.pure, bind, Except.bind] at h
        obtain ⟨sel, _, h⟩ := bind_ok h
        obtain ⟨c1, _, h⟩ := bind_ok h
        obtain ⟨r1, hr1, h⟩ := bind_ok h
        simp only [Except.ok.injEq] at h
        rw [← h]
        exact ih _ _ _ r1 hr1
    · -- selector_schema
      obtain ⟨⟨cs, env1⟩, hcs, h⟩ := bind_ok h
      simp only [Except.ok.injEq] at h
      rw [← h]
      exact eval_replace_grows ih pre _ _ _ _ hcs
    · -- root
      obtain ⟨⟨cs, env1⟩, hcs, h⟩ := bind_ok h
      simp only [Except.ok.injEq] at h
      rw [← h]
      exact eval_children_grows ih pre _ _ _ _ hcs
    · -- block
      obtain ⟨⟨cs, env1⟩, hcs, h⟩ := bind_ok h
      simp only [Except.ok.injEq] at h
      rw [← h]
      exact Environment.grows_of_chain
        (Environment.grows_unlink_link env env1 (eval_children_grows ih pre _ _ _ _ hcs))
    · -- assignment
      obtain ⟨val, _, h⟩ := bind_ok h
      split at h
      · obtain ⟨⟨cs, e1⟩, hcs, h⟩ := bind_ok h
        simp only [pure, Except.pure, bind, Except.bind] at h
        obtain ⟨var, _, h⟩ := bind_ok h
        simp only [Except.ok.injEq] at h
        rw [← h]
        refine Environment.grows_trans (eval_should_grows ih pre _ _ _ _ hcs) ?_
        simp only
        split
        · exact Environment.grows_assign _ _ _
        · exact Environment.grows_bind_current _ _ _
      · obtain ⟨r0, hr0, h⟩ := bind_ok h
        simp only [pure, Except.pure, bind, Except.bind] at h
        obtain ⟨var, _, h⟩ := bind_ok h
        simp only [Except.ok.injEq] at h
        rw [← h]
        refine Environment.grows_trans (ih _ _ _ r0 hr0) ?_
        simp only
        split
        · exact Environment.grows_assign _ _ _
        · exact Environment.grows_bind_current _ _ _
    · -- rule
      obtain ⟨rhs, _, h⟩ := bind_ok h
      split at h
      · obtain ⟨⟨cs, e1⟩, hcs, h⟩ := bind_ok h
        simp only [Except.ok.injEq] at h
        rw [← h]
        exact eval_should_grows ih pre _ _ _ _ hcs
      · split at h
        · obtain ⟨r0, hr0, h⟩ := bind_ok h
          simp only [Except.ok.injEq] at h
          rw [← h]
          exact ih _ _ _ r0 hr0
        · split at h
          · obtain ⟨r0, hr0, h⟩ := bind_ok h
            simp only [Except.ok.injEq] at h
            rw [← h]
            exact ih _ _ _ r0 hr0
          · simp only [Except.ok.injEq] at h
            rw [← h]
            exact Environment.grows_refl _
    · -- comma_list
      split at h
      · obtain ⟨c0, _, h⟩ := bind_ok h
        obtain ⟨r0, hr0, h⟩ := bind_ok h
        simp only [Except.ok.injEq] at h
        rw [← h]
        exact ih _ _ _ r0 hr0
      · simp only [Except.ok.injEq] at h
        rw [← h]
        exact Environment.grows_refl _
    · -- space_list
      split at h
      · obtain ⟨c0, _, h⟩ := bind_ok h
        obtain ⟨r0, hr0, h⟩ := bind_ok h
        simp only [Except.ok.injEq] at h
        rw [← h]
        exact ih _ _ _ r0 hr0
      · simp only [Except.ok.injEq] at h
        rw [← h]
        exact Environment.grows_refl _
    · -- disjunction
      obtain ⟨⟨res, cs, e1⟩, hcs, h⟩ := bind_ok h
      simp only [Except.ok.injEq] at h
      rw [← h]
      exact eval_disjunction_grows ih pre _ _ _ (res, cs, e1) hcs
    · -- conjunction
      obtain ⟨⟨res, cs, e1⟩, hcs, h⟩ := bind_ok h
      simp only [Except.ok.injEq] at h
      rw [← h]
      exact eval_conjunction_grows ih pre _ _ _ (res, cs, e1) hcs
    · -- relation
      obtain ⟨c0, _, h⟩ := bind_ok h
      obtain ⟨l, hl, h⟩ := bind_ok h
      obtain ⟨op, _, h⟩ := bind_ok h
      obtain ⟨c2, _, h⟩ := bind_ok h
      obtain ⟨r2, hr2, h⟩ := bind_ok h
      have g := Environment.grows_trans (ih _ _ _ l hl) (ih _ _ _ r2 hr2)
      split at h
      all_goals first
        | (simp only [Except.ok.injEq] at h; rw [← h]; exact g)
        | (simp at h)
    · -- expression
      exact eval_expression_grows X ih _ _ _ _ h
    · -- term
      split at h
      · exact eval_expression_grows X ih _ _ _ _ h
      · simp only [Except.ok.injEq] at h
        rw [← h]
        exact Environment.grows_refl _
    · -- textual_percentage
      simp only [Except.ok.injEq] at h
      rw [← h]
      exact Environment.grows_refl _
    · -- textual_dimension
      simp only [Except.ok.injEq] at h
      rw [← h]
      exact Environment.grows_refl _
    · -- textual_number
      simp only [Except.ok.injEq] at h
      rw [← h]
      exact Environment.grows_refl _
    · -- textual_hex
      obtain ⟨triple, _, h⟩ := bind_ok h
      simp only [Except.ok.injEq] at h
      rw [← h]
      exact Environment.grows_refl _
    · -- variable
      split at h
      · simp at h
      · simp only [Except.ok.injEq] at h
        rw [← h]
        exact Environment.grows_refl _
    · -- function_call
      obtain ⟨c0, _, h⟩ := bind_ok h
      obtain ⟨c1, _, h⟩ := bind_ok h
      split at h
      · simp only [Except.ok.injEq] at h
        rw [← h]
        exact Environment.grows_refl _
      · obtain ⟨⟨v, args1, env1⟩, hf, h⟩ := bind_ok h
        simp only [Except.ok.injEq] at h
        rw [← h]
        exact apply_function_grows ih _ _ _ _ (v, args1, env1) hf
    · -- unary_plus
      obtain ⟨c0, _, h⟩ := bind_ok h
      obtain ⟨r0, hr0, h⟩ := bind_ok h
      split at h <;>
      · simp only [Except.ok.injEq] at h
        rw [← h]
        exact ih _ _ _ r0 hr0
    · -- unary_minus
      obtain ⟨c0, _, h⟩ := bind_ok h
      obtain ⟨r0, hr0, h⟩ := bind_ok h
      split at h <;>
      · simp only [Except.ok.injEq] at h
        rw [← h]
        exact ih _ _ _ r0 hr0
    · -- string_schema
      obtain ⟨⟨cs, env1⟩, hcs, h⟩ := bind_ok h
      simp only [Except.ok.injEq] at h
      rw [← h]
      exact eval_replace_grows ih pre _ _ _ _ hcs
    · -- value_schema
      obtain ⟨⟨cs, env1⟩, hcs, h⟩ := bind_ok h
      simp only [Except.ok.injEq] at h
      rw [← h]
      exact eval_replace_grows ih pre _ _ _ _ hcs
    · -- css_import
      obtain ⟨c0, _, h⟩ := bind_ok h
      obtain ⟨r0, hr0, h⟩ := bind_ok h
      simp only [Except.ok.injEq] at h
      rw [← h]
      exact ih _ _ _ r0 hr0
    · -- any other variant
      simp only [Except.ok.injEq] at h
      rw [← h]
      exact Environment.grows_refl _

theorem Environment.lookup_chain_isSome (k : Token) :
    ∀ fs : List (Frame D), (Environment.lookup_chain fs k).isSome = fs.any fun f => f.count k := by
  intro fs
  induction fs with
  | nil => rfl
  | cons f fs ih =>
    simp only [Environment.lookup_chain, List.any_cons, Frame.count]
    cases List.lookup k f with
    | none => simpa using ih
    | some v => simp

theorem Environment.query_eq_any (env : Environment D) (k : Token) :
    env.query k = env.chain.any fun f => f.count k :=
  Environment.lookup_chain_isSome k env.chain

theorem any_count_of_same_keys (k : Token) {fs gs : List (Frame D)}
    (h : List.Forall₂ Frame.same_keys fs gs) :
    (fs.any fun f => f.count k) = gs.any fun f => f.count k := by
  induction h with
  | nil => rfl
  | cons hfg _ ih => simp only [List.any_cons, hfg k, ih]

theorem Environment.query_of_same_chain {env e1 : Environment D} (k : Token)
    (h : List.Forall₂ Frame.same_keys env.chain e1.chain) : e1.query k = env.query k := by
  rw [Environment.query_eq_any, Environment.query_eq_any, any_count_of_same_keys k h]

theorem eval_children_append {ev : Evaluator D} (pre : Node D) :
    ∀ (xs ys : List (Node D)) (env : Environment D) (out : List (Node D))
      (env2 : Environment D), eval_children ev pre (xs ++ ys) env = .ok (out, env2) →
      ∃ o1 e1 o2, eval_children ev pre xs env = .ok (o1, e1) ∧
        eval_children ev pre ys e1 = .ok (o2, env2) := by
  intro xs
  induction xs with
  | nil =>
    intro ys env out env2 h
    exact ⟨[], env, out, rfl, h⟩
  | cons x xs ih =>
    intro ys env out env2 h
    simp only [List.cons_append, eval_children] at h
    obtain ⟨r, hr, h⟩ := bind_ok h
    obtain ⟨⟨cs1, e⟩, hcs, h⟩ := bind_ok h
    simp only [Except.ok.injEq, Prod.mk.injEq] at h
    obtain ⟨o1, e1, o2, h1, h2⟩ := ih ys r.env cs1 e hcs
    refine ⟨r.expr :: o1, e1, o2, ?_, ?_⟩
    · simp [eval_children, hr, h1, bind, Except.bind]
    · rw [← h.2]; exact h2

theorem Environment.rebind_chain_any (k : Token) (v : Node D) :
    ∀ (fs gs : List (Frame D)), Environment.rebind_chain fs k v = some gs →
      (gs.any fun f => f.count k) = true := by
  intro fs
  induction fs with
  | nil => intro gs h; simp [Environment.rebind_chain] at h
  | cons f fs ih =>
    intro gs h
    simp only [Environment.rebind_chain] at h
    by_cases hc : f.count k = true
    · simp only [hc, if_true, Option.some.injEq] at h
      subst h
      simp [Frame.count_set]
    · simp only [hc, Bool.false_eq_true, if_false, Option.map_eq_some'] at h
      obtain ⟨fs1, hfs1, rfl⟩ := h
      simp only [List.any_cons, ih fs1 hfs1, Bool.or_true]

theorem Environment.query_bind_current (env : Environment D) (k : Token) (v : Node D) :
    (env.bind_current k v).query k = true := by
  rw [Environment.query_eq_any]
  simp [Environment.chain, Environment.bind_current, Frame.count_set]

theorem Environment.query_assign (env : Environment D) (k : Token) (v : Node D) :
    (env.assign k v).query k = true := by
  unfold Environment.assign
  split
  · rename_i f fs h
    rw [Environment.query_eq_any]
    exact Environment.rebind_chain_any k v _ _ h
  · exact Environment.query_bind_current env k v

theorem Node.child_zero_set_one (n c : Node D) : (n.set 1 c).child 0 = n.child 0 := by
  cases hc : n.children with
  | nil => simp [Node.child, Node.set, hc]
  | cons x xs => cases xs <;> simp [Node.child, Node.set, hc]

theorem eval_assignment_binds (X : Collaborators D) (f_env : FunctionTable D) (fuel : Nat)
    (a pre var : Node D) (env : Environment D) (r : Result D)
    (ha : a.type = .assignment) (hv : a.child 0 = .ok var)
    (h : eval X f_env fuel a pre env = .ok r) : r.env.query var.token = true := by
  cases fuel with
  | zero => simp [eval] at h
  | succ fuel =>
    simp only [eval, ha] at h
    obtain ⟨val, _, h⟩ := bind_ok h
    split at h
    · obtain ⟨⟨cs, e1⟩, hcs, h⟩ := bind_ok h
      simp only [pure, Except.pure, bind, Except.bind, Node.child_zero_set_one, hv] at h
      simp only [Except.ok.injEq] at h
      rw [← h]
      simp only
      split
      · exact Environment.query_assign _ _ _
      · exact Environment.query_bind_current _ _ _
    · obtain ⟨r0, hr0, h⟩ := bind_ok h
      simp only [pure, Except.pure, bind, Except.bind, Node.child_zero_set_one, hv] at h
      simp only [Except.ok.injEq] at h
      rw [← h]
      simp only
      split
      · exact Environment.query_assign _ _ _
      · exact Environment.query_bind_current _ _ _

theorem Environment.unlink_chain (env : Environment D) (h : env.parents ≠ []) :
    env.unlink.chain = env.parents := by
  unfold Environment.unlink
  cases hp : env.parents with
  | nil => exact absurd hp h
  | cons f fs => rfl

/-- C6, amended: let `a` be an assignment to the variable `var` among the
children of a block whose evaluation succeeds in `env`, let `e1` be the
environment in which `a` is evaluated (the block's frame linked to the
enclosing chain) and `ra` the result of `a`. After the block, `var` is bound in
the enclosing environment iff it was bound on the chain of the enclosing
environment, before the block as well as just before the assignment
(`e1.unlink`); a binding in the block's own frame does not count. After the
assignment `var` is bound; when it was bound nowhere on the chain before the
assignment, the binding is in the block's own frame and neither the
enclosing environment at that point nor the one after the block binds it. -/
theorem block_assignment_scope (X : Collaborators D) (f_env : FunctionTable D) (fuel : Nat)
    (blk pre a var : Node D) (before after : List (Node D)) (env : Environment D)
    (r : Result D)
    (hb : blk.type = .block) (hc : blk.children = before ++ a :: after)
    (ha : a.type = .assignment) (hv : a.child 0 = .ok var)
    (h : eval X f_env (fuel + 1) blk pre env = .ok r) :
    ∃ (done : List (Node D)) (e1 : Environment D) (ra : Result D),
      eval_children (eval X f_env fuel) pre before
        (Environment.link { current_frame := [], parents := [] } env) = .ok (done, e1) ∧
      eval X f_env fuel a pre e1 = .ok ra ∧
      r.env.query var.token = env.query var.token ∧
      e1.unlink.query var.token = env.query var.token ∧
      ra.env.query var.token = true ∧
      (e1.query var.token = false →
        ra.env.current_frame.count var.token = true ∧
        ra.env.unlink.query var.token = false ∧
        r.env.query var.token = false) := by
  simp only [eval, hb] at h
  obtain ⟨⟨cs, env1⟩, hcs, h⟩ := bind_ok h
  simp only [Except.ok.injEq] at h
  rw [hc] at hcs
  have hev := eval_grows X f_env fuel
  obtain ⟨done, e1, o2, h1, h2⟩ := eval_children_append pre _ _ _ _ _ hcs
  simp only [eval_children] at h2
  obtain ⟨ra, hra, h2⟩ := bind_ok h2
  have g1 := Environment.grows_unlink_link env e1 (eval_children_grows hev pre _ _ _ _ h1)
  have g2 := Environment.grows_unlink_link env env1 (eval_children_grows hev pre _ _ _ _ hcs)
  have ga := hev _ _ _ ra hra
  have q1 : e1.unlink.query var.token = env.query var.token :=
    Environment.query_of_same_chain _ g1
  have q2 : r.env.query var.token = env.query var.token := by
    rw [← h]
    exact Environment.query_of_same_chain _ g2
  have qa := eval_assignment_binds X f_env fuel a pre var e1 ra ha hv hra
  refine ⟨done, e1, ra, h1, hra, q2, q1, qa, ?_⟩
  intro hq
  have hp1 : e1.parents ≠ [] := by
    have hp := (eval_children_grows hev pre _ _ _ _ h1).1.length_eq
    simp only [Environment.link, Environment.chain, List.length_cons] at hp
    intro hnil
    rw [hnil] at hp
    simp at hp
  have hpa : ra.env.parents ≠ [] := by
    intro hnil
    have hp := ga.1.length_eq
    rw [hnil] at hp
    exact hp1 (List.length_eq_zero.mp hp)
  rw [Environment.query_eq_any] at hq
  simp only [Environment.chain, List.any_cons, Bool.or_eq_false_iff] at hq
  have hpar : (ra.env.parents.any fun f => f.count var.token) = false := by
    rw [← any_count_of_same_keys var.token ga.1]
    exact hq.2
  have hu : ra.env.unlink.query var.token = false := by
    rw [Environment.query_eq_any, Environment.unlink_chain _ hpa]
    exact hpar
  refine ⟨?_, hu, ?_⟩
  · rw [Environment.query_eq_any] at qa
    simp only [Environment.chain, List.any_cons, hpar, Bool.or_false] at qa
    exact qa
  · rw [q2, ← q1, Environment.query_eq_any, Environment.unlink_chain _ hp1]
    exact hq.2

/-- C6, as stated, fails: in the block `\x7b $v: 1; $v: 2 \x7d`, evaluated in the
empty root environment, `$v` is already bound on the environment chain before
the second assignment (in the block's own frame), and yet it is not bound in
the enclosing environment after the block. -/
theorem block_reassignment_stays_local :
    eval_children (eval plain [] 2) Node.null [assign "$v" (num 1)]
        (Environment.link { current_frame := [], parents := [] } root_env)
      = .ok ([assign "$v" (num 1)], { current_frame := [("$v", num 1)], parents := [[]] }) ∧
    Environment.query ({ current_frame := [("$v", num 1)], parents := [[]] } : Environment ℚ)
        "$v" = true ∧
    eval plain [] 3 (node .block [assign "$v" (num 1), assign "$v" (num 2)]) Node.null root_env
      = .ok { value := node .block [assign "$v" (num 1), assign "$v" (num 2)],
              expr := node .block [assign "$v" (num 1), assign "$v" (num 2)],
              env := root_env } ∧
    root_env.query "$v" = false :=
  ⟨rfl, rfl, rfl, rfl⟩

/-- The block `\x7b $v: 4; $w: 5 \x7d` evaluated where `$v` is bound to 3: `$w` is
bound in the block's frame only. -/
theorem block_assignment_scope_witness :
    ∃ (done : List (Node ℚ)) (e1 : Environment ℚ) (ra : Result ℚ),
      eval_children (eval plain [] 2) Node.null [assign "$v" (num 4)]
        (Environment.link { current_frame := [], parents := [] }
          { current_frame := [("$v", num 3)], parents := [] }) = .ok (done, e1) ∧
      eval plain [] 2 (assign "$w" (num 5)) Node.null e1 = .ok ra ∧
      Environment.query ({ current_frame := [("$v", num 4)], parents := [] } : Environment ℚ)
          (leaf .variable "$w" : Node ℚ).token
        = Environment.query ({ current_frame := [("$v", num 3)], parents := [] } : Environment ℚ)
          (leaf .variable "$w" : Node ℚ).token ∧
      e1.unlink.query (leaf .variable "$w" : Node ℚ).token
        = Environment.query ({ current_frame := [("$v", num 3)], parents := [] } : Environment ℚ)
          (leaf .variable "$w" : Node ℚ).token ∧
      ra.env.query (leaf .variable "$w" : Node ℚ).token = true ∧
      (e1.query (leaf .variable "$w" : Node ℚ).token = false →
        ra.env.current_frame.count (leaf .variable "$w" : Node ℚ).token = true ∧
        ra.env.unlink.query (leaf .variable "$w" : Node ℚ).token = false ∧
        Environment.query ({ current_frame := [("$v", num 4)], parents := [] } : Environment ℚ)
          (leaf .variable "$w" : Node ℚ).token = false) :=
  block_assignment_scope plain [] 2
    (node .block [assign "$v" (num 4), assign "$w" (num 5)]) Node.null
    (assign "$w" (num 5)) (leaf .variable "$w") [assign "$v" (num 4)] []
    { current_frame := [("$v", num 3)], parents := [] }
    { value := node .block [assign "$v" (num 4), assign "$w" (num 5)],
      expr := node .block [assign "$v" (num 4), assign "$w" (num 5)],
      env := { current_frame := [("$v", num 4)], parents := [] } }
    rfl rfl rfl rfl rfl

/-! ### Unknown function calls -/

/-- C15: a `function_call` whose pair (name, number of arguments) is not a key
of the function table is returned as it is: the result is a success whatever
the arguments are (none is evaluated), and the environment is unchanged. -/
theorem eval_unknown_function_call (X : Collaborators D) (f_env : FunctionTable D)
    (fuel : Nat) (expr pre name args : Node D) (env : Environment D)
    (ht : expr.type = .function_call)
    (h0 : expr.child 0 = .ok name) (h1 : expr.child 1 = .ok args)
    (hsig : List.lookup (name.token, args.size) f_env = none) :
    eval X f_env (fuel + 1) expr pre env = .ok { value := expr, expr := expr, env := env } := by
  simp [eval, ht, h0, h1, hsig, bind, Except.bind]


/-- The call `foo($unbound)` where `foo` is registered with two parameters only:
the call is returned unchanged although `$unbound` is not bound. -/
theorem eval_unknown_function_call_witness :
    eval plain [(("foo", 2), first_of_two)] 1
        (node .function_call [leaf (.other "identifier") "foo", node (.other "arguments")
          [leaf .variable "$unbound"]]) Node.null root_env
      = .ok { value := node .function_call [leaf (.other "identifier") "foo",
                node (.other "arguments") [leaf .variable "$unbound"]],
              expr := node .function_call [leaf (.other "identifier") "foo",
                node (.other "arguments") [leaf .variable "$unbound"]],
              env := root_env } :=
  eval_unknown_function_call plain [(("foo", 2), first_of_two)] 0
    (node .function_call [leaf (.other "identifier") "foo", node (.other "arguments")
      [leaf .variable "$unbound"]]) Node.null (leaf (.other "identifier") "foo")
    (node (.other "arguments") [leaf .variable "$unbound"]) root_env rfl rfl rfl rfl

/-! ### The path of an evaluation error -/

theorem throw_eval_error_quoted (X : Collaborators D) (message path : String) (line : Nat)
    (hq : X.string_constant path = true) :
    (throw_eval_error X message path line).path = String.mk (path.data.drop 1) := by
  unfold throw_eval_error
  obtain ⟨data⟩ := path
  cases data with
  | nil => rfl
  | cons c cs =>
    have he : (String.mk (c :: cs)).isEmpty = false := by
      rw [Bool.eq_false_iff]
      intro h
      have := (String.isEmpty_iff _).1 h
      simp [String.ext_iff] at this
    have hlen : (((c :: cs).drop 1).take ((String.mk (c :: cs)).length - 1)) = cs := by
      show List.take ((c :: cs).length - 1) cs = cs
      apply List.take_of_length_le
      simp
    simp only [he, hq, Bool.not_false, Bool.and_self, if_true, hlen]
    rfl

theorem throw_eval_error_unquoted (X : Collaborators D) (message path : String) (line : Nat)
    (hq : X.string_constant path = false) :
    (throw_eval_error X message path line).path = path := by
  simp [throw_eval_error, hq]

/-- C18: the claim fails on the code. For the quoted path `"a.scss"` (the
character 34 is the double quote) the error stores `a.scss"`: `substr(1, n - 1)`
drops the opening quote only, and the stored path is not `a.scss`. -/
theorem throw_eval_error_keeps_closing_quote :
    quoted (String.mk [Char.ofNat 34, 'a', '.', 's', 'c', 's', 's', Char.ofNat 34]) = true ∧
    (throw_eval_error quoting "reference to unbound variable $x"
        (String.mk [Char.ofNat 34, 'a', '.', 's', 'c', 's', 's', Char.ofNat 34]) 3).path
      = String.mk ['a', '.', 's', 'c', 's', 's', Char.ofNat 34] ∧
    String.mk ['a', '.', 's', 'c', 's', 's', Char.ofNat 34] ≠ "a.scss" := by
  refine ⟨by decide, ?_, by decide⟩
  rw [throw_eval_error_quoted quoting _ _ _ (by decide)]
  rfl

/-! ### A number and a color -/

theorem accumulate_size_le (X : Collaborators D) (op : NodeType) (acc rhs out : Node D)
    (h : accumulate X op acc rhs = .ok out) : acc.size ≤ out.size ∧ out.type = acc.type := by
  unfold accumulate at h
  cases hl : acc.children.getLast? with
  | none => simp [hl] at h
  | some lhs =>
    have hne : acc.children ≠ [] := by
      intro hnil; simp [hnil] at hl
    have hpos := List.length_pos.mpr hne
    have hpp : ∀ c : Node D, acc.size ≤ (acc.pop_back.push_back c).size ∧
        (acc.pop_back.push_back c).type = acc.type := by
      intro c
      simp only [Node.size, Node.pop_back, Node.push_back, List.length_append,
        List.length_dropLast, List.length_singleton]
      exact ⟨by omega, trivial⟩
    have hp : ∀ c : Node D, acc.size ≤ (acc.push_back c).size ∧
        (acc.push_back c).type = acc.type := by
      intro c
      simp only [Node.size, Node.push_back, List.length_append, List.length_singleton]
      exact ⟨by omega, trivial⟩
    have hp2 : ∀ c d : Node D, acc.size ≤ ((acc.push_back c).push_back d).size ∧
        ((acc.push_back c).push_back d).type = acc.type := by
      intro c d
      simp only [Node.size, Node.push_back, List.length_append, List.length_singleton]
      exact ⟨by omega, trivial⟩
    simp only [hl] at h
    repeat' (split at h)
    all_goals first
      | (simp only [Except.ok.injEq] at h; rw [← h]; first | exact hpp _ | exact hp _ | exact hp2 _ _)
      | (simp only [bind, Except.bind] at h
         repeat' (split at h)
         all_goals first
           | (simp at h; done)
           | (simp only [Except.ok.injEq] at h; rw [← h]; exact hpp _))

theorem accumulate_rest_size_le (X : Collaborators D) (ev : Evaluator D) (pre : Node D) :
    ∀ (n : Nat) (cs : List (Node D)), cs.length ≤ n → ∀ (acc : Node D) (env : Environment D)
      (out : Node D × List (Node D) × Environment D),
      accumulate_rest X ev pre cs acc env = .ok out →
        acc.size ≤ out.1.size ∧ out.1.type = acc.type := by
  intro n
  induction n with
  | zero =>
    intro cs hn acc env out h
    have : cs = [] := List.length_eq_zero.mp (Nat.le_zero.mp hn)
    subst this
    simp only [accumulate_rest, Except.ok.injEq] at h
    rw [← h]
    exact ⟨Nat.le_refl _, rfl⟩
  | succ n ih =>
    intro cs hn acc env out h
    match cs, hn, h with
    | [], _, h =>
      simp only [accumulate_rest, Except.ok.injEq] at h
      rw [← h]
      exact ⟨Nat.le_refl _, rfl⟩
    | [_], _, h => simp [accumulate_rest] at h
    | op :: operand :: rest, hn, h =>
      simp only [accumulate_rest] at h
      obtain ⟨r, hr, h⟩ := bind_ok h
      obtain ⟨acc1, hacc, h⟩ := bind_ok h
      obtain ⟨⟨acc2, rest1, e1⟩, hrest, h⟩ := bind_ok h
      simp only [Except.ok.injEq] at h
      rw [← h]
      have hlen : rest.length ≤ n := by simp only [List.length_cons] at hn; omega
      have h1 := accumulate_size_le X op.type acc r.value acc1 hacc
      have h2 := ih rest hlen acc1 r.env (acc2, rest1, e1) hrest
      exact ⟨Nat.le_trans h1.1 h2.1, h2.2.trans h1.2⟩

/-- C19: when the tail `lhs` of the accumulator is a `number` and the operand
`rhs` a `numeric_color` (with four children): for `sub` and `div`, `accumulate`
keeps the accumulator and appends a node of the operator's variant and then
`rhs`, so the length grows by 2; for `add` and `mul` it replaces the tail by
the color of channels `operate op number channel` and of the alpha of `rhs`.
An `expression` `lhs op rhs ...` with `op` one of `sub`, `div` therefore
evaluates, when it evaluates, to an `expression` node of at least three
children, and `lhs op rhs` alone to the three elements `lhs`, `op`, `rhs`. -/
theorem accumulate_number_color (X : Collaborators D) (f_env : FunctionTable D) (fuel : Nat)
    (op : NodeType) (acc lhs rhs r0 r1 r2 r3 : Node D)
    (hacc : acc.children.getLast? = some lhs)
    (hl : lhs.type = .number) (hr : rhs.type = .numeric_color)
    (hrc : rhs.children = [r0, r1, r2, r3]) :
    (op = .sub ∨ op = .div →
      accumulate X op acc rhs
        = .ok { acc with children := acc.children ++ [new_Node op acc.path acc.line, rhs] } ∧
      (acc.children ++ [new_Node op acc.path acc.line, rhs]).length = acc.size + 2) ∧
    (op = .add ∨ op = .mul →
      accumulate X op acc rhs = .ok (acc.pop_back.push_back
        (new_color acc.path acc.line
          (operate op lhs.numeric_value r0.numeric_value)
          (operate op lhs.numeric_value r1.numeric_value)
          (operate op lhs.numeric_value r2.numeric_value)
          r3.numeric_value))) ∧
    (∀ (expr pre c0 c1 c2 : Node D) (rest : List (Node D)) (env : Environment D)
        (e0 e2 r : Result D),
      expr.type = .expression → expr.children = c0 :: c1 :: c2 :: rest →
      c1.type = op → (op = .sub ∨ op = .div) →
      eval X f_env fuel c0 pre env = .ok e0 → e0.value = lhs →
      eval X f_env fuel c2 pre e0.env = .ok e2 → e2.value = rhs →
      (rest = [] → eval X f_env (fuel + 1) expr pre env = .ok
        { value := { (new_Node .expression expr.path expr.line : Node D) with
                     children := [lhs, new_Node op expr.path expr.line, rhs] },
          expr := { expr with children := [e0.expr, c1, e2.expr] },
          env := e2.env }) ∧
      (eval X f_env (fuel + 1) expr pre env = .ok r →
        r.value.type = .expression ∧ 3 ≤ r.value.size)) := by
  have hsd : op = .sub ∨ op = .div →
      accumulate X op acc rhs
        = .ok { acc with children := acc.children ++ [new_Node op acc.path acc.line, rhs] } := by
    intro h
    rcases h with h | h <;> subst h <;>
      simp [accumulate, hacc, hl, hr, Node.push_back]
  refine ⟨fun h => ⟨hsd h, by simp [Node.size]⟩, ?_, ?_⟩
  · intro h
    rcases h with h | h <;> subst h <;>
      simp [accumulate, hacc, hl, hr, hrc, Node.child, bind, Except.bind]
  · intro expr pre c0 c1 c2 rest env e0 e2 r ht hc hop hsd1 h0 hv0 h2 hv2
    have hstep : accumulate X op
        ((new_Node .expression expr.path expr.line : Node D).push_back lhs) rhs
        = .ok { (new_Node .expression expr.path expr.line : Node D) with
                children := [lhs, new_Node op expr.path expr.line, rhs] } := by
      rcases hsd1 with h | h <;> subst h <;>
        simp [accumulate, hl, hr, Node.push_back, new_Node]
    constructor
    · intro hrest
      subst hrest
      simp only [eval, ht, eval_expression, Node.child, hc, List.get?_cons_zero,
        List.get?_cons_succ, bind, Except.bind, h0, h2, hv0, hv2, hop, List.drop_succ_cons,
        List.drop_zero]
      erw [hstep]
      simp [accumulate_rest]
    · intro hr1
      simp only [eval, ht, eval_expression, Node.child, hc, List.get?_cons_zero,
        List.get?_cons_succ, bind, Except.bind, h0, h2, hv0, hv2, hop, List.drop_succ_cons,
        List.drop_zero] at hr1
      erw [hstep] at hr1
      simp only [] at hr1
      cases hrest : accumulate_rest X (eval X f_env fuel) pre rest
          { (new_Node .expression expr.path expr.line : Node D) with
            children := [lhs, new_Node op expr.path expr.line, rhs] } e2.env with
      | error e => erw [hrest] at hr1; simp at hr1
      | ok out =>
        obtain ⟨acc2, rest1, env1⟩ := out
        erw [hrest] at hr1
        have hsz := accumulate_rest_size_le X (eval X f_env fuel) pre _ rest (Nat.le_refl _)
          _ _ (acc2, rest1, env1) hrest
        simp only [Node.size, List.length_cons, List.length_nil] at hsz
        simp only at hr1
        split at hr1
        · rename_i a ha
          rw [ha] at hsz
          simp at hsz
        · simp only [Except.ok.injEq] at hr1
          rw [← hr1]
          exact ⟨hsz.2, hsz.1⟩

/-- The expression `2 - (10, 20, 30, 1)` stays the list `2`, `-`, color. -/
theorem accumulate_number_color_witness :
    accumulate plain .sub (node .expression [num 2]) (color 10 20 30 1)
      = .ok (node .expression [num 2, node .sub [], color 10 20 30 1]) ∧
    eval plain [] 2 (node .expression [num 2, node .sub [], color 10 20 30 1]) Node.null root_env
      = .ok { value := node .expression [num 2, node .sub [], color 10 20 30 1],
              expr := node .expression [num 2, node .sub [], color 10 20 30 1],
              env := root_env } :=
  ⟨((accumulate_number_color plain [] 1 .sub (node .expression [num 2]) (num 2)
      (color 10 20 30 1) (num 10) (num 20) (num 30) (num 1) rfl rfl rfl rfl).1 (Or.inl rfl)).1,
   ((accumulate_number_color plain [] 1 .sub (node .expression [num 2]) (num 2)
      (color 10 20 30 1) (num 10) (num 20) (num 30) (num 1) rfl rfl rfl rfl).2.2
      (node .expression [num 2, node .sub [], color 10 20 30 1]) Node.null (num 2)
      (node .sub []) (color 10 20 30 1) [] root_env
      { value := num 2, expr := num 2, env := root_env }
      { value := color 10 20 30 1, expr := color 10 20 30 1, env := root_env }
      { value := num 2, expr := num 2, env := root_env }
      rfl rfl rfl (Or.inl rfl) rfl rfl rfl rfl).1 rfl⟩

/-! ### Back-references in selector groups -/

mutual
theorem expand_backref_of_no_backref (pre : Node D) :
    ∀ sel : Node D, sel.has_backref = false → expand_backref sel pre = sel
  | ⟨t, path, line, token, numeric, boolean, unit, should_eval, cs⟩ => by
    intro h
    simp only [Node.has_backref, Bool.or_eq_false_iff, beq_eq_false_iff_ne, ne_eq] at h
    have ih := expand_backref_list_of_no_backref pre cs h.2
    unfold expand_backref
    cases t <;> simp_all
theorem expand_backref_list_of_no_backref (pre : Node D) :
    ∀ cs : List (Node D), has_backref_list cs = false → expand_backref_list cs pre = cs
  | [] => by intro _; simp [expand_backref_list]
  | c :: cs => by
    intro h
    simp only [has_backref_list, Bool.or_eq_false_iff] at h
    simp [expand_backref_list, expand_backref_of_no_backref pre c h.1,
      expand_backref_list_of_no_backref pre cs h.2]
end


theorem expand_backref_eq_member (p s : Node D) : expand_backref s p = backref_member p s := by
  unfold backref_member
  by_cases h : s.has_backref = true
  · simp [h, expand_backref_eq]
  · simp only [h, if_false]
    exact expand_backref_of_no_backref p s (by simpa using h)

/-- C20: for an outer selector `pre` that is not `none` and a selector `sel`
that contains a back-reference, when `pre` or `sel` is a group the result is a
`selector_group` whose members are the members of `sel` (or `sel` itself) with
their back-references replaced by a member of `pre` (or `pre` itself), in the
order of the loops, `pre` outermost: `|pre| * |sel|`, `|pre|` or `|sel|`
members. A member of `sel` without back-reference is taken as it is; `pre` is
not put in front of it. -/
theorem expand_selector_backref_groups (sel pre : Node D) (hpre : pre.type ≠ .none)
    (hb : sel.has_backref = true) :
    (pre.type = .selector_group → sel.type = .selector_group →
      expand_selector sel pre =
        { (new_Node .selector_group sel.path sel.line : Node D) with
          children := pre.children.flatMap fun p => sel.children.map fun s => backref_member p s }
      ∧ (expand_selector sel pre).size = pre.size * sel.size) ∧
    (pre.type = .selector_group → sel.type ≠ .selector_group →
      expand_selector sel pre =
        { (new_Node .selector_group sel.path sel.line : Node D) with
          children := pre.children.map fun p => replace_backrefs p sel }
      ∧ (expand_selector sel pre).size = pre.size) ∧
    (pre.type ≠ .selector_group → sel.type = .selector_group →
      expand_selector sel pre =
        { (new_Node .selector_group sel.path sel.line : Node D) with
          children := sel.children.map fun s => backref_member pre s }
      ∧ (expand_selector sel pre).size = sel.size) ∧
    (∀ p s : Node D, s.has_backref = false → backref_member p s = s) := by
  refine ⟨?_, ?_, ?_, ?_⟩
  · intro hp hs
    have h : expand_selector sel pre =
        { (new_Node .selector_group sel.path sel.line : Node D) with
          children := pre.children.flatMap fun p =>
            sel.children.map fun s => backref_member p s } := by
      simp [expand_selector, hpre, hb, hp, hs, expand_backref_eq_member]
    rw [h]
    exact ⟨rfl, length_flatMap_map _ _ _⟩
  · intro hp hs
    have h : expand_selector sel pre =
        { (new_Node .selector_group sel.path sel.line : Node D) with
          children := pre.children.map fun p => replace_backrefs p sel } := by
      simp [expand_selector, hpre, hb, hp, hs, expand_backref_eq]
    rw [h]
    exact ⟨rfl, by simp [Node.size]⟩
  · intro hp hs
    have h : expand_selector sel pre =
        { (new_Node .selector_group sel.path sel.line : Node D) with
          children := sel.children.map fun s => backref_member pre s } := by
      simp [expand_selector, hpre, hb, hp, hs, expand_backref_eq_member]
    rw [h]
    exact ⟨rfl, by simp [Node.size]⟩
  · intro p s h
    simp [backref_member, h]

/-- The group `&:hover, .c` under `.a, .b` becomes
`.a:hover, .c, .b:hover, .c`: the member `.c` is taken as it is. -/
theorem expand_selector_backref_groups_witness :
    expand_selector
        (node .selector_group
          [node .simple_selector_sequence [leaf .backref "&", leaf (.other "pseudo") ":hover"],
           cls ".c"])
        (node .selector_group [cls ".a", cls ".b"])
      = node .selector_group
          [node .simple_selector_sequence [cls ".a", leaf (.other "pseudo") ":hover"], cls ".c",
           node .simple_selector_sequence [cls ".b", leaf (.other "pseudo") ":hover"], cls ".c"] := by
  have h := ((expand_selector_backref_groups
    (node .selector_group
      [node .simple_selector_sequence [leaf .backref "&", leaf (.other "pseudo") ":hover"],
       cls ".c"])
    (node .selector_group [cls ".a", cls ".b"]) (by decide) rfl).1 rfl rfl).1
  rw [h]
  simp [backref_member, replace_backrefs, replace_backrefs_list, node, leaf, cls, new_Node,
    Node.has_backref, has_backref_list]

/-! ### Short-circuit evaluation -/

theorem eval_disjunction_first (ev : Evaluator D) (pre c : Node D) (after : List (Node D))
    (rc : Result D) :
    ∀ (before : List (Node D)) (result : Node D) (env env1 : Environment D)
      (vals : List (Node D)),
      eval_replace ev pre before env = .ok (vals, env1) →
      (∀ v ∈ vals, v.is_false) →
      ev c pre env1 = .ok rc → ¬ rc.value.is_false →
      ∃ done, done.length = before.length ∧
        eval_disjunction ev pre (before ++ c :: after) result env
          = .ok (rc.value, done ++ rc.expr :: after, rc.env) := by
  intro before
  induction before with
  | nil =>
    intro result env env1 vals hv _ hc hnf
    simp only [eval_replace, Except.ok.injEq, Prod.mk.injEq] at hv
    obtain ⟨_, rfl⟩ := hv
    refine ⟨[], rfl, ?_⟩
    simp only [Node.is_false] at hnf
    simp [eval_disjunction, hc, hnf, bind, Except.bind]
  | cons b bs ih =>
    intro result env env1 vals hv hf hc hnf
    obtain ⟨r, vs, hr, hvs, rfl⟩ := eval_replace_cons_ok hv
    have hrf : r.value.is_false := hf _ (List.mem_cons_self _ _)
    obtain ⟨done, hlen, hd⟩ := ih r.value r.env env1 vs hvs
      (fun v hv => hf v (List.mem_cons_of_mem _ hv)) hc hnf
    refine ⟨r.expr :: done, by simp [hlen], ?_⟩
    simp only [Node.is_false] at hrf
    simp [eval_disjunction, hr, hrf, hd, bind, Except.bind]

theorem eval_disjunction_last (ev : Evaluator D) (pre c : Node D) (rc : Result D) :
    ∀ (before : List (Node D)) (result : Node D) (env env1 : Environment D)
      (vals : List (Node D)),
      eval_replace ev pre before env = .ok (vals, env1) →
      (∀ v ∈ vals, v.is_false) →
      ev c pre env1 = .ok rc → rc.value.is_false →
      ∃ done, done.length = before.length ∧
        eval_disjunction ev pre (before ++ [c]) result env
          = .ok (rc.value, done ++ [rc.expr], rc.env) := by
  intro before
  induction before with
  | nil =>
    intro result env env1 vals hv _ hc hcf
    simp only [eval_replace, Except.ok.injEq, Prod.mk.injEq] at hv
    obtain ⟨_, rfl⟩ := hv
    refine ⟨[], rfl, ?_⟩
    simp only [Node.is_false] at hcf
    simp [eval_disjunction, hc, hcf, bind, Except.bind]
  | cons b bs ih =>
    intro result env env1 vals hv hf hc hcf
    obtain ⟨r, vs, hr, hvs, rfl⟩ := eval_replace_cons_ok hv
    have hrf : r.value.is_false := hf _ (List.mem_cons_self _ _)
    obtain ⟨done, hlen, hd⟩ := ih r.value r.env env1 vs hvs
      (fun v hv => hf v (List.mem_cons_of_mem _ hv)) hc hcf
    refine ⟨r.expr :: done, by simp [hlen], ?_⟩
    simp only [Node.is_false] at hrf
    simp [eval_disjunction, hr, hrf, hd, bind, Except.bind]

/-- C16: in a `disjunction` whose children are `before`, `c`, `after`, where the
children `before`, evaluated from left to right, all give boolean false: when
`c` gives a value that is not boolean false, `eval` returns that value, with
the environment `c` left; the children `after` are not evaluated (they are
arbitrary, and are still the last children of the node). When `c` gives boolean
false and is the last child, `eval` returns the value of `c`. -/
theorem eval_disjunction_short_circuit (X : Collaborators D) (f_env : FunctionTable D)
    (fuel : Nat) (expr pre c : Node D) (before after : List (Node D))
    (env env1 : Environment D) (vals : List (Node D)) (rc : Result D)
    (ht : expr.type = .disjunction)
    (hc : expr.children = before ++ c :: after)
    (hbefore : eval_replace (eval X f_env fuel) pre before env = .ok (vals, env1))
    (hfalse : ∀ v ∈ vals, v.is_false)
    (hcv : eval X f_env fuel c pre env1 = .ok rc) :
    (¬ rc.value.is_false →
      ∃ r done, eval X f_env (fuel + 1) expr pre env = .ok r ∧
        r.value = rc.value ∧ r.env = rc.env ∧
        r.expr.children = done ++ rc.expr :: after ∧ done.length = before.length) ∧
    (rc.value.is_false → after = [] →
      ∃ r, eval X f_env (fuel + 1) expr pre env = .ok r ∧
        r.value = rc.value ∧ r.env = rc.env) := by
  constructor
  · intro hnf
    obtain ⟨done, hlen, hd⟩ := eval_disjunction_first (eval X f_env fuel) pre c after rc
      before Node.null env env1 vals hbefore hfalse hcv hnf
    refine ⟨{ value := rc.value, expr := { expr with children := done ++ rc.expr :: after },
              env := rc.env }, done, ?_, rfl, rfl, rfl, hlen⟩
    simp only [eval, ht, hc, hd, bind, Except.bind]
  · intro hcf ha
    subst ha
    obtain ⟨done, hlen, hd⟩ := eval_disjunction_last (eval X f_env fuel) pre c rc
      before Node.null env env1 vals hbefore hfalse hcv hcf
    refine ⟨{ value := rc.value, expr := { expr with children := done ++ [rc.expr] },
              env := rc.env }, ?_, rfl, rfl⟩
    simp only [eval, ht, hc, hd, bind, Except.bind]


/-- The disjunction `true and false or 5 or $unbound` evaluates to the number 5:
the reference to the unbound variable is not evaluated. -/
theorem eval_disjunction_short_circuit_witness :
    ∃ r, eval decimal [] 3
        (node .disjunction [node .conjunction [bool true, bool false],
          leaf .textual_number "5", leaf .variable "$unbound"]) Node.null root_env = .ok r ∧
      r.value = num 5 ∧ r.env = root_env := by
  obtain ⟨r, _, h, hv, he, _⟩ := (eval_disjunction_short_circuit decimal [] 2
    (node .disjunction [node .conjunction [bool true, bool false],
      leaf .textual_number "5", leaf .variable "$unbound"]) Node.null
    (leaf .textual_number "5") [node .conjunction [bool true, bool false]]
    [leaf .variable "$unbound"] root_env root_env [bool false]
    { value := num 5, expr := leaf .textual_number "5", env := root_env }
    rfl rfl rfl (by simp [Node.is_false, bool, new_boolean, new_Node, Node.boolean_value])
    (by simp [eval, leaf, num, new_number, new_Node, decimal, plain])).1
    (by simp [Node.is_false, num, new_number, new_Node])
  exact ⟨r, h, hv, he⟩


theorem eval_conjunction_first (ev : Evaluator D) (pre c : Node D) (after : List (Node D))
    (rc : Result D) :
    ∀ (before : List (Node D)) (result : Node D) (env env1 : Environment D)
      (vals : List (Node D)),
      eval_replace ev pre before env = .ok (vals, env1) →
      (∀ v ∈ vals, ¬ v.is_false) →
      ev c pre env1 = .ok rc → rc.value.is_false →
      ∃ done, done.length = before.length ∧
        eval_conjunction ev pre (before ++ c :: after) result env
          = .ok (rc.value, done ++ rc.expr :: after, rc.env) := by
  intro before
  induction before with
  | nil =>
    intro result env env1 vals hv _ hc hcf
    simp only [eval_replace, Except.ok.injEq, Prod.mk.injEq] at hv
    obtain ⟨_, rfl⟩ := hv
    refine ⟨[], rfl, ?_⟩
    simp only [Node.is_false] at hcf
    simp [eval_conjunction, hc, hcf, bind, Except.bind]
  | cons b bs ih =>
    intro result env env1 vals hv hf hc hcf
    obtain ⟨r, vs, hr, hvs, rfl⟩ := eval_replace_cons_ok hv
    have hrf : ¬ r.value.is_false := hf _ (List.mem_cons_self _ _)
    obtain ⟨done, hlen, hd⟩ := ih r.value r.env env1 vs hvs
      (fun v hv => hf v (List.mem_cons_of_mem _ hv)) hc hcf
    refine ⟨r.expr :: done, by simp [hlen], ?_⟩
    simp only [Node.is_false] at hrf
    simp [eval_conjunction, hr, hrf, hd, bind, Except.bind]

theorem eval_conjunction_last (ev : Evaluator D) (pre c : Node D) (rc : Result D) :
    ∀ (before : List (Node D)) (result : Node D) (env env1 : Environment D)
      (vals : List (Node D)),
      eval_replace ev pre before env = .ok (vals, env1) →
      (∀ v ∈ vals, ¬ v.is_false) →
      ev c pre env1 = .ok rc → ¬ rc.value.is_false →
      ∃ done, done.length = before.length ∧
        eval_conjunction ev pre (before ++ [c]) result env
          = .ok (rc.value, done ++ [rc.expr], rc.env) := by
  intro before
  induction before with
  | nil =>
    intro result env env1 vals hv _ hc hnf
    simp only [eval_replace, Except.ok.injEq, Prod.mk.injEq] at hv
    obtain ⟨_, rfl⟩ := hv
    refine ⟨[], rfl, ?_⟩
    simp only [Node.is_false] at hnf
    simp [eval_conjunction, hc, hnf, bind, Except.bind]
  | cons b bs ih =>
    intro result env env1 vals hv hf hc hnf
    obtain ⟨r, vs, hr, hvs, rfl⟩ := eval_replace_cons_ok hv
    have hrf : ¬ r.value.is_false := hf _ (List.mem_cons_self _ _)
    obtain ⟨done, hlen, hd⟩ := ih r.value r.env env1 vs hvs
      (fun v hv => hf v (List.mem_cons_of_mem _ hv)) hc hnf
    refine ⟨r.expr :: done, by simp [hlen], ?_⟩
    simp only [Node.is_false] at hrf
    simp [eval_conjunction, hr, hrf, hd, bind, Except.bind]

/-- C17: in a `conjunction` whose children are `before`, `c`, `after`, where the
children `before`, evaluated from left to right, give values none of which is
boolean false: when `c` gives boolean false, `eval` returns that value, with
the environment `c` left; the children `after` are not evaluated. When `c` does
not give boolean false and is the last child, `eval` returns the value of `c`,
whatever its variant. -/
theorem eval_conjunction_short_circuit (X : Collaborators D) (f_env : FunctionTable D)
    (fuel : Nat) (expr pre c : Node D) (before after : List (Node D))
    (env env1 : Environment D) (vals : List (Node D)) (rc : Result D)
    (ht : expr.type = .conjunction)
    (hc : expr.children = before ++ c :: after)
    (hbefore : eval_replace (eval X f_env fuel) pre before env = .ok (vals, env1))
    (hnone : ∀ v ∈ vals, ¬ v.is_false)
    (hcv : eval X f_env fuel c pre env1 = .ok rc) :
    (rc.value.is_false →
      ∃ r done, eval X f_env (fuel + 1) expr pre env = .ok r ∧
        r.value = rc.value ∧ r.env = rc.env ∧
        r.expr.children = done ++ rc.expr :: after ∧ done.length = before.length) ∧
    (¬ rc.value.is_false → after = [] →
      ∃ r, eval X f_env (fuel + 1) expr pre env = .ok r ∧
        r.value = rc.value ∧ r.env = rc.env) := by
  constructor
  · intro hcf
    obtain ⟨done, hlen, hd⟩ := eval_conjunction_first (eval X f_env fuel) pre c after rc
      before Node.null env env1 vals hbefore hnone hcv hcf
    refine ⟨{ value := rc.value, expr := { expr with children := done ++ rc.expr :: after },
              env := rc.env }, done, ?_, rfl, rfl, rfl, hlen⟩
    simp only [eval, ht, hc, hd, bind, Except.bind]
  · intro hnf ha
    subst ha
    obtain ⟨done, hlen, hd⟩ := eval_conjunction_last (eval X f_env fuel) pre c rc
      before Node.null env env1 vals hbefore hnone hcv hnf
    refine ⟨{ value := rc.value, expr := { expr with children := done ++ [rc.expr] },
              env := rc.env }, ?_, rfl, rfl⟩
    simp only [eval, ht, hc, hd, bind, Except.bind]

/-- The conjunction `true and false and $unbound` evaluates to `false`: the
reference to the unbound variable is not evaluated. -/
theorem eval_conjunction_short_circuit_witness :
    ∃ r, eval decimal [] 2
        (node .conjunction [bool true, bool false, leaf .variable "$unbound"])
        Node.null root_env = .ok r ∧
      r.value = bool false ∧ r.env = root_env := by
  obtain ⟨r, _, h, hv, he, _⟩ := (eval_conjunction_short_circuit decimal [] 1
    (node .conjunction [bool true, bool false, leaf .variable "$unbound"]) Node.null
    (bool false) [bool true] [leaf .variable "$unbound"] root_env root_env [bool true]
    { value := bool false, expr := bool false, env := root_env }
    rfl rfl rfl (by simp [Node.is_false, bool, new_boolean, new_Node, Node.boolean_value])
    rfl).1
    (by simp [Node.is_false, bool, new_boolean, new_Node, Node.boolean_value])
  exact ⟨r, h, hv, he⟩

/-! ### Mixin application: binding the arguments -/

theorem Frame.lookup_set (f : Frame D) (k : Token) (v : Node D) :
    List.lookup k (f.set k v) = some v := by
  induction f with
  | nil => simp [Frame.set, List.lookup]
  | cons p f ih =>
    obtain ⟨a, b⟩ := p
    simp only [Frame.set]
    by_cases hak : a = k
    · subst hak
      simp [List.lookup]
    · have hb : (k == a) = false := by simp [Ne.symm hak]
      simp [hak, List.lookup, hb, ih]

theorem Frame.lookup_set_ne (f : Frame D) (k k1 : Token) (v : Node D) (h : k1 ≠ k) :
    List.lookup k1 (f.set k v) = List.lookup k1 f := by
  induction f with
  | nil =>
    have hb : (k1 == k) = false := by simp [h]
    simp [Frame.set, List.lookup, hb]
  | cons p f ih =>
    obtain ⟨a, b⟩ := p
    simp only [Frame.set]
    by_cases hak : a = k
    · subst hak
      have hb : (k1 == a) = false := by simp [h]
      simp [List.lookup, hb]
    · simp only [hak, if_false, List.lookup, ih]

theorem Frame.count_eq_false_iff (f : Frame D) (k : Token) :
    f.count k = false ↔ List.lookup k f = none := by
  simp [Frame.count]

theorem Environment.lookup_chain_rebind (k : Token) (v : Node D) :
    ∀ (fs gs : List (Frame D)), Environment.rebind_chain fs k v = some gs →
      Environment.lookup_chain gs k = some v ∧
      ∀ k1, k1 ≠ k → Environment.lookup_chain gs k1 = Environment.lookup_chain fs k1 := by
  intro fs
  induction fs with
  | nil => intro gs h; simp [Environment.rebind_chain] at h
  | cons f fs ih =>
    intro gs h
    simp only [Environment.rebind_chain] at h
    by_cases hc : f.count k = true
    · simp only [hc, if_true, Option.some.injEq] at h
      subst h
      refine ⟨by simp [Environment.lookup_chain, Frame.lookup_set], fun k1 h1 => ?_⟩
      simp [Environment.lookup_chain, Frame.lookup_set_ne f k k1 v h1]
    · simp only [hc, Bool.false_eq_true, if_false, Option.map_eq_some'] at h
      obtain ⟨fs1, hfs1, rfl⟩ := h
      have hnone : List.lookup k f = none :=
        (Frame.count_eq_false_iff f k).1 (by simpa using hc)
      obtain ⟨h1, h2⟩ := ih fs1 hfs1
      refine ⟨by simp [Environment.lookup_chain, hnone, h1], fun k1 hk1 => ?_⟩
      simp [Environment.lookup_chain, h2 k1 hk1]

theorem Environment.rebind_chain_none (k : Token) (v : Node D) :
    ∀ fs : List (Frame D), Environment.rebind_chain fs k v = none →
      Environment.lookup_chain fs k = none := by
  intro fs
  induction fs with
  | nil => intro _; rfl
  | cons f fs ih =>
    intro h
    simp only [Environment.rebind_chain] at h
    by_cases hc : f.count k = true
    · simp [hc] at h
    · simp only [hc, Bool.false_eq_true, if_false, Option.map_eq_none'] at h
      have hnone : List.lookup k f = none :=
        (Frame.count_eq_false_iff f k).1 (by simpa using hc)
      simp [Environment.lookup_chain, hnone, ih h]

theorem Environment.lookup_bind_current (env : Environment D) (k : Token) (v : Node D) :
    (env.bind_current k v).lookup k = some v := by
  simp [Environment.lookup, Environment.chain, Environment.bind_current,
    Environment.lookup_chain, Frame.lookup_set]

theorem Environment.lookup_assign (env : Environment D) (k : Token) (v : Node D) :
    (env.assign k v).lookup k = some v := by
  unfold Environment.assign
  split
  · rename_i f fs h
    exact (Environment.lookup_chain_rebind k v _ _ h).1
  · exact Environment.lookup_bind_current env k v

theorem Environment.lookup_assign_ne (env : Environment D) (k k1 : Token) (v : Node D)
    (h : k1 ≠ k) : (env.assign k v).lookup k1 = env.lookup k1 := by
  unfold Environment.assign
  split
  · rename_i f fs hr
    exact (Environment.lookup_chain_rebind k v _ _ hr).2 k1 h
  · simp [Environment.lookup, Environment.chain, Environment.bind_current,
      Environment.lookup_chain, Frame.lookup_set_ne _ k k1 v h]

theorem Environment.assign_parents_nil (env : Environment D) (k : Token) (v : Node D)
    (h : env.parents = []) : (env.assign k v).parents = [] := by
  unfold Environment.assign
  split
  · rename_i f fs hr
    have := (Environment.rebind_chain_same_keys k v _ _ hr).length_eq
    simp only [Environment.chain, h, List.length_cons, List.length_nil] at this
    simpa using this.symm
  · exact h

theorem valid_param_eq_any (X : Collaborators D) (arg0 : Node D) :
    ∀ params : List (Node D), (∀ p ∈ params, p.type = .assignment → p.children ≠ []) →
      valid_param X arg0 params = .ok (params.any fun p => X.node_eq arg0 (formal_node p)) := by
  intro params
  induction params with
  | nil => intro _; rfl
  | cons p ps ih =>
    intro hwf
    have ihp := ih (fun q hq => hwf q (List.mem_cons_of_mem _ hq))
    simp only [valid_param, List.any_cons, formal_node]
    by_cases hp : p.type = .assignment
    · have hne := hwf p (List.mem_cons_self _ _) hp
      cases hc : p.children with
      | nil => exact absurd hc hne
      | cons c cs =>
        simp only [hp, if_true, Node.child, hc, List.get?_cons_zero, bind, Except.bind,
          List.headD_cons]
        by_cases he : X.node_eq arg0 c = true
        · simp [he]
        · simp only [he, Bool.false_eq_true, if_false, ihp]
          simp [formal_node]
    · simp only [hp, if_false, bind, Except.bind]
      by_cases he : X.node_eq arg0 p = true
      · simp [he]
      · simp only [he, Bool.false_eq_true, if_false, ihp]
        simp [formal_node]

theorem bind_mixin_args_append (X : Collaborators D) (ev : Evaluator D)
    (pre mixin params : Node D) (rest : List (Node D)) :
    ∀ (before : List (Node D)) (j : Nat) (b env b1 env1 : Environment D),
      bind_mixin_args X ev pre mixin params before j b env = .ok (b1, env1) →
      bind_mixin_args X ev pre mixin params (before ++ rest) j b env
        = bind_mixin_args X ev pre mixin params rest (j + positional_count before) b1 env1 := by
  intro before
  induction before with
  | nil =>
    intro j b env b1 env1 h
    simp only [bind_mixin_args, Except.ok.injEq, Prod.mk.injEq] at h
    obtain ⟨rfl, rfl⟩ := h
    simp [positional_count]
  | cons a before ih =>
    intro j b env b1 env1 h
    simp only [bind_mixin_args, List.cons_append] at h ⊢
    by_cases ha : a.type = .assignment
    · have hpc : positional_count (a :: before) = positional_count before := by
        simp [positional_count, ha]
      simp only [ha, if_true] at h ⊢
      obtain ⟨a0, h0, h⟩ := bind_ok h
      obtain ⟨valid, hv, h⟩ := bind_ok h
      simp only [h0, hv, bind, Except.bind]
      split at h
      · obtain ⟨m0, _, h⟩ := bind_ok h
        simp at h
      · rename_i hvalid
        simp only [hvalid, if_false]
        split at h
        · rename_i hq
          obtain ⟨a1, h1, h⟩ := bind_ok h
          obtain ⟨r, hr, h⟩ := bind_ok h
          simp only [hq, if_true, h1, hr, bind, Except.bind, hpc]
          exact ih _ _ _ _ _ h
        · rename_i hq
          simp only [hq, if_false, hpc]
          exact ih _ _ _ _ _ h
    · have hpc : j + positional_count (a :: before) = (j + 1) + positional_count before := by
        simp [positional_count, ha]; omega
      simp only [ha, if_false] at h ⊢
      split at h
      · obtain ⟨m0, _, h⟩ := bind_ok h
        simp at h
      · rename_i hj
        simp only [hj, if_false]
        obtain ⟨param, hp, h⟩ := bind_ok h
        simp only [hp, bind, Except.bind]
        split at h
        · rename_i hpv
          obtain ⟨name, hn, h⟩ := bind_ok h
          obtain ⟨r, hr, h⟩ := bind_ok h
          simp only [Except.ok.injEq] at hn
          subst hn
          simp only [hpv, if_true, hr, hpc]
          exact ih _ _ _ _ _ h
        · rename_i hpv
          obtain ⟨name, hn, h⟩ := bind_ok h
          obtain ⟨r, hr, h⟩ := bind_ok h
          simp only [hpv, if_false, hn, hr, hpc]
          exact ih _ _ _ _ _ h

/-- C14: when the binding loop of `apply_mixin` reaches the keyword argument
`a` (an `assignment` whose child 0 is `a0`), in a mixin whose formals with a
default have their child 0: if `a0` equals none of the formals (the formal
itself, or its child 0 when it is an `assignment`), the loop, and with it
`apply_mixin`, fails with the error `mixin ... has no parameter named ...` at
the place of `a`; if it equals one, the loop goes on with the next argument,
after binding the evaluated value of `a` when the name is not bound yet and
without any binding (or evaluation) when it is. -/
theorem bind_keyword_argument (X : Collaborators D) (ev : Evaluator D)
    (pre mixin params m0 a a0 : Node D) (rest : List (Node D)) (j : Nat)
    (bindings env : Environment D)
    (ha : a.type = .assignment) (ha0 : a.child 0 = .ok a0) (hm0 : mixin.child 0 = .ok m0)
    (hwf : ∀ p ∈ params.children, p.type = .assignment → p.children ≠ []) :
    ((params.children.any fun p => X.node_eq a0 (formal_node p)) = false →
      bind_mixin_args X ev pre mixin params (a :: rest) j bindings env
        = .error (.thrown (throw_eval_error X
            ("mixin " ++ X.to_string m0 ++ " has no parameter named " ++ a0.token)
            a.path a.line))) ∧
    ((params.children.any fun p => X.node_eq a0 (formal_node p)) = true →
      (bindings.query a0.token = true →
        bind_mixin_args X ev pre mixin params (a :: rest) j bindings env
          = bind_mixin_args X ev pre mixin params rest j bindings env) ∧
      (bindings.query a0.token = false → ∀ a1 r, a.child 1 = .ok a1 → ev a1 pre env = .ok r →
        bind_mixin_args X ev pre mixin params (a :: rest) j bindings env
          = bind_mixin_args X ev pre mixin params rest j
              (bindings.assign a0.token r.value) r.env ∧
        (bindings.assign a0.token r.value).lookup a0.token = some r.value)) ∧
    (∀ (name : Token) (args body : Node D) (before : List (Node D))
        (env0 b1 env1 : Environment D),
      mixin.child 1 = .ok params → mixin.child 2 = .ok body →
      args.children = before ++ a :: rest →
      bind_mixin_args X ev pre mixin params before 0
        { current_frame := [], parents := [] } env0 = .ok (b1, env1) →
      (params.children.any fun p => X.node_eq a0 (formal_node p)) = false →
      apply_mixin X ev name mixin args pre env0
        = .error (.thrown (throw_eval_error X
            ("mixin " ++ X.to_string m0 ++ " has no parameter named " ++ a0.token)
            a.path a.line))) := by
  have hv := valid_param_eq_any X a0 params.children hwf
  have hfail : ∀ (j : Nat) (bindings env : Environment D),
      (params.children.any fun p => X.node_eq a0 (formal_node p)) = false →
      bind_mixin_args X ev pre mixin params (a :: rest) j bindings env
        = .error (.thrown (throw_eval_error X
            ("mixin " ++ X.to_string m0 ++ " has no parameter named " ++ a0.token)
            a.path a.line)) := by
    intro j bindings env hnone
    simp [bind_mixin_args, ha, ha0, hm0, hv, hnone, bind, Except.bind]
  refine ⟨hfail j bindings env, ?_, ?_⟩
  rotate_left
  · intro name args body before env0 b1 env1 hp hb hargs hbefore hnone
    simp only [apply_mixin, hp, hb, hargs, bind, Except.bind,
      bind_mixin_args_append X ev pre mixin params (a :: rest) before 0 _ env0 b1 env1 hbefore,
      hfail _ b1 env1 hnone]
  · intro hsome
    refine ⟨?_, ?_⟩
    · intro hq
      simp [bind_mixin_args, ha, ha0, hv, hsome, hq, bind, Except.bind]
    · intro hq a1 r h1 hr
      refine ⟨?_, Environment.lookup_assign _ _ _⟩
      simp [bind_mixin_args, ha, ha0, hv, hsome, hq, h1, hr, bind, Except.bind]

/-- The mixin `n($a, $b: 2)` included with `$c: 1` is refused: it has no
parameter named `$c`. -/
theorem bind_keyword_argument_witness :
    bind_mixin_args plain (eval plain [] 1) Node.null mixin_n
        (listing "parameters" [leaf .variable "$a", assign "$b" (num 2)])
        [assign "$c" (num 1)] 0 root_env root_env
      = .error (.thrown { type := .evaluation, path := "a.scss", line := 1,
                          message := "mixin n has no parameter named $c" }) :=
  (bind_keyword_argument plain (eval plain [] 1) Node.null mixin_n
    (listing "parameters" [leaf .variable "$a", assign "$b" (num 2)])
    (leaf (.other "identifier") "n") (assign "$c" (num 1)) (leaf .variable "$c") [] 0
    root_env root_env rfl rfl rfl (by simp [listing, node, leaf, assign, new_Node])).1 rfl

theorem bind_positional_loop (X : Collaborators D) (ev : Evaluator D)
    (pre mixin params m0 : Node D) (hm0 : mixin.child 0 = .ok m0)
    (hwf : ∀ p ∈ params.children, p.type = .variable ∨ p.children ≠ []) :
    ∀ (args : List (Node D)) (j : Nat) (b env env1 : Environment D) (vals : List (Node D)),
      (∀ a ∈ args, a.type ≠ .assignment) →
      eval_replace ev pre args env = .ok (vals, env1) →
      (j + args.length ≤ params.size →
        bind_mixin_args X ev pre mixin params args j b env
          = .ok (bind_all b (((params.children.drop j).map formal_name).zip vals), env1)) ∧
      (params.size < j + args.length → j ≤ params.size →
        ∀ a, args.get? (params.size - j) = some a →
          bind_mixin_args X ev pre mixin params args j b env
            = .error (too_many_arguments X m0 params a)) := by
  intro args
  induction args with
  | nil =>
    intro j b env env1 vals _ hv
    simp only [eval_replace, Except.ok.injEq, Prod.mk.injEq] at hv
    obtain ⟨rfl, rfl⟩ := hv
    refine ⟨fun _ => by simp [bind_mixin_args, bind_all], fun _ _ a ha => by simp at ha⟩
  | cons a args ih =>
    intro j b env env1 vals hpos hv
    obtain ⟨r, vs, hr, hvs, rfl⟩ := eval_replace_cons_ok hv
    have ha : a.type ≠ .assignment := hpos a (List.mem_cons_self _ _)
    have hrest := ih (j + 1) (b.assign (formal_name (params.children.getD j a)) r.value)
      r.env env1 vs (fun x hx => hpos x (List.mem_cons_of_mem _ hx)) hvs
    by_cases hj : j < params.size
    · obtain ⟨p, hp⟩ : ∃ p, params.children.get? j = some p := by
        have : j < params.children.length := hj
        exact ⟨params.children.get ⟨j, this⟩, List.get?_eq_get this⟩
      have hpm : p ∈ params.children := List.get?_mem hp
      have hdrop : params.children.drop j = p :: params.children.drop (j + 1) := by
        have hlt : j < params.children.length := hj
        rw [List.drop_eq_getElem_cons hlt]
        have : params.children[j] = p := by
          have h2 := List.get?_eq_get hlt
          rw [hp] at h2
          simpa using h2.symm
        rw [this]
      have hgetD : params.children.getD j a = p := by
        have hp1 : params.children[j]? = some p := by simpa using hp
        simp [List.getD, hp1]
      rw [hgetD] at hrest
      have hname : (if p.type = .variable then (Except.ok p.token : Except Failure Token)
          else (p.child 0).map fun p0 => p0.token) = .ok (formal_name p) := by
        unfold formal_name
        by_cases hpv : p.type = .variable
        · simp [hpv]
        · rcases hwf p hpm with h | h
          · exact absurd h hpv
          · cases hc : p.children with
            | nil => exact absurd hc h
            | cons c cs => simp [hpv, Node.child, hc, Except.map]
      have hstep : bind_mixin_args X ev pre mixin params (a :: args) j b env
          = bind_mixin_args X ev pre mixin params args (j + 1)
              (b.assign (formal_name p) r.value) r.env := by
        have hnj : ¬ (j ≥ params.size) := by omega
        simp only [bind_mixin_args, ha, if_false, hnj, Node.child, hp, bind, Except.bind]
        by_cases hpv : p.type = .variable
        · simp only [hpv, if_true, hr]
          simp [formal_name, hpv]
        · simp only [hpv, if_false] at hname ⊢
          simp only [Node.child] at hname
          simp only [hname, hr]
      rw [hstep]
      refine ⟨fun hle => ?_, fun hlt hjle x hx => ?_⟩
      · rw [(hrest.1 (by simp only [List.length_cons] at hle; omega))]
        simp [hdrop, bind_all]
      · have hidx : params.size - j = (params.size - (j + 1)) + 1 := by omega
        rw [hidx, List.get?_cons_succ] at hx
        exact hrest.2 (by simp only [List.length_cons] at hlt; omega) (by omega) x hx
    · refine ⟨fun hle => ?_, fun _ hjle x hx => ?_⟩
      · simp only [List.length_cons] at hle
        omega
      · have hz : params.size - j = 0 := by omega
        rw [hz] at hx
        simp only [List.get?_cons_zero, Option.some.injEq] at hx
        subst hx
        have hge : j ≥ params.size := by omega
        simp [bind_mixin_args, ha, hge, hm0, too_many_arguments, bind, Except.bind]

theorem bind_all_lookup_of_not_mem :
    ∀ (pairs : List (Token × Node D)) (b : Environment D) (k : Token),
      k ∉ pairs.map Prod.fst → (bind_all b pairs).lookup k = b.lookup k := by
  intro pairs
  induction pairs with
  | nil => intro b k _; rfl
  | cons p pairs ih =>
    intro b k hk
    simp only [List.map_cons, List.mem_cons, not_or] at hk
    simp only [bind_all, List.foldl_cons]
    have := ih (b.assign p.1 p.2) k hk.2
    simp only [bind_all] at this
    rw [this, Environment.lookup_assign_ne _ _ _ _ hk.1]

theorem bind_all_lookup_of_nodup :
    ∀ (names : List Token) (vals : List (Node D)) (b : Environment D) (i : Nat)
      (name : Token) (v : Node D), names.Nodup →
      names.get? i = some name → vals.get? i = some v →
      (bind_all b (names.zip vals)).lookup name = some v := by
  intro names
  induction names with
  | nil => intro vals b i name v _ hn _; simp at hn
  | cons n names ih =>
    intro vals b i name v hnd hn hv
    cases vals with
    | nil => simp at hv
    | cons w vals =>
      simp only [List.nodup_cons] at hnd
      simp only [List.zip_cons_cons, bind_all, List.foldl_cons]
      cases i with
      | zero =>
        simp only [List.get?_cons_zero, Option.some.injEq] at hn hv
        subst hn hv
        have hnot : n ∉ (names.zip vals).map Prod.fst := by
          intro hmem
          apply hnd.1
          rw [List.mem_map] at hmem
          obtain ⟨⟨x, y⟩, hxy, rfl⟩ := hmem
          exact (List.of_mem_zip hxy).1
        have := bind_all_lookup_of_not_mem (names.zip vals) (b.assign n w) n hnot
        simp only [bind_all] at this
        rw [this, Environment.lookup_assign]
      | succ i =>
        simp only [List.get?_cons_succ] at hn hv
        have := ih vals (b.assign n w) i name v hnd.2 hn hv
        simpa only [bind_all] using this

/-- C13, as stated, fails: the mixin `@mixin one($a) \x7b @include one(1, 2) \x7d`
has one formal and is included with one argument, and `apply_mixin` fails with
the error `mixin one only takes 1 argument`. The argument loop of this call
binds `$a` without error; the error is thrown by the inclusion in the body,
which has two arguments, and is passed on as it is. -/
theorem nested_too_many_arguments :
    apply_mixin plain (eval plain [] 2) "one" mixin_one (listing "arguments" [num 1]) Node.null
        { current_frame := [("one", mixin_one)], parents := [] }
      = .error (too_many_arguments plain (leaf (.other "identifier") "one")
          (listing "parameters" [leaf .variable "$a"]) (num 2)) ∧
    too_many_arguments plain (leaf (.other "identifier") "one")
        (listing "parameters" [leaf .variable "$a"]) (num 2)
      = .thrown { type := .evaluation, path := "a.scss", line := 1,
                  message := "mixin one only takes 1 argument" } ∧
    (listing "arguments" [num 1]).size ≤ (listing "parameters" [leaf .variable "$a"]).size ∧
    bind_mixin_args plain (eval plain [] 2) Node.null mixin_one
        (listing "parameters" [leaf .variable "$a"]) [num 1] 0 root_env
        { current_frame := [("one", mixin_one)], parents := [] }
      = .ok ({ current_frame := [("$a", num 1)], parents := [] },
             { current_frame := [("one", mixin_one)], parents := [] }) :=
  ⟨rfl, rfl, by decide, rfl⟩

/-- C13, amended: for a mixin with `n` formals (each a `variable` or a node
with a child 0) and an argument list of positional arguments only, whose
evaluation in order succeeds: the binding loop of `apply_mixin` fails with the
error `mixin ... only takes n argument(s)` iff there are more than `n`
arguments, and `apply_mixin` then fails with that error, raised at argument
`n`. Otherwise the loop binds, in order, the name of formal `i` to the value of
argument `i`; when the names of the formals are distinct, each name is finally
bound to the value of its argument. Nothing is said of the errors that the
evaluation of the body raises after the loop. -/
theorem bind_positional_arguments (X : Collaborators D) (ev : Evaluator D)
    (name : Token) (pre mixin params body m0 args : Node D) (env env1 : Environment D)
    (vals : List (Node D))
    (hm0 : mixin.child 0 = .ok m0) (hp : mixin.child 1 = .ok params)
    (hbody : mixin.child 2 = .ok body)
    (hwf : ∀ p ∈ params.children, p.type = .variable ∨ p.children ≠ [])
    (hpos : ∀ a ∈ args.children, a.type ≠ .assignment)
    (hvals : eval_replace ev pre args.children env = .ok (vals, env1)) :
    ((∃ a, bind_mixin_args X ev pre mixin params args.children 0
          { current_frame := [], parents := [] } env
        = .error (too_many_arguments X m0 params a)) ↔ params.size < args.size) ∧
    (params.size < args.size → ∀ a, args.children.get? params.size = some a →
      apply_mixin X ev name mixin args pre env
        = .error (too_many_arguments X m0 params a)) ∧
    (args.size ≤ params.size →
      bind_mixin_args X ev pre mixin params args.children 0
          { current_frame := [], parents := [] } env
        = .ok (bind_all { current_frame := [], parents := [] }
            ((params.children.map formal_name).zip vals), env1) ∧
      ((params.children.map formal_name).Nodup →
        ∀ (i : Nat) (p v : Node D), params.children.get? i = some p → vals.get? i = some v →
          (bind_all { current_frame := [], parents := [] }
            ((params.children.map formal_name).zip vals)).lookup (formal_name p) = some v)) := by
  have hloop := bind_positional_loop X ev pre mixin params m0 hm0 hwf args.children 0
    { current_frame := [], parents := [] } env env1 vals hpos hvals
  simp only [Nat.zero_add, List.drop_zero, Nat.sub_zero, Nat.zero_le, forall_true_left]
    at hloop
  have hfail : params.size < args.size → ∀ a, args.children.get? params.size = some a →
      bind_mixin_args X ev pre mixin params args.children 0
          { current_frame := [], parents := [] } env
        = .error (too_many_arguments X m0 params a) := fun h a ha => hloop.2 h a ha
  refine ⟨⟨?_, ?_⟩, ?_, ?_⟩
  · rintro ⟨a, ha⟩
    by_contra hle
    rw [hloop.1 (by simp only [Node.size] at hle ⊢; omega)] at ha
    simp at ha
  · intro hlt
    have hl : params.size < args.children.length := hlt
    exact ⟨args.children.get ⟨params.size, hl⟩, hfail hlt _ (List.get?_eq_get hl)⟩
  · intro hlt a ha
    simp only [apply_mixin, hp, hbody, bind, Except.bind, hfail hlt a ha]
  · intro hle
    refine ⟨hloop.1 hle, fun hnd i p v hpi hvi => ?_⟩
    apply bind_all_lookup_of_nodup _ _ _ i _ _ hnd _ hvi
    have hpi1 : params.children[i]? = some p := by simpa using hpi
    simp [hpi1]

/-- The mixin `n($a, $b: 2)` takes two arguments: `n(1, 2, 3)` is refused, and
`n(1, 3)` binds `$a` to 1 and `$b` to 3. -/
theorem bind_positional_arguments_witness :
    apply_mixin plain (eval plain [] 1) "n" mixin_n
        (listing "arguments" [num 1, num 2, num 3]) Node.null root_env
      = .error (.thrown { type := .evaluation, path := "a.scss", line := 1,
                          message := "mixin n only takes 2 arguments" }) ∧
    bind_mixin_args plain (eval plain [] 1) Node.null mixin_n
        (listing "parameters" [leaf .variable "$a", assign "$b" (num 2)]) [num 1, num 3] 0
        root_env root_env
      = .ok ({ current_frame := [("$a", num 1), ("$b", num 3)], parents := [] }, root_env) :=
  ⟨(bind_positional_arguments plain (eval plain [] 1) "n" Node.null mixin_n
      (listing "parameters" [leaf .variable "$a", assign "$b" (num 2)])
      (node .block [rule "w" (var_ref "$a")]) (leaf (.other "identifier") "n")
      (listing "arguments" [num 1, num 2, num 3]) root_env root_env [num 1, num 2, num 3]
      rfl rfl rfl (by simp [listing, node, leaf, assign, new_Node]) (by decide) rfl).2.1 (by decide) (num 3) rfl,
   ((bind_positional_arguments plain (eval plain [] 1) "n" Node.null mixin_n
      (listing "parameters" [leaf .variable "$a", assign "$b" (num 2)])
      (node .block [rule "w" (var_ref "$a")]) (leaf (.other "identifier") "n")
      (listing "arguments" [num 1, num 3]) root_env root_env [num 1, num 3]
      rfl rfl rfl (by simp [listing, node, leaf, assign, new_Node]) (by decide) rfl).2.2 (by decide)).1⟩


/-! ### Mixin application: default arguments -/

theorem bind_defaults_split (ev : Evaluator D) (pre : Node D) (rest : List (Node D)) :
    ∀ (before : List (Node D)) (b env : Environment D)
      (out : Environment D × Environment D × List (Node D)),
      bind_defaults ev pre (before ++ rest) b env = .ok out →
      ∃ b1 e1 ps1 ps2, bind_defaults ev pre before b env = .ok (b1, e1, ps1) ∧
        bind_defaults ev pre rest b1 e1 = .ok (out.1, out.2.1, ps2) ∧
        out.2.2 = ps1 ++ ps2 := by
  intro before
  induction before with
  | nil =>
    intro b env out h
    obtain ⟨o1, o2, o3⟩ := out
    exact ⟨b, env, [], o3, rfl, h, rfl⟩
  | cons p before ih =>
    intro b env out h
    simp only [List.cons_append, bind_defaults] at h ⊢
    split at h
    · rename_i hp
      obtain ⟨p0, h0, h⟩ := bind_ok h
      simp only [hp, if_true, h0, bind, Except.bind]
      split at h
      · rename_i hq
        obtain ⟨p1, h1, h⟩ := bind_ok h
        obtain ⟨r, hr, h⟩ := bind_ok h
        obtain ⟨⟨b2, e2, qs⟩, hrec, h⟩ := bind_ok h
        simp only [Except.ok.injEq] at h
        subst h
        obtain ⟨b1, e1, ps1, ps2, i1, i2, i3⟩ := ih _ _ _ hrec
        simp only [hq, if_true, h1, hr, bind, Except.bind, i1]
        exact ⟨b1, e1, _, ps2, rfl, i2, by simpa using i3⟩
      · rename_i hq
        obtain ⟨⟨b2, e2, qs⟩, hrec, h⟩ := bind_ok h
        simp only [Except.ok.injEq] at h
        subst h
        obtain ⟨b1, e1, ps1, ps2, i1, i2, i3⟩ := ih _ _ _ hrec
        simp only [hq, if_false, bind, Except.bind, i1]
        exact ⟨b1, e1, _, ps2, rfl, i2, by simpa using i3⟩
    · rename_i hp
      obtain ⟨⟨b2, e2, qs⟩, hrec, h⟩ := bind_ok h
      simp only [Except.ok.injEq] at h
      subst h
      obtain ⟨b1, e1, ps1, ps2, i1, i2, i3⟩ := ih _ _ _ hrec
      simp only [hp, if_false, bind, Except.bind, i1]
      exact ⟨b1, e1, _, ps2, rfl, i2, by simpa using i3⟩

theorem bind_defaults_keeps (ev : Evaluator D) (pre : Node D) :
    ∀ (ps : List (Node D)) (b env : Environment D)
      (out : Environment D × Environment D × List (Node D)),
      bind_defaults ev pre ps b env = .ok out →
      (b.parents = [] → out.1.parents = []) ∧
      (∀ k, b.query k = true → out.1.lookup k = b.lookup k) ∧
      (∀ k, (∀ q ∈ ps, q.type = .assignment → (formal_node q).token ≠ k) →
        out.1.lookup k = b.lookup k) := by
  intro ps
  induction ps with
  | nil =>
    intro b env out h
    simp only [bind_defaults, Except.ok.injEq] at h
    rw [← h]
    exact ⟨fun h => h, fun _ _ => rfl, fun _ _ => rfl⟩
  | cons p ps ih =>
    intro b env out h
    simp only [bind_defaults] at h
    have hskip : ∀ o : Environment D × Environment D × List (Node D),
        bind_defaults ev pre ps b env = .ok o → out.1 = o.1 →
        (b.parents = [] → out.1.parents = []) ∧
        (∀ k, b.query k = true → out.1.lookup k = b.lookup k) ∧
        (∀ k, (∀ q ∈ p :: ps, q.type = .assignment → (formal_node q).token ≠ k) →
          out.1.lookup k = b.lookup k) := by
      intro o h1 ho
      rw [ho]
      obtain ⟨i1, i2, i3⟩ := ih _ _ _ h1
      exact ⟨i1, i2, fun k hk => i3 k (fun q hq => hk q (List.mem_cons_of_mem _ hq))⟩
    split at h
    · rename_i hp
      obtain ⟨p0, h0, h⟩ := bind_ok h
      split at h
      · rename_i hq
        obtain ⟨p1, h1, h⟩ := bind_ok h
        obtain ⟨r, hr, h⟩ := bind_ok h
        obtain ⟨⟨b2, e2, qs⟩, hrec, h⟩ := bind_ok h
        simp only [Except.ok.injEq] at h
        subst h
        obtain ⟨i1, i2, i3⟩ := ih _ _ _ hrec
        have hqf : b.query p0.token = false := by simpa using hq
        have hfn : (formal_node p).token = p0.token := by
          simp only [Node.child] at h0
          cases hc : p.children with
          | nil => simp [hc] at h0
          | cons c cs =>
            simp only [hc, List.get?_cons_zero, Except.ok.injEq] at h0
            simp [formal_node, hp, hc, h0]
        refine ⟨fun hb => i1 (Environment.assign_parents_nil _ _ _ hb), fun k hk => ?_,
          fun k hk => ?_⟩
        · have hne : k ≠ p0.token := by
            intro heq
            rw [heq, hqf] at hk
            exact Bool.false_ne_true hk
          have hk1 : (b.assign p0.token r.value).query k = true := by
            simp only [Environment.query, Environment.lookup_assign_ne _ _ _ _ hne]
            exact hk
          exact (i2 k hk1).trans (Environment.lookup_assign_ne _ _ _ _ hne)
        · have hne : k ≠ p0.token := by
            have := hk p (List.mem_cons_self _ _) hp
            rw [hfn] at this
            exact fun heq => this heq.symm
          exact (i3 k (fun q hq => hk q (List.mem_cons_of_mem _ hq))).trans
            (Environment.lookup_assign_ne _ _ _ _ hne)
      · obtain ⟨⟨b2, e2, qs⟩, hrec, h⟩ := bind_ok h
        simp only [Except.ok.injEq] at h
        subst h
        exact hskip _ hrec rfl
    · obtain ⟨⟨b2, e2, qs⟩, hrec, h⟩ := bind_ok h
      simp only [Except.ok.injEq] at h
      subst h
      exact hskip _ hrec rfl

theorem bind_mixin_args_parents (X : Collaborators D) (ev : Evaluator D)
    (pre mixin params : Node D) :
    ∀ (args : List (Node D)) (j : Nat) (b env : Environment D)
      (out : Environment D × Environment D),
      bind_mixin_args X ev pre mixin params args j b env = .ok out →
      b.parents = [] → out.1.parents = [] := by
  intro args
  induction args with
  | nil =>
    intro j b env out h hb
    simp only [bind_mixin_args, Except.ok.injEq] at h
    rw [← h]
    exact hb
  | cons a rest ih =>
    intro j b env out h hb
    simp only [bind_mixin_args] at h
    split at h
    · obtain ⟨a0, _, h⟩ := bind_ok h
      obtain ⟨valid, _, h⟩ := bind_ok h
      split at h
      · obtain ⟨m0, _, h⟩ := bind_ok h
        simp at h
      · split at h
        · obtain ⟨a1, _, h⟩ := bind_ok h
          obtain ⟨r, hr, h⟩ := bind_ok h
          exact ih _ _ _ _ h (Environment.assign_parents_nil _ _ _ hb)
        · exact ih _ _ _ _ h hb
    · split at h
      · obtain ⟨m0, _, h⟩ := bind_ok h
        simp at h
      · obtain ⟨param, _, h⟩ := bind_ok h
        split at h <;>
        · obtain ⟨name, _, h⟩ := bind_ok h
          obtain ⟨r, hr, h⟩ := bind_ok h
          exact ih _ _ _ _ h (Environment.assign_parents_nil _ _ _ hb)

theorem Environment.lookup_link (b g : Environment D) (k : Token) (v : Node D)
    (hb : b.parents = []) (h : b.lookup k = some v) : (b.link g).lookup k = some v := by
  simp only [Environment.lookup, Environment.chain, hb, Environment.lookup_chain] at h
  simp only [Environment.lookup, Environment.chain, Environment.link, Environment.lookup_chain]
  cases hl : List.lookup k b.current_frame with
  | none => simp [hl] at h
  | some w => simpa [hl] using h

/-- C11, amended: one call of `apply_mixin`, the formals taken as the mixin node
holds them when the call is made. Let the argument loop succeed with the
bindings `b0`, and the default loop with `b2`, and let `p` be a formal with a
default (an `assignment` with children `p0`, `p1`), `b1` being the bindings when
the default loop reaches `p`. The body is evaluated in `b2` linked to the global
frame, where the name of `p` has the value it has in `b2`. When no argument has
bound the name (it is unbound in `b0`) and no earlier formal with a default
carries it, that value is the value of the node `p1`, evaluated in the caller's
environment `e1` at that point; more generally this holds when the name is
unbound in `b1`, and the formal is then left with `p1` as `eval` has rewritten
it in place. When an argument has bound the name, its value is kept and the
default is not used. -/
theorem default_argument (X : Collaborators D) (ev : Evaluator D) (name : Token)
    (pre mixin params body args p p0 p1 : Node D) (before after params1 : List (Node D))
    (env b0 env1 b2 env2 : Environment D)
    (hp : mixin.child 1 = .ok params) (hbody : mixin.child 2 = .ok body)
    (hargs : bind_mixin_args X ev pre mixin params args.children 0
      { current_frame := [], parents := [] } env = .ok (b0, env1))
    (hdef : bind_defaults ev pre params.children b0 env1 = .ok (b2, env2, params1))
    (hps : params.children = before ++ p :: after)
    (hpt : p.type = .assignment) (hp0 : p.child 0 = .ok p0) (hp1 : p.child 1 = .ok p1) :
    ∃ b1 e1 before1, bind_defaults ev pre before b0 env1 = .ok (b1, e1, before1) ∧
      apply_mixin X ev name mixin args pre env
        = (do
            let env3 := env2.rebind name (mixin.set 1 { params with children := params1 })
            let (body1, bindings1) ← eval_replace ev pre body.children (b2.link env3.global)
            .ok ({ body with children := body1 }, env3.set_global bindings1.global_frame)) ∧
      (∀ v g, b2.lookup p0.token = some v → (b2.link g).lookup p0.token = some v) ∧
      (b0.query p0.token = false →
        (∀ q ∈ before, q.type = .assignment → (formal_node q).token ≠ p0.token) →
        ∃ r, ev p1 pre e1 = .ok r ∧ b2.lookup p0.token = some r.value ∧
          ∀ g, (b2.link g).lookup p0.token = some r.value) ∧
      (b1.query p0.token = false →
        ∃ r after1, ev p1 pre e1 = .ok r ∧ b2.lookup p0.token = some r.value ∧
          params1 = before1 ++ p.set 1 r.expr :: after1) ∧
      (b1.query p0.token = true → b2.lookup p0.token = b1.lookup p0.token) ∧
      (b0.query p0.token = true → b2.lookup p0.token = b0.lookup p0.token) ∧
      ((∀ q ∈ before, q.type = .assignment → (formal_node q).token ≠ p0.token) →
        b1.lookup p0.token = b0.lookup p0.token) := by
  rw [hps] at hdef
  obtain ⟨b1, e1, ps1, ps2, hb1, hrest, hcat⟩ :=
    bind_defaults_split ev pre (p :: after) before b0 env1 _ hdef
  simp only at hrest hcat
  have hb0p : b0.parents = [] :=
    bind_mixin_args_parents X ev pre mixin params _ _ _ _ _ hargs rfl
  have k1 := bind_defaults_keeps ev pre before b0 env1 _ hb1
  have hall := bind_defaults_keeps ev pre (before ++ p :: after) b0 env1 _ hdef
  have hb2p : b2.parents = [] := hall.1 hb0p
  have hfresh : b1.query p0.token = false →
      ∃ r after1, ev p1 pre e1 = .ok r ∧ b2.lookup p0.token = some r.value ∧
        params1 = ps1 ++ p.set 1 r.expr :: after1 := by
    intro hq
    simp only [bind_defaults, hpt, if_true, hp0, hq, hp1, bind, Except.bind,
      Bool.not_false] at hrest
    cases hr : ev p1 pre e1 with
    | error e => simp [hr] at hrest
    | ok r =>
      simp only [hr] at hrest
      cases hrec : bind_defaults ev pre after (b1.assign p0.token r.value) r.env with
      | error e => simp [hrec] at hrest
      | ok o =>
        obtain ⟨o1, o2, o3⟩ := o
        simp only [hrec, Except.ok.injEq, Prod.mk.injEq] at hrest
        obtain ⟨rfl, rfl, rfl⟩ := hrest
        refine ⟨r, o3, rfl, ?_, hcat⟩
        have kr := (bind_defaults_keeps ev pre after _ _ _ hrec).2.1 p0.token
          (by simp [Environment.query, Environment.lookup_assign])
        exact kr.trans (Environment.lookup_assign _ _ _)
  refine ⟨b1, e1, ps1, hb1, ?_, ?_, ?_, hfresh, ?_, ?_, ?_⟩
  · rw [← hps] at hdef
    simp only [apply_mixin, hp, hbody, hargs, hdef, bind, Except.bind]
  · intro v g hv
    exact Environment.lookup_link b2 _ _ v hb2p hv
  · intro hq hne
    have hq1 : b1.query p0.token = false := by
      simp only [Environment.query, k1.2.2 _ hne] at hq ⊢
      exact hq
    obtain ⟨r, _, hr, hv, _⟩ := hfresh hq1
    exact ⟨r, hr, hv, fun g => Environment.lookup_link b2 _ _ _ hb2p hv⟩
  · intro hq
    exact (bind_defaults_keeps ev pre (p :: after) b1 e1 _ hrest).2.1 _ hq
  · intro hq
    exact hall.2.1 _ hq
  · intro hne
    exact k1.2.2 _ hne

/-- The mixin `m($p: 2) \x7b w: $p \x7d` included without argument: `$p` is bound to
the value of the default and the body becomes `w: 2`. -/
theorem default_argument_witness :
    (∃ r, eval decimal [] 2 (leaf .textual_number "2") Node.null root_env = .ok r ∧
      Environment.lookup ({ current_frame := [("$p", num 2)], parents := [] } : Environment ℚ)
        "$p" = some r.value ∧
      ∀ g, (Environment.link { current_frame := [("$p", num 2)], parents := [] } g).lookup "$p"
        = some r.value) ∧
    eval decimal [] 4 (expansion_of "m" []) Node.null
        { current_frame := [("m", mixin_m)], parents := [] }
      = .ok { value := node .expansion [rule "w" (num 2)],
              expr := node .expansion [rule "w" (num 2)],
              env := { current_frame := [("m", mixin_m)], parents := [] } } := by
  obtain ⟨b1, e1, ps1, h1, _, _, h4, _⟩ := default_argument decimal (eval decimal [] 2) "m"
    Node.null mixin_m (listing "parameters" [assign "$p" (leaf .textual_number "2")])
    (node .block [rule "w" (var_ref "$p")]) (listing "arguments" [])
    (assign "$p" (leaf .textual_number "2")) (leaf .variable "$p") (leaf .textual_number "2")
    [] [] [assign "$p" (leaf .textual_number "2")] root_env root_env root_env
    { current_frame := [("$p", num 2)], parents := [] } root_env
    rfl rfl rfl rfl rfl rfl rfl rfl
  simp only [bind_defaults, Except.ok.injEq, Prod.mk.injEq] at h1
  obtain ⟨rfl, rfl, rfl⟩ := h1
  exact ⟨h4 rfl (by simp), rfl⟩

/-- C11, as stated, fails in two ways. The mixin `d($p: 1, $p: 2) \x7b w: $p \x7d`
included without argument: no argument binds the second formal, whose default
has the value 2, and the body is evaluated with `$p` bound to 1, the default
of the first formal of that name. And in the stylesheet
`$x: 1; @mixin s($p: #\x7b$x\x7d) \x7b w: $p \x7d @include s; $x: 2; @include s;`
the first inclusion binds `$p` to the default evaluated where `$x` is 1, and
the second inclusion, made where `$x` is 2, binds `$p` to that same value: the
first evaluation has rewritten the default in place, on the formals that the
mixin held by the environment shares, and the rewritten default no longer
refers to `$x`. Evaluated in the environment of the second inclusion, the
default as it was declared has the value `#\x7b2\x7d`. -/
theorem default_argument_not_bound :
    (mixin_d.child 1 = .ok (listing "parameters" [assign "$p" (num 1), assign "$p" (num 2)]) ∧
     (eval plain [] 4 (expansion_of "d" []) Node.null
        { current_frame := [("d", mixin_d)], parents := [] }).map (fun r => r.value)
      = .ok (node .expansion [rule "w" (num 1)]) ∧
     (eval plain [] 2 (num 2) Node.null
        { current_frame := [("d", mixin_d)], parents := [] }).map (fun r => r.value)
      = .ok (num 2) ∧
     num 1 ≠ (num 2 : Node ℚ)) ∧
    (eval plain [] 5 stale_default_sheet Node.null root_env).map
        (fun r => (r.value.children.get? 2, r.value.children.get? 4, r.env.lookup "$x"))
      = .ok (some (node .expansion [rule "w" (node .value_schema [num 1])]),
             some (node .expansion [rule "w" (node .value_schema [num 1])]),
             some (num 2)) ∧
    (eval plain [] 5 stale_default_sheet Node.null root_env).map
        (fun r => (r.env.lookup "s").map fun m => m.children.get? 1)
      = .ok (some (some (listing "parameters" [assign "$p" (node .value_schema [num 1])]))) ∧
    (eval plain [] 2 (node .value_schema [var_ref "$x"]) Node.null
        { current_frame := [("$x", num 2)], parents := [] }).map (fun r => r.value)
      = .ok (node .value_schema [num 2]) :=
  ⟨⟨rfl, rfl, rfl, fun h => absurd (congrArg Node.numeric_value h) (by decide)⟩, rfl, rfl, rfl⟩

/-! ### Mixin application: the scope of the body -/

theorem has_backref_list_append :
    ∀ xs ys : List (Node D),
      has_backref_list (xs ++ ys) = (has_backref_list xs || has_backref_list ys) := by
  intro xs
  induction xs with
  | nil => intro ys; simp [has_backref_list]
  | cons x xs ih => intro ys; simp [has_backref_list, ih, Bool.or_assoc]

theorem has_backref_list_components (x : Node D) (h : x.has_backref = false) :
    has_backref_list (components x) = false := by
  unfold components
  by_cases ht : x.type = .selector
  · simp only [ht, if_true]
    cases x
    simp only [Node.has_backref, Bool.or_eq_false_iff] at h
    exact h.2
  · simp only [ht, if_false, has_backref_list, h, Bool.or_false]

theorem combine_eq (sel p s : Node D) :
    combine sel p s = { (new_Node .selector sel.path sel.line : Node D) with
      children := components p ++ components s } := by
  simp only [combine, components]
  by_cases h1 : p.type = .selector <;> by_cases h2 : s.type = .selector <;>
    simp [h1, h2, Node.append, Node.push_back, new_Node]

theorem expand_selector_plain (sel pre : Node D) (hpre : pre.type ≠ .none)
    (hpg : pre.type ≠ .selector_group) (hsg : sel.type ≠ .selector_group)
    (hb : sel.has_backref = false) :
    expand_selector sel pre = { (new_Node .selector sel.path sel.line : Node D) with
      children := components pre ++ components sel } := by
  rw [← combine_eq]
  simp [expand_selector, hpre, hb, hpg, hsg]

/-- C21: descendant combination is associative. For selectors `a`, `b`, `c`
that are not `selector_group`s, with `a` and `b` not `none` and `b` and `c`
without back-reference, `expand_selector(c, expand_selector(b, a))` and
`expand_selector(expand_selector(c, b), a)` are the same `selector` node, at
the position of `c`, with the children
`components a ++ components b ++ components c`. Nothing is asked of the variant
of `c` beyond not being a group, nor of the back-references of `a`. -/
theorem expand_selector_assoc (a b c : Node D)
    (ha : a.type ≠ .none) (hb : b.type ≠ .none)
    (hag : a.type ≠ .selector_group) (hbg : b.type ≠ .selector_group)
    (hcg : c.type ≠ .selector_group)
    (hbb : b.has_backref = false) (hcb : c.has_backref = false) :
    expand_selector c (expand_selector b a)
      = { (new_Node .selector c.path c.line : Node D) with
          children := components a ++ components b ++ components c } ∧
    expand_selector (expand_selector c b) a
      = { (new_Node .selector c.path c.line : Node D) with
          children := components a ++ components b ++ components c } ∧
    (expand_selector c (expand_selector b a)).type = .selector := by
  have h1 := expand_selector_plain b a ha hag hbg hbb
  have h2 := expand_selector_plain c b hb hbg hcg hcb
  have hleft : expand_selector c (expand_selector b a)
      = { (new_Node .selector c.path c.line : Node D) with
          children := components a ++ components b ++ components c } := by
    rw [h1, expand_selector_plain c _ (by simp [new_Node]) (by simp [new_Node]) hcg hcb]
    simp [components, new_Node]
  have hbc : Node.has_backref ({ (new_Node .selector c.path c.line : Node D) with
      children := components b ++ components c }) = false := by
    simp [Node.has_backref, new_Node, has_backref_list_append,
      has_backref_list_components b hbb, has_backref_list_components c hcb]
  refine ⟨hleft, ?_, ?_⟩
  · rw [h2, expand_selector_plain _ a ha hag (by simp [new_Node]) hbc]
    simp [components, new_Node, List.append_assoc]
  · rw [hleft]; rfl

/-- Three nested rulesets `.a`, `.b`, `.c` give the flat selector `.a .b .c`,
whichever two are combined first. -/
theorem expand_selector_assoc_witness :
    expand_selector (cls ".c") (expand_selector (cls ".b") (cls ".a"))
      = node .selector [cls ".a", cls ".b", cls ".c"] ∧
    expand_selector (expand_selector (cls ".c") (cls ".b")) (cls ".a")
      = node .selector [cls ".a", cls ".b", cls ".c"] :=
  ⟨(expand_selector_assoc (cls ".a") (cls ".b") (cls ".c") (by decide) (by decide)
      (by decide) (by decide) (by decide) rfl rfl).1,
   (expand_selector_assoc (cls ".a") (cls ".b") (cls ".c") (by decide) (by decide)
      (by decide) (by decide) (by decide) rfl rfl).2.1⟩

/-! ### Unary minus -/

theorem eval_unary_minus_numeric (X : Collaborators D) (f_env : FunctionTable D) (fuel : Nat)
    (expr pre c0 : Node D) (env : Environment D) (r0 : Result D)
    (ht : expr.type = .unary_minus) (hc : expr.child 0 = .ok c0)
    (h0 : eval X f_env fuel c0 pre env = .ok r0) (hn : r0.value.is_numeric = true) :
    eval X f_env (fuel + 1) expr pre env
      = .ok { value := new_number expr.path expr.line (-r0.value.numeric_value),
              expr := expr.set 0 r0.expr, env := r0.env } := by
  rw [eval]
  simp only [ht, hc, h0, hn, bind, Except.bind, if_true]

/-- C22: when the operand of a `unary_minus` node evaluates (with some fuel)
to a numeric node of value `v`, eval returns (with one more unit of fuel) the
node `new_Node(path, line, -v)` made at the position of the `unary_minus`
node: a `number` of value `-v` without unit, whatever the numeric variant of
the operand (`number`, `numeric_percentage` and `numeric_dimension` are
numeric). A `unary_minus` node around it then evaluates to a `number` of value
`-(-v)`, which is the number `v` whenever negation is an involution at `v` (it
is for IEEE doubles and for the rationals; the model assumes no law of the
arithmetic), and which is not the operand's value when that was a dimension or
a percentage. -/
theorem eval_unary_minus (X : Collaborators D) (f_env : FunctionTable D) (fuel : Nat)
    (expr pre c0 : Node D) (env : Environment D) (r0 : Result D)
    (ht : expr.type = .unary_minus) (hc : expr.child 0 = .ok c0)
    (h0 : eval X f_env fuel c0 pre env = .ok r0) (hn : r0.value.is_numeric = true) :
    (eval X f_env (fuel + 1) expr pre env
      = .ok { value := new_number expr.path expr.line (-r0.value.numeric_value),
              expr := expr.set 0 r0.expr, env := r0.env } ∧
     (new_number expr.path expr.line (-r0.value.numeric_value) : Node D).type = .number ∧
     (new_number expr.path expr.line (-r0.value.numeric_value) : Node D).numeric_value
       = -r0.value.numeric_value ∧
     (new_number expr.path expr.line (-r0.value.numeric_value) : Node D).unit = "") ∧
    (∀ n : Node D, n.type = .number ∨ n.type = .numeric_percentage ∨
        n.type = .numeric_dimension → n.is_numeric = true) ∧
    (∀ outer : Node D, outer.type = .unary_minus → outer.child 0 = .ok expr →
      eval X f_env (fuel + 2) outer pre env
        = .ok { value := new_number outer.path outer.line (-(-r0.value.numeric_value)),
                expr := outer.set 0 (expr.set 0 r0.expr), env := r0.env } ∧
      (-(-r0.value.numeric_value) = r0.value.numeric_value →
        (new_number outer.path outer.line (-(-r0.value.numeric_value)) : Node D)
          = new_number outer.path outer.line r0.value.numeric_value) ∧
      (r0.value.type ≠ .number →
        (new_number outer.path outer.line (-(-r0.value.numeric_value)) : Node D)
          ≠ r0.value)) := by
  have h1 := eval_unary_minus_numeric X f_env fuel expr pre c0 env r0 ht hc h0 hn
  refine ⟨⟨h1, rfl, rfl, rfl⟩, ?_, ?_⟩
  · intro n h
    rcases h with h | h | h <;> simp [Node.is_numeric, h]
  · intro outer hot hoc
    refine ⟨?_, ?_, ?_⟩
    · exact eval_unary_minus_numeric X f_env (fuel + 1) outer pre expr env _ hot hoc h1 rfl
    · intro h
      rw [h]
    · intro hne heq
      apply hne
      rw [← heq]
      rfl

/-- The negation `-3px` evaluates to the plain number `-3`, and `-(-3px)` to the
plain number `3`, which is not the dimension `3px`. -/
theorem eval_unary_minus_witness :
    eval plain [] 2 (node .unary_minus [dim 3 "px"]) Node.null root_env
      = .ok { value := num (-3), expr := node .unary_minus [dim 3 "px"], env := root_env } ∧
    eval plain [] 3 (node .unary_minus [node .unary_minus [dim 3 "px"]]) Node.null root_env
      = .ok { value := num 3, expr := node .unary_minus [node .unary_minus [dim 3 "px"]],
              env := root_env } ∧
    num 3 ≠ dim 3 "px" := by
  have h := eval_unary_minus plain [] 1 (node .unary_minus [dim 3 "px"]) Node.null
    (dim 3 "px") root_env { value := dim 3 "px", expr := dim 3 "px", env := root_env }
    rfl rfl rfl rfl
  have h2 := h.2.2 (node .unary_minus [node .unary_minus [dim 3 "px"]]) rfl rfl
  have e : (-(-(3 : ℚ))) = 3 := neg_neg 3
  refine ⟨h.1.1, ?_, ?_⟩
  · have := h2.1
    simp only [Node.numeric_value, dim, new_dimension, e] at this
    exact this
  · have := h2.2.2 (by decide)
    simp only [Node.numeric_value, dim, new_dimension, e] at this
    exact this

/-! ### Evaluating a second time: the trees that are left unchanged -/

theorem eval_fixed (X : Collaborators D) (f_env : FunctionTable D) (fuel : Nat)
    (n pre : Node D) (env : Environment D) (h : n.is_fixed f_env = true) :
    eval X f_env (fuel + 1) n pre env = .ok { value := n, expr := n, env := env } := by
  simp only [Node.is_fixed, Bool.or_eq_true, Bool.and_eq_true, beq_iff_eq] at h
  rcases h with h | ⟨ht, hu⟩
  · exact eval_inert X f_env fuel n pre env h
  · unfold unknown_call at hu
    split at hu
    · rename_i c0 c1 rest hcs
      simp only [Option.isNone_iff_eq_none] at hu
      simp [eval, ht, Node.child, hcs, hu, bind, Except.bind]
    · simp at hu

theorem eval_fixes (X : Collaborators D) (f_env : FunctionTable D) (fuel : Nat) :
    Evaluator.fixes f_env (eval X f_env fuel) := by
  intro c pre env r h n pre1 env1 hn
  cases fuel with
  | zero => simp [eval] at h
  | succ fuel => exact eval_fixed X f_env fuel n pre1 env1 hn

theorem Node.is_settled_of_fixed (f_env : FunctionTable D) (n : Node D)
    (h : n.is_fixed f_env = true) : n.is_settled f_env = true := by
  have h0 := h
  simp only [Node.is_fixed, Bool.or_eq_true, Bool.and_eq_true, beq_iff_eq] at h
  simp only [Node.is_settled, h0, Bool.or_true, Bool.and_true, Bool.and_eq_true,
    bne_iff_ne, ne_eq, Bool.or_eq_true, Bool.not_eq_true', beq_iff_eq]
  rcases h with h | ⟨ht, _⟩
  · cases hty : n.type <;> simp [hty, NodeType.is_inert] at h ⊢
  · simp [ht]

theorem Node.is_settled_of_plain (f_env : FunctionTable D) (n : Node D)
    (hs : n.should_eval = false) (h1 : n.type ≠ .value_schema) (h2 : n.type ≠ .string_schema)
    (h3 : n.type ≠ .comma_list) (h4 : n.type ≠ .space_list) :
    n.is_settled f_env = true := by
  simp [Node.is_settled, hs, h1, h2, h3, h4]

theorem Frame.settled_set (f_env : FunctionTable D) (k : Token) (v : Node D)
    (hv : v.is_settled f_env = true) :
    ∀ f : Frame D, Frame.settled f_env f → Frame.settled f_env (f.set k v) := by
  intro f
  induction f with
  | nil =>
    intro _ p hp
    simp only [Frame.set, List.mem_singleton] at hp
    rw [hp]; exact hv
  | cons a f ih =>
    intro hf p hp
    obtain ⟨k1, v1⟩ := a
    simp only [Frame.set] at hp
    split at hp
    · simp only [List.mem_cons] at hp
      rcases hp with hp | hp
      · rw [hp]; exact hv
      · exact hf p (List.mem_cons_of_mem _ hp)
    · simp only [List.mem_cons] at hp
      rcases hp with hp | hp
      · rw [hp]; exact hf _ (List.mem_cons_self _ _)
      · exact ih (fun q hq => hf q (List.mem_cons_of_mem _ hq)) p hp

theorem Frame.settled_lookup_frame (f_env : FunctionTable D) (k : Token) (v : Node D) :
    ∀ f : Frame D, Frame.settled f_env f → List.lookup k f = some v →
      v.is_settled f_env = true := by
  intro f
  induction f with
  | nil => intro _ h; simp at h
  | cons a f ih =>
    intro hf h
    obtain ⟨k1, v1⟩ := a
    simp only [List.lookup] at h
    split at h
    · simp only [Option.some.injEq] at h
      rw [← h]
      exact hf (k1, v1) (List.mem_cons_self _ _)
    · exact ih (fun q hq => hf q (List.mem_cons_of_mem _ hq)) h

theorem Environment.settled_lookup (f_env : FunctionTable D) (env : Environment D)
    (k : Token) (v : Node D) (henv : env.settled f_env) (h : env.lookup k = some v) :
    v.is_settled f_env = true := by
  have key : ∀ fs : List (Frame D), (∀ f ∈ fs, Frame.settled f_env f) →
      Environment.lookup_chain fs k = some v → v.is_settled f_env = true := by
    intro fs
    induction fs with
    | nil => intro _ h; simp [Environment.lookup_chain] at h
    | cons f fs ih =>
      intro hfs h
      simp only [Environment.lookup_chain] at h
      split at h
      · rename_i w hw
        simp only [Option.some.injEq] at h
        rw [← h]
        exact Frame.settled_lookup_frame f_env k w f (hfs f (List.mem_cons_self _ _)) hw
      · exact ih (fun g hg => hfs g (List.mem_cons_of_mem _ hg)) h
  exact key _ henv h

theorem Environment.settled_bind_current (f_env : FunctionTable D) (env : Environment D)
    (k : Token) (v : Node D) (henv : env.settled f_env) (hv : v.is_settled f_env = true) :
    (env.bind_current k v).settled f_env := by
  intro f hf
  simp only [Environment.bind_current, Environment.chain, List.mem_cons] at hf
  rcases hf with hf | hf
  · rw [hf]
    exact Frame.settled_set f_env k v hv _ (henv _ (List.mem_cons_self _ _))
  · exact henv f (List.mem_cons_of_mem _ hf)

theorem Environment.rebind_chain_settled (f_env : FunctionTable D) (k : Token) (v : Node D)
    (hv : v.is_settled f_env = true) :
    ∀ fs gs : List (Frame D), Environment.rebind_chain fs k v = some gs →
      (∀ f ∈ fs, Frame.settled f_env f) → ∀ g ∈ gs, Frame.settled f_env g := by
  intro fs
  induction fs with
  | nil => intro gs h; simp [Environment.rebind_chain] at h
  | cons f fs ih =>
    intro gs h hfs g hg
    simp only [Environment.rebind_chain] at h
    split at h
    · simp only [Option.some.injEq] at h
      rw [← h] at hg
      simp only [List.mem_cons] at hg
      rcases hg with hg | hg
      · rw [hg]
        exact Frame.settled_set f_env k v hv _ (hfs f (List.mem_cons_self _ _))
      · exact hfs g (List.mem_cons_of_mem _ hg)
    · cases hr : Environment.rebind_chain fs k v with
      | none => simp [hr] at h
      | some fs1 =>
        simp only [hr, Option.map_some', Option.some.injEq] at h
        rw [← h] at hg
        simp only [List.mem_cons] at hg
        rcases hg with hg | hg
        · rw [hg]; exact hfs f (List.mem_cons_self _ _)
        · exact ih fs1 hr (fun q hq => hfs q (List.mem_cons_of_mem _ hq)) g hg

theorem Environment.settled_assign (f_env : FunctionTable D) (env : Environment D)
    (k : Token) (v : Node D) (henv : env.settled f_env) (hv : v.is_settled f_env = true) :
    (env.assign k v).settled f_env := by
  unfold Environment.assign
  split
  · rename_i f fs h
    intro g hg
    exact Environment.rebind_chain_settled f_env k v hv _ _ h henv g hg
  · exact Environment.settled_bind_current f_env env k v henv hv

theorem Environment.settled_link (f_env : FunctionTable D) (env : Environment D)
    (henv : env.settled f_env) :
    (Environment.link { current_frame := [], parents := [] } env).settled f_env := by
  intro f hf
  simp only [Environment.link, Environment.chain, List.mem_cons] at hf
  rcases hf with hf | hf
  · rw [hf]; intro p hp; simp at hp
  · exact henv f (by simpa [Environment.chain] using hf)

theorem Environment.settled_unlink (f_env : FunctionTable D) (env : Environment D)
    (henv : env.settled f_env) : env.unlink.settled f_env := by
  unfold Environment.unlink
  split
  · exact henv
  · rename_i f fs h
    intro g hg
    apply henv
    simp only [Environment.chain, h] at hg ⊢
    exact List.mem_cons_of_mem _ hg


theorem accumulate_keeps (f_env : FunctionTable D) (X : Collaborators D) (op : NodeType)
    (acc rhs out : Node D) (h : accumulate X op acc rhs = .ok out)
    (hk : accumulator_ok f_env acc) : accumulator_ok f_env out := by
  obtain ⟨ht, hs, _⟩ := hk
  unfold accumulate at h
  cases hl : acc.children.getLast? with
  | none => simp [hl] at h
  | some lhs =>
    have hne : acc.children ≠ [] := by intro h0; simp [h0] at hl
    simp only [hl] at h
    have fresh : ∀ c : Node D, c.is_settled f_env = true →
        accumulator_ok f_env (acc.pop_back.push_back c) := by
      intro c hc
      refine ⟨ht, hs, fun x hx => ?_⟩
      simp only [Node.pop_back, Node.push_back] at hx
      cases hd : acc.children.dropLast with
      | nil => simp only [hd, List.nil_append, List.cons.injEq, and_true] at hx; rw [← hx]; exact hc
      | cons a l => simp [hd] at hx
    have app : ∀ c : Node D, accumulator_ok f_env (acc.push_back c) := by
      intro c
      refine ⟨ht, hs, fun x hx => ?_⟩
      simp only [Node.push_back] at hx
      cases hd : acc.children with
      | nil => exact absurd hd hne
      | cons a l => simp [hd] at hx
    have app2 : ∀ c d : Node D, accumulator_ok f_env ((acc.push_back c).push_back d) := by
      intro c d
      refine ⟨ht, hs, fun x hx => ?_⟩
      simp only [Node.push_back] at hx
      cases hd : acc.children with
      | nil => exact absurd hd hne
      | cons a l => simp [hd] at hx
    simp only [bind, Except.bind] at h
    repeat' split at h
    all_goals first
      | (simp at h; done)
      | (simp only [Except.ok.injEq] at h
         subst h
         first
           | (refine fresh _ ?_
              first
                | simp [Node.is_settled, new_number, new_dimension, new_color, new_Node])
           | exact app2 _ _
           | exact app _)


theorem Node.is_expr_eq (f_env : FunctionTable D) (n : Node D) :
    n.is_expr f_env =
      (match n.type with
       | .variable | .textual_number | .textual_percentage | .textual_dimension
       | .textual_hex => true
       | .expression | .term | .relation | .disjunction | .conjunction =>
         all_expr f_env n.children
       | .function_call => unknown_call f_env n.children || second_args f_env n.children
       | .unary_plus | .unary_minus => numeric_operand n.children
       | _ => n.type.is_inert) := by
  cases n with
  | mk t p l tok num b u se cs =>
    cases t <;> simp only [Node.is_expr]

theorem all_expr_cons (f_env : FunctionTable D) (c : Node D) (cs : List (Node D)) :
    all_expr f_env (c :: cs) = (c.is_expr f_env && all_expr f_env cs) := by
  simp only [all_expr]

theorem all_expr_drop (f_env : FunctionTable D) :
    ∀ (n : Nat) (cs : List (Node D)), all_expr f_env cs = true →
      all_expr f_env (cs.drop n) = true := by
  intro n
  induction n with
  | zero => intro cs h; simpa using h
  | succ n ih =>
    intro cs h
    cases cs with
    | nil => simpa using h
    | cons c cs =>
      simp only [all_expr_cons, Bool.and_eq_true] at h
      simpa using ih cs h.2

theorem all_expr_get (f_env : FunctionTable D) :
    ∀ (cs : List (Node D)) (i : Nat) (c : Node D), all_expr f_env cs = true →
      cs.get? i = some c → c.is_expr f_env = true := by
  intro cs
  induction cs with
  | nil => intro i c _ h; simp at h
  | cons a cs ih =>
    intro i c h hi
    simp only [all_expr_cons, Bool.and_eq_true] at h
    cases i with
    | zero =>
      simp only [List.get?_cons_zero, Option.some.injEq] at hi
      rw [← hi]; exact h.1
    | succ i => exact ih i c h.2 (by simpa using hi)

theorem Node.with_children (n : Node D) : { n with children := n.children } = n := by
  cases n; rfl

theorem Node.child_ok {n c : Node D} {i : Nat} (h : n.child i = .ok c) :
    n.children.get? i = some c := by
  simp only [Node.child] at h
  split at h
  · rename_i c1 hc
    simp only [Except.ok.injEq] at h
    rw [hc, h]
  · simp at h

theorem list_set_get_self {α : Type} :
    ∀ (cs : List α) (i : Nat) (c : α), cs.get? i = some c → cs.set i c = cs := by
  intro cs
  induction cs with
  | nil => intro i c h; simp at h
  | cons a cs ih =>
    intro i c h
    cases i with
    | zero =>
      simp only [List.get?_cons_zero, Option.some.injEq] at h
      simp [h]
    | succ i =>
      simp only [List.get?_cons_succ] at h
      simp [ih i c h]

theorem Node.set_child (n c : Node D) (i : Nat) (h : n.children.get? i = some c) :
    n.set i c = n := by
  cases n with
  | mk t p l tok num b u se cs =>
    simp only [Node.set, Node.mk.injEq, true_and]
    exact list_set_get_self cs i c h

theorem three_children {cs : List (Node D)} {c0 c1 c2 : Node D}
    (h0 : cs.get? 0 = some c0) (h1 : cs.get? 1 = some c1) (h2 : cs.get? 2 = some c2) :
    cs = c0 :: c1 :: c2 :: cs.drop 3 := by
  match cs, h0, h1, h2 with
  | a :: b :: c :: rest, h0, h1, h2 =>
    simp only [List.get?_cons_zero, List.get?_cons_succ, Option.some.injEq] at h0 h1 h2
    simp [h0, h1, h2]

theorem eval_disjunction_keeps (f_env : FunctionTable D) {ev : Evaluator D}
    (hev : ev.keeps_expr f_env) (pre : Node D) :
    ∀ (cs : List (Node D)) (result : Node D) (env : Environment D)
      (out : Node D × List (Node D) × Environment D),
      all_expr f_env cs = true → env.settled f_env → result.is_settled f_env = true →
      eval_disjunction ev pre cs result env = .ok out →
      out.2.1 = cs ∧ out.2.2 = env ∧ out.1.is_settled f_env = true := by
  intro cs
  induction cs with
  | nil =>
    intro result env out _ _ hres h
    simp only [eval_disjunction, Except.ok.injEq] at h
    rw [← h]
    exact ⟨rfl, rfl, hres⟩
  | cons c cs ih =>
    intro result env out hcs henv hres h
    simp only [all_expr_cons, Bool.and_eq_true] at hcs
    simp only [eval_disjunction] at h
    obtain ⟨r, hr, h⟩ := bind_ok h
    obtain ⟨e1, e2, e3⟩ := hev _ _ _ _ hcs.1 henv hr
    split at h
    · obtain ⟨⟨res, cs1, env1⟩, hrest, h⟩ := bind_ok h
      simp only [Except.ok.injEq] at h
      rw [← h]
      rw [e2] at hrest
      obtain ⟨i1, i2, i3⟩ := ih _ _ (res, cs1, env1) hcs.2 henv e3 hrest
      simp only at i1 i2 i3
      exact ⟨by simp [e1, i1], i2, i3⟩
    · simp only [Except.ok.injEq] at h
      rw [← h]
      exact ⟨by simp [e1], e2, e3⟩

theorem eval_conjunction_keeps (f_env : FunctionTable D) {ev : Evaluator D}
    (hev : ev.keeps_expr f_env) (pre : Node D) :
    ∀ (cs : List (Node D)) (result : Node D) (env : Environment D)
      (out : Node D × List (Node D) × Environment D),
      all_expr f_env cs = true → env.settled f_env → result.is_settled f_env = true →
      eval_conjunction ev pre cs result env = .ok out →
      out.2.1 = cs ∧ out.2.2 = env ∧ out.1.is_settled f_env = true := by
  intro cs
  induction cs with
  | nil =>
    intro result env out _ _ hres h
    simp only [eval_conjunction, Except.ok.injEq] at h
    rw [← h]
    exact ⟨rfl, rfl, hres⟩
  | cons c cs ih =>
    intro result env out hcs henv hres h
    simp only [all_expr_cons, Bool.and_eq_true] at hcs
    simp only [eval_conjunction] at h
    obtain ⟨r, hr, h⟩ := bind_ok h
    obtain ⟨e1, e2, e3⟩ := hev _ _ _ _ hcs.1 henv hr
    split at h
    · simp only [Except.ok.injEq] at h
      rw [← h]
      exact ⟨by simp [e1], e2, e3⟩
    · obtain ⟨⟨res, cs1, env1⟩, hrest, h⟩ := bind_ok h
      simp only [Except.ok.injEq] at h
      rw [← h]
      rw [e2] at hrest
      obtain ⟨i1, i2, i3⟩ := ih _ _ (res, cs1, env1) hcs.2 henv e3 hrest
      simp only at i1 i2 i3
      exact ⟨by simp [e1, i1], i2, i3⟩

theorem accumulate_rest_keeps (f_env : FunctionTable D) (X : Collaborators D)
    {ev : Evaluator D} (hev : ev.keeps_expr f_env) (pre : Node D) :
    ∀ (n : Nat) (cs : List (Node D)), cs.length ≤ n → ∀ (acc : Node D) (env : Environment D)
      (out : Node D × List (Node D) × Environment D),
      all_expr f_env cs = true → env.settled f_env → accumulator_ok f_env acc →
      accumulate_rest X ev pre cs acc env = .ok out →
      out.2.1 = cs ∧ out.2.2 = env ∧ accumulator_ok f_env out.1 := by
  intro n
  induction n with
  | zero =>
    intro cs hn acc env out _ _ hacc h
    have : cs = [] := List.length_eq_zero.mp (Nat.le_zero.mp hn)
    subst this
    simp only [accumulate_rest, Except.ok.injEq] at h
    rw [← h]
    exact ⟨rfl, rfl, hacc⟩
  | succ n ih =>
    intro cs hn acc env out hcs henv hacc h
    match cs, hn, hcs, h with
    | [], _, _, h =>
      simp only [accumulate_rest, Except.ok.injEq] at h
      rw [← h]
      exact ⟨rfl, rfl, hacc⟩
    | [_], _, _, h => simp [accumulate_rest] at h
    | op :: operand :: rest, hn, hcs, h =>
      simp only [all_expr_cons, Bool.and_eq_true] at hcs
      simp only [accumulate_rest] at h
      obtain ⟨r, hr, h⟩ := bind_ok h
      obtain ⟨acc1, hacc1, h⟩ := bind_ok h
      obtain ⟨⟨acc2, rest1, e1⟩, hrest, h⟩ := bind_ok h
      simp only [Except.ok.injEq] at h
      rw [← h]
      obtain ⟨x1, x2, _⟩ := hev _ _ _ _ hcs.2.1 henv hr
      rw [x2] at hrest
      have hlen : rest.length ≤ n := by simp only [List.length_cons] at hn; omega
      obtain ⟨i1, i2, i3⟩ := ih rest hlen _ _ (acc2, rest1, e1) hcs.2.2 henv
        (accumulate_keeps f_env X _ _ _ _ hacc1 hacc) hrest
      simp only at i1 i2 i3
      exact ⟨by simp [x1, i1], i2, i3⟩

theorem eval_expression_keeps (f_env : FunctionTable D) (X : Collaborators D)
    {ev : Evaluator D} (hev : ev.keeps_expr f_env) (expr pre : Node D) (env : Environment D)
    (r : Result D) (hcs : all_expr f_env expr.children = true) (henv : env.settled f_env)
    (h : eval_expression X ev expr pre env = .ok r) :
    r.expr = expr ∧ r.env = env ∧ r.value.is_settled f_env = true := by
  simp only [eval_expression] at h
  obtain ⟨c0, h0, h⟩ := bind_ok h
  obtain ⟨r0, hr0, h⟩ := bind_ok h
  obtain ⟨c2, h2, h⟩ := bind_ok h
  obtain ⟨r2, hr2, h⟩ := bind_ok h
  obtain ⟨c1, h1, h⟩ := bind_ok h
  obtain ⟨acc, hacc, h⟩ := bind_ok h
  obtain ⟨⟨acc2, rest, e1⟩, hrest, h⟩ := bind_ok h
  have g0 := Node.child_ok h0
  have g1 := Node.child_ok h1
  have g2 := Node.child_ok h2
  obtain ⟨a1, a2, a3⟩ := hev _ _ _ _ (all_expr_get f_env _ _ _ hcs g0) henv hr0
  rw [a2] at hr2
  obtain ⟨b1, b2, _⟩ := hev _ _ _ _ (all_expr_get f_env _ _ _ hcs g2) henv hr2
  rw [b2] at hrest
  have k0 : accumulator_ok f_env
      ((new_Node .expression expr.path expr.line : Node D).push_back r0.value) := by
    refine ⟨rfl, rfl, fun x hx => ?_⟩
    simp only [Node.push_back, new_Node, List.nil_append, List.cons.injEq, and_true] at hx
    rw [← hx]; exact a3
  have k1 := accumulate_keeps f_env X _ _ _ _ hacc k0
  obtain ⟨i1, i2, i3⟩ := accumulate_rest_keeps f_env X hev pre _ _ (Nat.le_refl _) _ _
    (acc2, rest, e1) (all_expr_drop f_env 3 _ hcs) henv k1 hrest
  simp only at i1 i2 i3 h
  have hexpr : ({ expr with children := r0.expr :: c1 :: r2.expr :: rest } : Node D) = expr := by
    rw [a1, b1, i1, ← three_children g0 g1 g2]
    exact Node.with_children expr
  split at h
  · rename_i a ha
    simp only [Except.ok.injEq] at h
    rw [← h]
    exact ⟨hexpr, i2, i3.2.2 a ha⟩
  · simp only [Except.ok.injEq] at h
    rw [← h]
    refine ⟨hexpr, i2, ?_⟩
    exact Node.is_settled_of_plain f_env _ i3.2.1 (by simp [i3.1]) (by simp [i3.1])
      (by simp [i3.1]) (by simp [i3.1])


theorem eval_hex_settled (f_env : FunctionTable D) (expr triple : Node D)
    (h : eval_hex expr = .ok triple) : triple.is_settled f_env = true := by
  unfold eval_hex at h
  simp only at h
  split at h
  · simp at h
  · simp only [Except.ok.injEq] at h
    rw [← h]
    simp [Node.is_settled, new_Node]

theorem eval_numeric_operand (X : Collaborators D) (f_env : FunctionTable D) (fuel : Nat)
    (c0 pre : Node D) (env : Environment D) (r : Result D)
    (hc : numeric_operand [c0] = true) (h : eval X f_env fuel c0 pre env = .ok r) :
    r.expr = c0 ∧ r.env = env ∧ r.value.is_numeric = true ∧
      r.value.is_settled f_env = true := by
  cases fuel with
  | zero => simp [eval] at h
  | succ fuel =>
    simp only [numeric_operand, Bool.or_eq_true, beq_iff_eq] at hc
    rcases hc with ((hc | hc) | hc) | hc
    · simp only [eval, hc, Except.ok.injEq] at h
      rw [← h]
      exact ⟨rfl, rfl, by simp [Node.is_numeric, new_number, new_Node],
        by simp [Node.is_settled, new_number, new_Node]⟩
    · simp only [eval, hc, Except.ok.injEq] at h
      rw [← h]
      exact ⟨rfl, rfl, by simp [Node.is_numeric, new_percentage, new_Node],
        by simp [Node.is_settled, new_percentage, new_Node]⟩
    · simp only [eval, hc, Except.ok.injEq] at h
      rw [← h]
      exact ⟨rfl, rfl, by simp [Node.is_numeric, new_dimension, new_Node],
        by simp [Node.is_settled, new_dimension, new_Node]⟩
    · have hin : c0.type.is_inert = true := by
        simp only [Node.is_numeric, Bool.or_eq_true, beq_iff_eq] at hc
        rcases hc with (hc | hc) | hc <;> simp [hc, NodeType.is_inert]
      rw [eval_inert X f_env fuel c0 pre env hin] at h
      simp only [Except.ok.injEq] at h
      rw [← h]
      exact ⟨rfl, rfl, hc, Node.is_settled_of_fixed f_env c0 (by simp [Node.is_fixed, hin])⟩

theorem all_arg_cons (f_env : FunctionTable D) (a : Node D) (rest : List (Node D)) :
    all_arg f_env (a :: rest) =
      ((if a.type = .assignment then a.is_keyword f_env else a.is_expr f_env)
        && all_arg f_env rest) := by
  simp only [all_arg]

theorem Node.is_keyword_eq (f_env : FunctionTable D) (a : Node D) :
    a.is_keyword f_env = second_expr f_env a.children := by
  cases a; simp only [Node.is_keyword]

theorem Node.has_args_eq (f_env : FunctionTable D) (a : Node D) :
    a.has_args f_env = all_arg f_env a.children := by
  cases a; simp only [Node.has_args]

theorem bind_function_args_keeps (f_env : FunctionTable D) {ev : Evaluator D}
    (hev : ev.keeps_expr f_env) (pre : Node D) (f : Function D) :
    ∀ (args : List (Node D)) (j : Nat) (b : Frame D) (env : Environment D)
      (out : Frame D × List (Node D) × Environment D),
      all_arg f_env args = true → env.settled f_env → Frame.settled f_env b →
      bind_function_args ev pre f args j b env = .ok out →
      Frame.settled f_env out.1 ∧ out.2.1 = args ∧ out.2.2 = env := by
  intro args
  induction args with
  | nil =>
    intro j b env out _ _ hb h
    simp only [bind_function_args, Except.ok.injEq] at h
    rw [← h]
    exact ⟨hb, rfl, rfl⟩
  | cons a rest ih =>
    intro j b env out hargs henv hb h
    simp only [all_arg_cons, Bool.and_eq_true] at hargs
    simp only [bind_function_args] at h
    split at h
    · rename_i ha
      simp only [ha, if_true, Node.is_keyword_eq] at hargs
      obtain ⟨a0, _, h⟩ := bind_ok h
      obtain ⟨a1, h1, h⟩ := bind_ok h
      obtain ⟨r, hr, h⟩ := bind_ok h
      obtain ⟨⟨b1, rest1, e1⟩, hrest, h⟩ := bind_ok h
      simp only [Except.ok.injEq] at h
      rw [← h]
      have g1 := Node.child_ok h1
      have ha1 : a1.is_expr f_env = true := by
        match hcs : a.children, g1, hargs.1 with
        | _ :: c :: _, g1, hk =>
          simp only [List.get?_cons_succ, List.get?_cons_zero, Option.some.injEq] at g1
          simpa [second_expr, g1] using hk
      obtain ⟨x1, x2, x3⟩ := hev _ _ _ _ ha1 henv hr
      rw [x2] at hrest
      obtain ⟨i1, i2, i3⟩ := ih _ _ _ (b1, rest1, e1) hargs.2 henv
        (Frame.settled_set f_env _ _ x3 _ hb) hrest
      simp only at i1 i2 i3
      exact ⟨i1, by simp [x1, i2, Node.set_child a a1 1 g1], i3⟩
    · rename_i ha
      simp only [ha, if_false] at hargs
      split at h
      · simp at h
      · obtain ⟨r, hr, h⟩ := bind_ok h
        obtain ⟨⟨b1, rest1, e1⟩, hrest, h⟩ := bind_ok h
        simp only [Except.ok.injEq] at h
        rw [← h]
        obtain ⟨x1, x2, x3⟩ := hev _ _ _ _ hargs.1 henv hr
        rw [x2] at hrest
        obtain ⟨i1, i2, i3⟩ := ih _ _ _ (b1, rest1, e1) hargs.2 henv
          (Frame.settled_set f_env _ _ x3 _ hb) hrest
        simp only at i1 i2 i3
        exact ⟨i1, by simp [x1, i2], i3⟩

theorem eval_keeps_expr (X : Collaborators D) (f_env : FunctionTable D)
    (hf : functions_settled f_env) :
    ∀ fuel, Evaluator.keeps_expr f_env (eval X f_env fuel) := by
  intro fuel
  induction fuel with
  | zero =>
    intro c pre env r _ _ h
    simp [eval] at h
  | succ fuel ih =>
    intro c pre env r hc henv h
    rw [Node.is_expr_eq] at hc
    have hnull : (Node.null : Node D).is_settled f_env = true := by
      simp [Node.is_settled, Node.null, new_Node]
    by_cases hin : c.type.is_inert = true
    · rw [eval_inert X f_env fuel c pre env hin] at h
      simp only [Except.ok.injEq] at h
      rw [← h]
      exact ⟨rfl, rfl, Node.is_settled_of_fixed f_env c (by simp [Node.is_fixed, hin])⟩
    · cases hty : c.type with
      | «variable» =>
        simp only [eval, hty] at h
        split at h
        · simp at h
        · rename_i v hv
          simp only [Except.ok.injEq] at h
          rw [← h]
          exact ⟨rfl, rfl, Environment.settled_lookup f_env env _ v henv hv⟩
      | textual_number =>
        simp only [eval, hty, Except.ok.injEq] at h
        rw [← h]
        exact ⟨rfl, rfl, by simp [Node.is_settled, new_number, new_Node]⟩
      | textual_percentage =>
        simp only [eval, hty, Except.ok.injEq] at h
        rw [← h]
        exact ⟨rfl, rfl, by simp [Node.is_settled, new_percentage, new_Node]⟩
      | textual_dimension =>
        simp only [eval, hty, Except.ok.injEq] at h
        rw [← h]
        exact ⟨rfl, rfl, by simp [Node.is_settled, new_dimension, new_Node]⟩
      | textual_hex =>
        simp only [eval, hty] at h
        obtain ⟨triple, ht, h⟩ := bind_ok h
        simp only [Except.ok.injEq] at h
        rw [← h]
        exact ⟨rfl, rfl, eval_hex_settled f_env c triple ht⟩
      | expression =>
        simp only [hty] at hc
        simp only [eval, hty] at h
        exact eval_expression_keeps f_env X ih c pre env r hc henv h
      | term =>
        simp only [hty] at hc
        simp only [eval, hty] at h
        split at h
        · exact eval_expression_keeps f_env X ih c pre env r hc henv h
        · rename_i hse
          simp only [Except.ok.injEq] at h
          rw [← h]
          exact ⟨rfl, rfl, Node.is_settled_of_plain f_env c (by simpa using hse)
            (by simp [hty]) (by simp [hty]) (by simp [hty]) (by simp [hty])⟩
      | relation =>
        simp only [hty] at hc
        simp only [eval, hty] at h
        obtain ⟨c0, h0, h⟩ := bind_ok h
        obtain ⟨l, hl, h⟩ := bind_ok h
        obtain ⟨op, h1, h⟩ := bind_ok h
        obtain ⟨c2, h2, h⟩ := bind_ok h
        obtain ⟨r2, hr2, h⟩ := bind_ok h
        have g0 := Node.child_ok h0
        have g1 := Node.child_ok h1
        have g2 := Node.child_ok h2
        obtain ⟨a1, a2, _⟩ := ih _ _ _ _ (all_expr_get f_env _ _ _ hc g0) henv hl
        rw [a2] at hr2
        obtain ⟨b1, b2, _⟩ := ih _ _ _ _ (all_expr_get f_env _ _ _ hc g2) henv hr2
        have hexpr : ({ c with children := l.expr :: op :: r2.expr :: c.children.drop 3 }
            : Node D) = c := by
          rw [a1, b1, ← three_children g0 g1 g2]
          exact Node.with_children c
        split at h
        all_goals first
          | (simp at h; done)
          | (simp only [Except.ok.injEq] at h
             rw [← h]
             refine ⟨?_, b2, ?_⟩
             · simp only
               rw [← hty]
               exact hexpr
             · simp only
               split <;> simp [Node.is_settled, new_boolean, new_Node])
      | disjunction =>
        simp only [hty] at hc
        simp only [eval, hty] at h
        obtain ⟨⟨res, cs, e1⟩, hcs, h⟩ := bind_ok h
        simp only [Except.ok.injEq] at h
        rw [← h]
        obtain ⟨i1, i2, i3⟩ := eval_disjunction_keeps f_env ih pre _ _ _ (res, cs, e1) hc henv
          hnull hcs
        simp only at i1 i2 i3
        exact ⟨by rw [i1, ← hty]; exact Node.with_children c, i2, i3⟩
      | conjunction =>
        simp only [hty] at hc
        simp only [eval, hty] at h
        obtain ⟨⟨res, cs, e1⟩, hcs, h⟩ := bind_ok h
        simp only [Except.ok.injEq] at h
        rw [← h]
        obtain ⟨i1, i2, i3⟩ := eval_conjunction_keeps f_env ih pre _ _ _ (res, cs, e1) hc henv
          hnull hcs
        simp only at i1 i2 i3
        exact ⟨by rw [i1, ← hty]; exact Node.with_children c, i2, i3⟩
      | function_call =>
        simp only [hty, Bool.or_eq_true] at hc
        by_cases hu : unknown_call f_env c.children = true
        · have hfix : c.is_fixed f_env = true := by simp [Node.is_fixed, hty, hu]
          rw [eval_fixed X f_env fuel c pre env hfix] at h
          simp only [Except.ok.injEq] at h
          rw [← h]
          exact ⟨rfl, rfl, Node.is_settled_of_fixed f_env c hfix⟩
        · have hargs : second_args f_env c.children = true := by
            rcases hc with h0 | h0
            · exact absurd h0 hu
            · exact h0
          simp only [eval, hty] at h
          obtain ⟨c0, h0, h⟩ := bind_ok h
          obtain ⟨c1, h1, h⟩ := bind_ok h
          have g1 := Node.child_ok h1
          have hc1 : all_arg f_env c1.children = true := by
            match hcs : c.children, g1, hargs with
            | _ :: a :: _, g1, hk =>
              simp only [List.get?_cons_succ, List.get?_cons_zero, Option.some.injEq] at g1
              simpa [second_args, g1, Node.has_args_eq] using hk
          split at h
          · simp only [Except.ok.injEq] at h
            rw [← h]
            refine ⟨rfl, rfl, ?_⟩
            rename_i hlook
            have hfix : c.is_fixed f_env = true := by
              have g0 := Node.child_ok h0
              match hcs : c.children, g0, g1 with
              | a :: b :: _, g0, g1 =>
                simp only [List.get?_cons_succ, List.get?_cons_zero, Option.some.injEq]
                  at g0 g1
                simp [Node.is_fixed, hty, unknown_call, hcs, g0, g1, hlook]
            exact Node.is_settled_of_fixed f_env c hfix
          · rename_i f hlook
            obtain ⟨⟨v, args1, env1⟩, happ, h⟩ := bind_ok h
            simp only [Except.ok.injEq] at h
            rw [← h]
            simp only [apply_function] at happ
            obtain ⟨⟨b, as1, e1⟩, hb, happ⟩ := bind_ok happ
            simp only [Except.ok.injEq, Prod.mk.injEq] at happ
            obtain ⟨hv, ha, he⟩ := happ
            obtain ⟨i1, i2, i3⟩ := bind_function_args_keeps f_env ih pre f _ _ _ _
              (b, as1, e1) hc1 henv (fun p hp => by simp at hp) hb
            simp only at i1 i2 i3
            refine ⟨?_, by rw [← he]; exact i3, by rw [← hv]; exact hf _ f hlook b i1⟩
            simp only
            rw [← ha, i2, Node.with_children c1]
            exact Node.set_child c c1 1 g1
      | unary_plus =>
        simp only [hty] at hc
        simp only [eval, hty] at h
        obtain ⟨c0, h0, h⟩ := bind_ok h
        obtain ⟨r0, hr0, h⟩ := bind_ok h
        have g0 := Node.child_ok h0
        have hop : numeric_operand [c0] = true := by
          cases hcs : c.children with
          | nil => simp [hcs] at g0
          | cons a rest =>
            simp only [hcs, List.get?_cons_zero, Option.some.injEq] at g0
            simpa [numeric_operand, hcs, g0] using hc
        obtain ⟨a1, a2, a3, a4⟩ := eval_numeric_operand X f_env fuel c0 pre env r0 hop hr0
        simp only [a3, if_true, Except.ok.injEq] at h
        rw [← h]
        exact ⟨by rw [a1]; exact Node.set_child c c0 0 g0, a2, a4⟩
      | unary_minus =>
        simp only [hty] at hc
        simp only [eval, hty] at h
        obtain ⟨c0, h0, h⟩ := bind_ok h
        obtain ⟨r0, hr0, h⟩ := bind_ok h
        have g0 := Node.child_ok h0
        have hop : numeric_operand [c0] = true := by
          cases hcs : c.children with
          | nil => simp [hcs] at g0
          | cons a rest =>
            simp only [hcs, List.get?_cons_zero, Option.some.injEq] at g0
            simpa [numeric_operand, hcs, g0] using hc
        obtain ⟨a1, a2, a3, a4⟩ := eval_numeric_operand X f_env fuel c0 pre env r0 hop hr0
        simp only [a3, if_true, Except.ok.injEq] at h
        rw [← h]
        exact ⟨by rw [a1]; exact Node.set_child c c0 0 g0, a2,
          by simp [Node.is_settled, new_number, new_Node]⟩
      | _ => simp_all [NodeType.is_inert]


theorem Node.is_stmt_eq (f_env : FunctionTable D) (n : Node D) :
    n.is_stmt f_env =
      (match n.type with
       | .root | .block => all_stmt f_env n.children
       | .propset => second_stmt f_env n.children
       | .mixin => !n.should_eval
       | .assignment => assigned_ok f_env n.children
       | .rule => rule_ok f_env n.children
       | .css_import => first_fixed f_env n.children
       | _ => false) := by
  cases n with
  | mk t p l tok num b u se cs =>
    cases t <;> simp only [Node.is_stmt]

theorem all_stmt_cons (f_env : FunctionTable D) (c : Node D) (cs : List (Node D)) :
    all_stmt f_env (c :: cs) = (c.is_stmt f_env && all_stmt f_env cs) := by
  simp only [all_stmt]

theorem Node.child_set (n c c0 : Node D) (i : Nat) (h : n.children.get? i = some c0) :
    (n.set i c).child i = .ok c := by
  have hlt : i < n.children.length := by
    by_contra hge
    have : n.children.get? i = none := by simp [List.get?_eq_none]; omega
    rw [this] at h; simp at h
  simp [Node.child, Node.set, List.getElem?_set, hlt]

theorem Node.set_set (n c d : Node D) (i : Nat) : (n.set i c).set i d = n.set i d := by
  simp [Node.set]

theorem eval_children_repeats (f_env : FunctionTable D) {ev : Evaluator D}
    (hev : ev.repeats f_env) (pre : Node D) :
    ∀ (cs : List (Node D)) (env : Environment D) (cs1 : List (Node D)) (env1 : Environment D),
      all_stmt f_env cs = true → env.settled f_env →
      eval_children ev pre cs env = .ok (cs1, env1) →
      env1.settled f_env ∧ eval_children ev pre cs1 env = .ok (cs1, env1) := by
  intro cs
  induction cs with
  | nil =>
    intro env cs1 env1 _ henv h
    simp only [eval_children, Except.ok.injEq, Prod.mk.injEq] at h
    obtain ⟨rfl, rfl⟩ := h
    exact ⟨henv, rfl⟩
  | cons c cs ih =>
    intro env cs1 env1 hcs henv h
    simp only [all_stmt_cons, Bool.and_eq_true] at hcs
    simp only [eval_children] at h
    obtain ⟨r, hr, h⟩ := bind_ok h
    obtain ⟨⟨cs2, e2⟩, hrest, h⟩ := bind_ok h
    simp only [Except.ok.injEq, Prod.mk.injEq] at h
    obtain ⟨rfl, rfl⟩ := h
    obtain ⟨_, a2, a3⟩ := hev _ _ _ _ hcs.1 henv hr
    obtain ⟨i1, i2⟩ := ih _ _ _ hcs.2 a2 hrest
    refine ⟨i1, ?_⟩
    simp only [eval_children, a3, i2, bind, Except.bind]

theorem eval_should_fixed (f_env : FunctionTable D) {ev : Evaluator D} (pre : Node D)
    (hfix : ∀ n pre1 env1, n.is_fixed f_env = true →
      ev n pre1 env1 = .ok { value := n, expr := n, env := env1 }) :
    ∀ (cs : List (Node D)) (env : Environment D),
      (∀ c ∈ cs, c.should_eval = true → c.is_fixed f_env = true) →
      eval_should ev pre cs env = .ok (cs, env) := by
  intro cs
  induction cs with
  | nil => intro env _; rfl
  | cons c cs ih =>
    intro env hcs
    have hrest := ih env (fun x hx => hcs x (List.mem_cons_of_mem _ hx))
    simp only [eval_should]
    by_cases hse : c.should_eval = true
    · simp only [hse, if_true, hfix c pre env (hcs c (List.mem_cons_self _ _) hse), hrest,
        bind, Except.bind]
    · simp only [hse, hrest, bind, Except.bind]
      rfl

theorem eval_should_repeats (f_env : FunctionTable D) {ev : Evaluator D}
    (hev : ev.keeps_expr f_env) (hfix : ev.fixes f_env) (pre : Node D) :
    ∀ (cs : List (Node D)) (env : Environment D) (cs1 : List (Node D)) (env1 : Environment D),
      marked_expr f_env cs = true → env.settled f_env →
      eval_should ev pre cs env = .ok (cs1, env1) →
      env1 = env ∧ (∀ c ∈ cs1, c.should_eval = true → c.is_fixed f_env = true) ∧
        eval_should ev pre cs1 env = .ok (cs1, env) := by
  intro cs
  induction cs with
  | nil =>
    intro env cs1 env1 _ _ h
    simp only [eval_should, Except.ok.injEq, Prod.mk.injEq] at h
    obtain ⟨rfl, rfl⟩ := h
    exact ⟨rfl, fun c hc => by simp at hc, rfl⟩
  | cons c cs ih =>
    intro env cs1 env1 hcs henv h
    simp only [marked_expr, List.all_cons, Bool.and_eq_true, Bool.or_eq_true,
      Bool.not_eq_true'] at hcs
    have hcs2 : marked_expr f_env cs = true := by
      simp only [marked_expr, List.all_eq_true, Bool.or_eq_true, Bool.not_eq_true']
      simpa [List.all_eq_true] using hcs.2
    simp only [eval_should] at h
    split at h
    · rename_i hse
      obtain ⟨r, hr, h⟩ := bind_ok h
      obtain ⟨⟨cs2, e2⟩, hrest, h⟩ := bind_ok h
      simp only [Except.ok.injEq, Prod.mk.injEq] at h
      obtain ⟨rfl, rfl⟩ := h
      have hce : c.is_expr f_env = true := by
        rcases hcs.1 with h0 | h0
        · rw [hse] at h0; exact absurd h0 (by simp)
        · exact h0
      obtain ⟨_, a2, a3⟩ := hev _ _ _ _ hce henv hr
      rw [a2] at hrest
      obtain ⟨i1, i2, i3⟩ := ih _ _ _ hcs2 henv hrest
      have hval : r.value.should_eval = true → r.value.is_fixed f_env = true := by
        intro hs
        simp only [Node.is_settled, Bool.and_eq_true, Bool.or_eq_true, Bool.not_eq_true']
          at a3
        rcases a3.1.2 with h0 | h0
        · rw [hs] at h0; exact absurd h0 (by simp)
        · exact h0
      refine ⟨i1, ?_, ?_⟩
      · intro x hx
        simp only [List.mem_cons] at hx
        rcases hx with hx | hx
        · rw [hx]; exact hval
        · exact i2 x hx
      · simp only [eval_should]
        by_cases hs : r.value.should_eval = true
        · simp only [hs, if_true, hfix _ _ _ _ hr r.value pre env (hval hs), i3, bind,
            Except.bind]
        · simp only [hs, i3, bind, Except.bind]
          rfl
    · rename_i hse
      obtain ⟨⟨cs2, e2⟩, hrest, h⟩ := bind_ok h
      simp only [Except.ok.injEq, Prod.mk.injEq] at h
      obtain ⟨rfl, rfl⟩ := h
      obtain ⟨i1, i2, i3⟩ := ih _ _ _ hcs2 henv hrest
      refine ⟨i1, ?_, ?_⟩
      · intro x hx
        simp only [List.mem_cons] at hx
        rcases hx with hx | hx
        · rw [hx]; intro hs; exact absurd hs hse
        · exact i2 x hx
      · simp only [eval_should, hse, i3, bind, Except.bind]
        rfl


theorem settled_of_list (f_env : FunctionTable D) (val : Node D) (cs : List (Node D))
    (hl : val.type = .comma_list ∨ val.type = .space_list) (hse : val.should_eval = false)
    (hcs : ∀ c ∈ cs, c.should_eval = true → c.is_fixed f_env = true) :
    Node.is_settled f_env ({ val with children := cs } : Node D) = true := by
  have hall : (cs.all fun c => !c.should_eval || c.is_fixed f_env) = true := by
    simp only [List.all_eq_true, Bool.or_eq_true, Bool.not_eq_true']
    intro c hc
    cases hs : c.should_eval with
    | false => exact Or.inl rfl
    | true => exact Or.inr (hcs c hc hs)
  rcases hl with hl | hl <;> simp [Node.is_settled, hl, hse, hall]

theorem settled_elements (f_env : FunctionTable D) (v : Node D)
    (hv : v.is_settled f_env = true) (hl : v.type = .comma_list ∨ v.type = .space_list) :
    ∀ c ∈ v.children, c.should_eval = true → c.is_fixed f_env = true := by
  intro c hc hs
  simp only [Node.is_settled, Bool.and_eq_true, Bool.or_eq_true, Bool.not_eq_true',
    List.all_eq_true, beq_iff_eq] at hv
  rcases hv.2 with h0 | h0
  · rcases hl with hl | hl <;> simp [hl] at h0
  · rcases h0 c hc with h1 | h1
    · rw [hs] at h1; exact absurd h1 (by simp)
    · exact h1

theorem settled_marked (f_env : FunctionTable D) (v : Node D)
    (hv : v.is_settled f_env = true) (hs : v.should_eval = true) :
    v.is_fixed f_env = true := by
  simp only [Node.is_settled, Bool.and_eq_true, Bool.or_eq_true, Bool.not_eq_true'] at hv
  rcases hv.1.2 with h0 | h0
  · rw [hs] at h0; exact absurd h0 (by simp)
  · exact h0

theorem settled_not_schema (f_env : FunctionTable D) (v : Node D)
    (hv : v.is_settled f_env = true) :
    ¬ (v.type = .value_schema ∨ v.type = .string_schema) := by
  simp only [Node.is_settled, Bool.and_eq_true, bne_iff_ne, ne_eq] at hv
  intro h
  rcases h with h | h
  · exact hv.1.1.1 h
  · exact hv.1.1.2 h

theorem eval_repeats (X : Collaborators D) (f_env : FunctionTable D)
    (hf : functions_settled f_env) :
    ∀ fuel, Evaluator.repeats f_env (eval X f_env fuel) := by
  intro fuel
  induction fuel with
  | zero =>
    intro s pre env r _ _ h
    simp [eval] at h
  | succ fuel ih =>
    intro s pre env r hs henv h
    have hkeep := eval_keeps_expr X f_env hf fuel
    have hfix := eval_fixes X f_env fuel
    rw [Node.is_stmt_eq] at hs
    cases hty : s.type with
    | root =>
      simp only [hty] at hs
      simp only [eval, hty] at h
      obtain ⟨⟨cs, env1⟩, hcs, h⟩ := bind_ok h
      simp only [Except.ok.injEq] at h
      rw [← h]
      obtain ⟨i1, i2⟩ := eval_children_repeats f_env ih pre _ _ _ _ hs henv hcs
      refine ⟨rfl, i1, ?_⟩
      simp only [eval, i2, bind, Except.bind]
    | block =>
      simp only [hty] at hs
      simp only [eval, hty] at h
      obtain ⟨⟨cs, env1⟩, hcs, h⟩ := bind_ok h
      simp only [Except.ok.injEq] at h
      rw [← h]
      obtain ⟨i1, i2⟩ := eval_children_repeats f_env ih pre _ _ _ _ hs
        (Environment.settled_link f_env env henv) hcs
      refine ⟨rfl, Environment.settled_unlink f_env _ i1, ?_⟩
      simp only [eval, i2, bind, Except.bind]
    | propset =>
      simp only [hty] at hs
      simp only [eval, hty] at h
      obtain ⟨c1, h1, h⟩ := bind_ok h
      obtain ⟨r1, hr1, h⟩ := bind_ok h
      simp only [Except.ok.injEq] at h
      rw [← h]
      have g1 := Node.child_ok h1
      have hc1 : c1.is_stmt f_env = true := by
        match hcs : s.children, g1, hs with
        | _ :: c :: _, g1, hs =>
          simp only [List.get?_cons_succ, List.get?_cons_zero, Option.some.injEq] at g1
          simpa [second_stmt, g1] using hs
      obtain ⟨_, a2, a3⟩ := ih _ _ _ _ hc1 henv hr1
      refine ⟨rfl, a2, ?_⟩
      have hch : (s.set 1 r1.expr).child 1 = .ok r1.expr := Node.child_set s _ c1 1 g1
      simp only [eval, Node.set, hty] at hch ⊢
      simp only [hch, a3, bind, Except.bind, List.set_set]
    | mixin =>
      simp only [hty] at hs
      have h0 := h
      simp only [eval, hty] at h
      obtain ⟨c0, _, h⟩ := bind_ok h
      simp only [Except.ok.injEq] at h
      have hse : s.should_eval = false := by simpa using hs
      have hsett : s.is_settled f_env = true :=
        Node.is_settled_of_plain f_env s hse (by simp [hty]) (by simp [hty]) (by simp [hty])
          (by simp [hty])
      refine ⟨by rw [← h], ?_, ?_⟩
      · rw [← h]
        exact Environment.settled_assign f_env env _ _ henv hsett
      · have : r.expr = s := by rw [← h]
        rw [this]; exact h0
    | assignment =>
      simp only [hty] at hs
      have h0 := h
      simp only [eval, hty] at h
      obtain ⟨val, hv, h⟩ := bind_ok h
      have gv := Node.child_ok hv
      have hval : (if val.type = .comma_list ∨ val.type = .space_list then
          !val.should_eval && marked_expr f_env val.children else val.is_expr f_env) = true := by
        match hcs : s.children, gv, hs with
        | _ :: c :: _, gv, hs =>
          simp only [List.get?_cons_succ, List.get?_cons_zero, Option.some.injEq] at gv
          simpa [assigned_ok, gv] using hs
      split at h
      · rename_i hl
        simp only [hl, if_true, Bool.and_eq_true, Bool.not_eq_true'] at hval
        obtain ⟨⟨cs, e1⟩, hcs, h⟩ := bind_ok h
        simp only [pure, Except.pure, bind, Except.bind] at h
        obtain ⟨var, hvar, h⟩ := bind_ok h
        simp only [Except.ok.injEq] at h
        obtain ⟨i1, i2, i3⟩ := eval_should_repeats f_env hkeep hfix pre _ _ _ _ hval.2 henv hcs
        simp only [i1] at h
        have hsett := settled_of_list f_env val cs hl hval.1 i2
        have henv2 : r.env.settled f_env := by
          rw [← h]
          simp only
          split
          · exact Environment.settled_assign f_env _ _ _ henv hsett
          · exact Environment.settled_bind_current f_env _ _ _ henv hsett
        refine ⟨by rw [← h], henv2, ?_⟩
        rw [← h]
        have hch : (s.set 1 { val with children := cs }).child 1
            = .ok { val with children := cs } := Node.child_set s _ val 1 gv
        simp only [eval, Node.set, hty] at hch hvar ⊢
        simp only [hch, hl, if_true, i3, pure, Except.pure, bind, Except.bind, List.set_set,
          hvar]
      · rename_i hl
        simp only [hl, if_false] at hval
        obtain ⟨r0, hr0, h⟩ := bind_ok h
        simp only [pure, Except.pure, bind, Except.bind] at h
        obtain ⟨var, hvar, h⟩ := bind_ok h
        simp only [Except.ok.injEq] at h
        obtain ⟨a1, a2, a3⟩ := hkeep _ _ _ _ hval henv hr0
        have hexpr : r.expr = s := by
          rw [← h]
          simp only [a1]
          exact Node.set_child s val 1 gv
        have henv2 : r.env.settled f_env := by
          rw [← h]
          simp only [a2]
          split
          · exact Environment.settled_assign f_env _ _ _ henv a3
          · exact Environment.settled_bind_current f_env _ _ _ henv a3
        refine ⟨by rw [← h], henv2, ?_⟩
        rw [hexpr]; exact h0
    | rule =>
      simp only [hty] at hs
      have h0 := h
      simp only [eval, hty] at h
      obtain ⟨rhs, hv, h⟩ := bind_ok h
      have gv := Node.child_ok hv
      have hval : (if rhs.type = .comma_list ∨ rhs.type = .space_list then
            marked_expr f_env rhs.children
          else if rhs.type = .value_schema ∨ rhs.type = .string_schema then false
          else !rhs.should_eval || rhs.is_expr f_env) = true := by
        match hcs : s.children, gv, hs with
        | _ :: c :: _, gv, hs =>
          simp only [List.get?_cons_succ, List.get?_cons_zero, Option.some.injEq] at gv
          simpa [rule_ok, gv] using hs
      split at h
      · rename_i hl
        simp only [hl, if_true] at hval
        obtain ⟨⟨cs, e1⟩, hcs, h⟩ := bind_ok h
        simp only [Except.ok.injEq] at h
        obtain ⟨i1, i2, i3⟩ := eval_should_repeats f_env hkeep hfix pre _ _ _ _ hval henv hcs
        simp only [i1] at h
        refine ⟨by rw [← h], by rw [← h]; exact henv, ?_⟩
        rw [← h]
        have hch : (s.set 1 { rhs with children := cs }).child 1
            = .ok { rhs with children := cs } := Node.child_set s _ rhs 1 gv
        simp only [eval, Node.set, hty] at hch ⊢
        simp only [hch, hl, if_true, i3, bind, Except.bind, List.set_set]
      · rename_i hl
        simp only [hl, if_false] at hval
        split at h
        · rename_i hsch
          simp [hsch] at hval
        · rename_i hsch
          simp only [hsch, if_false, Bool.or_eq_true, Bool.not_eq_true'] at hval
          split at h
          · rename_i hse
            have hre : rhs.is_expr f_env = true := by
              rcases hval with h1 | h1
              · rw [hse] at h1; exact absurd h1 (by simp)
              · exact h1
            obtain ⟨r0, hr0, h⟩ := bind_ok h
            simp only [Except.ok.injEq] at h
            obtain ⟨_, a2, a3⟩ := hkeep _ _ _ _ hre henv hr0
            refine ⟨by rw [← h], by rw [← h, a2]; exact henv, ?_⟩
            rw [← h]
            have hch : (s.set 1 r0.value).child 1 = .ok r0.value :=
              Node.child_set s _ rhs 1 gv
            simp only [eval, Node.set, hty] at hch ⊢
            simp only [hch, bind, Except.bind]
            by_cases hvl : r0.value.type = .comma_list ∨ r0.value.type = .space_list
            · have hloop := eval_should_fixed f_env pre
                (fun n p e hn => hfix _ _ _ _ hr0 n p e hn) r0.value.children env
                (settled_elements f_env _ a3 hvl)
              simp only [hvl, if_true, hloop, List.set_set, a2]
              have := Node.with_children r0.value
              simp only at this
              rw [this]
            · have hns := settled_not_schema f_env _ a3
              simp only [hvl, if_false, hns]
              by_cases hvs : r0.value.should_eval = true
              · have hf := hfix _ _ _ _ hr0 r0.value pre env (settled_marked f_env _ a3 hvs)
                simp only [hvs, if_true, hf, List.set_set, a2]
              · simp only [hvs, a2]
                rfl
          · simp only [Except.ok.injEq] at h
            refine ⟨by rw [← h], by rw [← h]; exact henv, ?_⟩
            have : r.expr = s := by rw [← h]
            rw [this]; exact h0
    | css_import =>
      simp only [hty] at hs
      have h0 := h
      simp only [eval, hty] at h
      obtain ⟨c0, hc0, h⟩ := bind_ok h
      obtain ⟨r0, hr0, h⟩ := bind_ok h
      simp only [Except.ok.injEq] at h
      have g0 := Node.child_ok hc0
      have hfx : c0.is_fixed f_env = true := by
        match hcs : s.children, g0, hs with
        | c :: _, g0, hs =>
          simp only [List.get?_cons_zero, Option.some.injEq] at g0
          simpa [first_fixed, g0] using hs
      have hr := hfix _ _ _ _ hr0 c0 pre env hfx
      rw [hr] at hr0
      simp only [Except.ok.injEq] at hr0
      have hexpr : r.expr = s := by
        rw [← h, ← hr0]
        exact Node.set_child s c0 0 g0
      refine ⟨by rw [← h], by rw [← h, ← hr0]; exact henv, ?_⟩
      rw [hexpr]; exact h0
    | _ => simp [hty] at hs


theorem eval_expansion_again (X : Collaborators D) (f_env : FunctionTable D) (fuel fuel2 : Nat)
    (t pre : Node D) (env : Environment D) (r1 r2 : Result D)
    (ht : t.type = .expansion) (h1 : eval X f_env fuel t pre env = .ok r1)
    (h2 : eval X f_env fuel2 r1.value pre env = .ok r2) :
    (∃ body, r1.value.children = t.children.dropLast.dropLast ++ body) ∧
    ∃ s args m, r1.value.child 0 = .ok s ∧ r1.value.child 1 = .ok args ∧
      env.lookup s.token = some m := by
  cases fuel with
  | zero => simp [eval] at h1
  | succ fuel =>
    simp only [eval, ht] at h1
    obtain ⟨c0, _, h1⟩ := bind_ok h1
    obtain ⟨args, _, h1⟩ := bind_ok h1
    split at h1
    · simp at h1
    · obtain ⟨⟨expansion, env1⟩, _, h1⟩ := bind_ok h1
      simp only [Except.ok.injEq] at h1
      have hty : r1.value.type = .expansion := by
        rw [← h1]; simp [Node.append, Node.pop_back, ht]
      refine ⟨⟨expansion.children, by rw [← h1]; simp [Node.append, Node.pop_back]⟩, ?_⟩
      cases fuel2 with
      | zero => simp [eval] at h2
      | succ fuel2 =>
        simp only [eval, hty] at h2
        obtain ⟨s, hs, h2⟩ := bind_ok h2
        obtain ⟨args2, ha, h2⟩ := bind_ok h2
        split at h2
        · simp at h2
        · rename_i m hm
          exact ⟨s, args2, m, hs, ha, hm⟩

/-- C2, as stated, fails. The ruleset `.a \x7b \x7d`, evaluated at top level,
becomes a ruleset with three children (the expanded selector is appended);
evaluating that result again gives a ruleset with four children, which is not
the result of the first evaluation. The inclusion `@include t` of
`@mixin t \x7b $t: 1; w: $t \x7d` becomes a node whose children are the two
statements of the body; evaluating that result again fails: the first
statement is read as the name of a mixin. And outside rulesets and inclusions:
in the rule `w: -(1px + solid)` the sum does not reduce, its two-element
accumulator is stored under the sign, and evaluating the result again reads a
third child of that accumulator, which it does not have. -/
theorem eval_not_idempotent :
    (eval plain [] 2 (node .ruleset [leaf .selector ".a", node .block []]) Node.null root_env
      = .ok { value := node .ruleset [leaf .selector ".a", node .block [], leaf .selector ".a"],
              expr := node .ruleset [leaf .selector ".a", node .block [], leaf .selector ".a"],
              env := root_env } ∧
    eval plain [] 2 (node .ruleset [leaf .selector ".a", node .block [], leaf .selector ".a"])
        Node.null root_env
      = .ok { value := node .ruleset [leaf .selector ".a", node .block [], leaf .selector ".a",
                leaf .selector ".a"],
              expr := node .ruleset [leaf .selector ".a", node .block [], leaf .selector ".a",
                leaf .selector ".a"],
              env := root_env } ∧
    node .ruleset [leaf .selector ".a", node .block [], leaf .selector ".a", leaf .selector ".a"]
      ≠ node .ruleset [leaf .selector ".a", node .block [], leaf .selector ".a"]) ∧
    (eval plain [] 4 (expansion_of "t" []) Node.null
        { current_frame := [("t", mixin_t)], parents := [] }
      = .ok { value := node .expansion [assign "$t" (num 1), rule "w" (num 1)],
              expr := node .expansion [assign "$t" (num 1), rule "w" (num 1)],
              env := { current_frame := [("t", mixin_t)], parents := [] } } ∧
    eval plain [] 4 (node .expansion [assign "$t" (num 1), rule "w" (num 1)]) Node.null
        { current_frame := [("t", mixin_t)], parents := [] }
      = .error (.thrown { type := .evaluation, path := "a.scss", line := 1,
                          message := "mixin  is undefined" })) ∧
    ((eval plain [] 4 signed_sum Node.null root_env).map
        (fun r => (r.value.children.get? 1).map fun v =>
          (v.type, v.children.map fun a => (a.type, a.children.length)))
      = .ok (some (.unary_minus, [(.expression, 2)])) ∧
    (eval plain [] 4 signed_sum Node.null root_env >>= fun r =>
        eval plain [] 4 r.value Node.null root_env)
      = .error .undefined) :=
  ⟨⟨rfl, rfl, fun h => by
      have := congrArg (fun n => n.children.length) h
      simp [node] at this⟩,
   ⟨rfl, rfl⟩, ⟨rfl, rfl⟩⟩

/-- C2, amended: let the tree `t` evaluate, from an outer selector, an
environment and a function table, to a result. When `t` is a tree of the
fragment (`root`, `block`, `propset`, mixin definitions, assignments, rules and
imports, over the expressions of the fragment: no `ruleset`, no `expansion`, no
schema), the environment binds settled values only and the functions of the
table return settled values, evaluating the resulting tree from the same
outer selector and environment succeeds, with the same fuel, and returns that
tree again, and the same environment. When `t` is a `ruleset`, no second
evaluation returns the tree of the first: one that succeeds returns a ruleset
with one child more. When `t` is an `expansion`, the first evaluation has put
the statements of the expanded body in the place of the name and the arguments,
and a second evaluation that succeeds has read the first two of them as a name
and an argument list, the name being bound in the environment. -/
theorem eval_twice (X : Collaborators D) (f_env : FunctionTable D) (fuel : Nat)
    (t pre : Node D) (env : Environment D) (r1 : Result D)
    (h1 : eval X f_env fuel t pre env = .ok r1) :
    (t.is_stmt f_env = true → functions_settled f_env → env.settled f_env →
      r1.expr = r1.value ∧
      eval X f_env fuel r1.value pre env
        = .ok { value := r1.value, expr := r1.value, env := r1.env }) ∧
    (t.type = .ruleset → ∀ fuel2 r2, eval X f_env fuel2 r1.value pre env = .ok r2 →
      r2.value.size = r1.value.size + 1 ∧ r2.value ≠ r1.value) ∧
    (t.type = .expansion →
      (∃ body, r1.value.children = t.children.dropLast.dropLast ++ body) ∧
      ∀ fuel2 r2, eval X f_env fuel2 r1.value pre env = .ok r2 →
        ∃ s args m, r1.value.child 0 = .ok s ∧ r1.value.child 1 = .ok args ∧
          env.lookup s.token = some m) := by
  refine ⟨?_, ?_, ?_⟩
  · intro ht hf henv
    obtain ⟨a1, _, a3⟩ := eval_repeats X f_env hf fuel t pre env r1 ht henv h1
    refine ⟨a1.symm, ?_⟩
    rw [a1, a3]
    congr 1
    cases r1
    simp only at a1
    simp [a1]
  · intro ht fuel2 r2 h2
    have ha := eval_ruleset_size X f_env fuel t pre env r1 ht h1
    have hb := (eval_ruleset_size X f_env fuel2 r1.value pre env r2 ha.1 h2).2
    refine ⟨hb, fun heq => ?_⟩
    rw [heq] at hb
    omega
  · intro ht
    cases fuel with
    | zero => simp [eval] at h1
    | succ fuel =>
      have h0 := h1
      simp only [eval, ht] at h1
      obtain ⟨c0, _, h1⟩ := bind_ok h1
      obtain ⟨args, _, h1⟩ := bind_ok h1
      split at h1
      · simp at h1
      · obtain ⟨⟨expansion, env1⟩, _, h1⟩ := bind_ok h1
        simp only [Except.ok.injEq] at h1
        refine ⟨⟨expansion.children, by rw [← h1]; simp [Node.append, Node.pop_back]⟩, ?_⟩
        intro fuel2 r2 h2
        exact (eval_expansion_again X f_env (fuel + 1) fuel2 t pre env r1 r2 ht h0 h2).2

/-- The stylesheet `plain_sheet`, which has no ruleset and no inclusion,
evaluates to `plain_sheet_evaluated`, and that tree evaluates to itself, with
the same environment. The result of the ruleset `.a \x7b \x7d` evaluates to a
ruleset with one child more. -/
theorem eval_twice_witness :
    (eval plain [] 4 plain_sheet Node.null root_env
      = .ok { value := plain_sheet_evaluated, expr := plain_sheet_evaluated,
              env := { current_frame := [("$x", num 1), ("m", mixin_m)], parents := [] } } ∧
     eval plain [] 4 plain_sheet_evaluated Node.null root_env
      = .ok { value := plain_sheet_evaluated, expr := plain_sheet_evaluated,
              env := { current_frame := [("$x", num 1), ("m", mixin_m)], parents := [] } }) ∧
    (node .ruleset [leaf .selector ".a", node .block [], leaf .selector ".a",
        leaf .selector ".a"]).size
      = (node .ruleset [leaf .selector ".a", node .block [], leaf .selector ".a"]).size + 1 :=
  ⟨⟨rfl, ((eval_twice plain [] 4 plain_sheet Node.null root_env
      { value := plain_sheet_evaluated, expr := plain_sheet_evaluated,
        env := { current_frame := [("$x", num 1), ("m", mixin_m)], parents := [] } } rfl).1
      rfl (fun key f h => by simp at h)
      (fun f hf p hp => by
        simp only [root_env, Environment.chain, List.mem_singleton] at hf
        rw [hf] at hp
        simp at hp)).2⟩,
   ((eval_twice plain [] 2 (node .ruleset [leaf .selector ".a", node .block []]) Node.null
      root_env
      { value := node .ruleset [leaf .selector ".a", node .block [], leaf .selector ".a"],
        expr := node .ruleset [leaf .selector ".a", node .block [], leaf .selector ".a"],
        env := root_env } rfl).2.1 rfl 2
      { value := node .ruleset [leaf .selector ".a", node .block [], leaf .selector ".a",
          leaf .selector ".a"],
        expr := node .ruleset [leaf .selector ".a", node .block [], leaf .selector ".a",
          leaf .selector ".a"],
        env := root_env } rfl).1⟩

end Theorems

end Sass
